import Mathlib

/-!
Verification of the `git_activity` display pipeline.

This file gives a shallow embedding, in Lean 4, of the pure core of
`git_activity.py`: the calendar-window builder (`last_n_weeks`), the
activity aggregator (`aggregate_gads`), the statistics module
(`calculate_quartiles`), the color chooser (`determine_color_for`),
ANSI-aware width measurement (`non_ansi_len`), and the block renderer
with its layout transforms.  Dates are embedded as unbounded integers
counting days (a "rata die" style encoding whose day 0 is 0000-03-01 of
the proleptic Gregorian calendar); Python dictionaries keyed by
repository path are embedded as association lists in insertion order;
Python strings are embedded as `List Char`.

Each definition carries a comment pointing at the Python source it
translates.  Theorems then settle the specification claims about these
definitions.
-/

namespace GitActivity

/-! ## Statistics module: `calculate_quartiles` (git_activity.py lines 412-421)

Python sorts the list in place ascending and indexes the sorted list at
`int(len/4)`, `int(len/2)` and `3 * int(len/4)`.  We embed the sort as
`List.insertionSort (· ≤ ·)` (any correct ascending sort of integers
yields the same list) and the (always in-bounds, see claim C10)
indexing as `getD _ 0`. -/

/-- `calculate_quartiles(list_of_numbers)`: returns the 1st, 2nd and 3rd
quartile of a list of ints as a tuple; `(0, 0, 0)` on the empty list. -/
def calculate_quartiles (list_of_numbers : List Int) : Int × Int × Int :=
  if list_of_numbers ≠ [] then
    let s := List.insertionSort (· ≤ ·) list_of_numbers
    let quartile_1 := s.getD (s.length / 4) 0
    let quartile_2 := s.getD (s.length / 2) 0
    let quartile_3 := s.getD (3 * (s.length / 4)) 0
    (quartile_1, quartile_2, quartile_3)
  else
    (0, 0, 0)

/-! ## Input validation: `positive_int` (git_activity.py lines 467-472)

The argparse handler converts its argument to an int, raises
`ArgumentTypeError` when the value is `<= 0`, and returns the value
otherwise.  Raising is embedded as `Except.error`. -/

/-- `positive_int(value)`: argparse handler for positive int types. -/
def positive_int (value : Int) : Except String Int :=
  if value ≤ 0 then
    Except.error "invalid positive int value"
  else
    Except.ok value

/-! ## Color selection (git_activity.py lines 36-47, 67-72, 201-235) -/

/-- The `COLORWAYS` palette: one row of five shades per hue, the last
row reserved for "multiple repositories active". -/
def COLORWAYS : List (List Nat) :=
  [[236, 94, 136, 172, 208],
   [236, 58, 100, 142, 184],
   [236, 22, 28, 34, 40],
   [236, 23, 30, 37, 44],
   [236, 53, 90, 127, 164],
   [236, 17, 18, 19, 20],
   [236, 52, 88, 124, 160],
   [236, 238, 241, 248, 255]]

/-- `DEFAULT_COLOR` (git_activity.py line 47). -/
def DEFAULT_COLOR : Nat := 244

/-- A GAD is a pair of a date and a repository → commit-count mapping.
The mapping is a Python dict embedded as an association list in
insertion order (commit counts are non-negative, per the data model). -/
abbrev Gad := Int × List (String × Nat)

/-- `only1(iterable)`: Python advances an iterator with `any` twice:
`any(i)` consumes elements up to and including the first truthy one and
`not any(i)` then demands no further truthy element.  On a list of
commit counts a count is truthy iff it is nonzero. -/
def only1 (l : List Nat) : Bool :=
  match l.dropWhile (· == 0) with
  | [] => false
  | _ :: rest => !(rest.any (· != 0))

/-- The intensity cascade at the end of `determine_color_for`
(git_activity.py lines 224-233): bucket a total commit count against a
quartile triple. -/
def color_index_of (total_commits : Nat) (quartiles : Int × Int × Int) : Nat :=
  if total_commits = 0 then 0
  else if (total_commits : Int) ≤ quartiles.1 then 1
  else if (total_commits : Int) ≤ quartiles.2.1 then 2
  else if (total_commits : Int) ≤ quartiles.2.2 then 3
  else 4

/-- `determine_color_for(gad, quartiles)`: hue row chosen by the active
repository (or the reserved last row when not exactly one repository is
active), shade chosen by bucketing the total commit count against the
quartiles.  The Python loop over `gad[1].iteritems()` records the last
repository with a positive count in `active_repo` and sums the positive
counts into `total_commits`; `repo_color_key.index(active_repo)` is the
index of the first key equal to `active_repo`. -/
def determine_color_for (gad : Gad) (quartiles : Int × Int × Int) : Nat :=
  let repo_color_key := gad.2.map Prod.fst
  let loop := gad.2.foldl
    (fun (acc : String × Nat) p =>
      if p.2 > 0 then (p.1, acc.2 + p.2) else acc) ("", 0)
  let active_repo := loop.1
  let total_commits := loop.2
  let colorway :=
    if !(only1 (gad.2.map Prod.snd)) then COLORWAYS.length - 1
    else (repo_color_key.indexOf active_repo) % (COLORWAYS.length - 1)
  let color_index := color_index_of total_commits quartiles
  (COLORWAYS.getD colorway []).getD color_index 0

end GitActivity

namespace GitActivity

/-! ## Supporting lemmas for the quartile and color claims -/

/-- The number of repositories with a positive commit count in a GAD. -/
def active_count (gad : Gad) : Nat :=
  gad.2.countP (fun p => decide (0 < p.2))

/-- The total commit count of a GAD across all repositories. -/
def gad_total (gad : Gad) : Nat :=
  (gad.2.map Prod.snd).sum

theorem only1_iff (l : List Nat) :
    only1 l = true ↔ l.countP (fun c => decide (0 < c)) = 1 := by
  induction l with
  | nil => simp [only1]
  | cons h t ih =>
    cases h with
    | zero =>
      have hc : List.countP (fun c => decide (0 < c)) (0 :: t)
          = List.countP (fun c => decide (0 < c)) t :=
        List.countP_cons_of_neg _ t (by simp)
      have ho : only1 (0 :: t) = only1 t := by
        unfold only1
        rw [show List.dropWhile (fun x => x == 0) (0 :: t)
              = List.dropWhile (fun x => x == 0) t by simp]
      rw [ho, hc]
      exact ih
    | succ n =>
      have hc : List.countP (fun c => decide (0 < c)) ((n + 1) :: t)
          = List.countP (fun c => decide (0 < c)) t + 1 :=
        List.countP_cons_of_pos _ t (by simp)
      have ho : only1 ((n + 1) :: t) = !(t.any (· != 0)) := by
        unfold only1
        rw [show List.dropWhile (fun x => x == 0) ((n + 1) :: t) = (n + 1) :: t by simp]
      rw [ho, hc]
      constructor
      · intro hall
        have hfa : t.any (· != 0) = false := by
          cases hb : t.any (· != 0)
          · rfl
          · rw [hb] at hall
            simp at hall
        have h0 : t.countP (fun c => decide (0 < c)) = 0 := by
          rw [List.countP_eq_zero]
          intro a ha
          have := List.any_eq_false.mp hfa a ha
          simpa using this
        omega
      · intro hz
        have h0 : t.countP (fun c => decide (0 < c)) = 0 := by omega
        simp only [Bool.not_eq_true', List.any_eq_false]
        intro a ha
        have := List.countP_eq_zero.mp h0 a ha
        simpa using this

theorem loop_total (l : List (String × Nat)) (acc : String × Nat) :
    (l.foldl (fun (acc : String × Nat) p =>
      if p.2 > 0 then (p.1, acc.2 + p.2) else acc) acc).2
      = acc.2 + (l.map Prod.snd).sum := by
  induction l generalizing acc with
  | nil => simp
  | cons p t ih =>
    by_cases hp : p.2 > 0
    · simp [hp, ih, Nat.add_assoc]
    · have : p.2 = 0 := by omega
      simp [hp, ih, this]

theorem loop_active_of_none (l : List (String × Nat)) (acc : String × Nat)
    (h : l.countP (fun p => decide (0 < p.2)) = 0) :
    (l.foldl (fun (acc : String × Nat) p =>
      if p.2 > 0 then (p.1, acc.2 + p.2) else acc) acc).1 = acc.1 := by
  induction l generalizing acc with
  | nil => rfl
  | cons p t ih =>
    have hp : ¬ (p.2 > 0) := by
      by_contra hc
      rw [List.countP_cons_of_pos _ t (by simpa using hc)] at h
      omega
    rw [List.countP_cons_of_neg _ t (by simpa using hp)] at h
    simp only [List.foldl_cons, if_neg hp]
    exact ih acc h

theorem loop_active_of_one (l : List (String × Nat)) (r : String) (c : Nat)
    (hmem : (r, c) ∈ l) (hc : 0 < c)
    (h : l.countP (fun p => decide (0 < p.2)) = 1) (acc : String × Nat) :
    (l.foldl (fun (acc : String × Nat) p =>
      if p.2 > 0 then (p.1, acc.2 + p.2) else acc) acc).1 = r := by
  induction l generalizing acc with
  | nil => cases hmem
  | cons p t ih =>
    by_cases hp : p.2 > 0
    · have ht : t.countP (fun q => decide (0 < q.2)) = 0 := by
        rw [List.countP_cons_of_pos _ t (by simpa using hp)] at h
        omega
      have hr : p.1 = r := by
        rcases List.mem_cons.mp hmem with heq | htail
        · rw [← heq]
        · exfalso
          have := List.countP_eq_zero.mp ht (r, c) htail
          simp [hc] at this
      simp only [List.foldl_cons, if_pos hp]
      rw [loop_active_of_none t _ ht]
      exact hr
    · have hz : p.2 = 0 := by omega
      have htail : (r, c) ∈ t := by
        rcases List.mem_cons.mp hmem with heq | htail
        · exfalso; rw [← heq] at hz; omega
        · exact htail
      have ht : t.countP (fun q => decide (0 < q.2)) = 1 := by
        rw [List.countP_cons_of_neg _ t (by simpa using hp)] at h
        exact h
      simp only [List.foldl_cons, if_neg hp]
      exact ih htail ht acc

theorem active_count_only1 (gad : Gad) :
    only1 (gad.2.map Prod.snd) = true ↔ active_count gad = 1 := by
  rw [only1_iff, List.countP_map, active_count]
  rfl

end GitActivity

namespace GitActivity

/-! ## Claim C2 (corrected) and claim C10 -/

/-- Claim C2, counterexample: the claim places Q3 at index `⌊3·len/4⌋`
of the ascending-sorted list, but on `[1,2,3,4,5,6]` the code indexes
`3 * ⌊6/4⌋ = 3` (element `4`) while `⌊3·6/4⌋ = 4` (element `5`). -/
theorem calculate_quartiles_claim_false :
    ¬ (calculate_quartiles [1, 2, 3, 4, 5, 6]
        = ((List.insertionSort (· ≤ ·) [(1 : Int), 2, 3, 4, 5, 6]).getD (6 / 4) 0,
           (List.insertionSort (· ≤ ·) [(1 : Int), 2, 3, 4, 5, 6]).getD (6 / 2) 0,
           (List.insertionSort (· ≤ ·) [(1 : Int), 2, 3, 4, 5, 6]).getD (3 * 6 / 4) 0)) := by
  decide

/-- Claim C2, amended: `calculate_quartiles` returns `(0,0,0)` on the
empty list, and on a non-empty list of length `len` returns the
elements of the ascending-sorted list at indices `⌊len/4⌋`, `⌊len/2⌋`
and `3·⌊len/4⌋` (not `⌊3·len/4⌋`); in particular
`calculate_quartiles [1,...,8] = (3,5,7)`. -/
theorem calculate_quartiles_spec :
    calculate_quartiles [] = (0, 0, 0) ∧
    (∀ (l s : List Int), l ≠ [] → s.Perm l → s.Sorted (· ≤ ·) →
      calculate_quartiles l
        = (s.getD (l.length / 4) 0, s.getD (l.length / 2) 0,
           s.getD (3 * (l.length / 4)) 0)) ∧
    calculate_quartiles [1, 2, 3, 4, 5, 6, 7, 8] = (3, 5, 7) := by
  refine ⟨by decide, ?_, by decide⟩
  intro l s hl hperm hsorted
  have hs : s = List.insertionSort (· ≤ ·) l := by
    apply List.eq_of_perm_of_sorted
      (hperm.trans (List.perm_insertionSort (· ≤ ·) l).symm) hsorted
    exact List.sorted_insertionSort (· ≤ ·) l
  have hlen : (List.insertionSort (· ≤ ·) l).length = l.length :=
    (List.perm_insertionSort (· ≤ ·) l).length_eq
  rw [hs]
  simp only [calculate_quartiles, if_pos hl, hlen]

/-- Witness for the amended claim C2 at a concrete input. -/
theorem calculate_quartiles_spec_witness :
    calculate_quartiles [2, 1] = (1, 2, 1) := by
  have h := calculate_quartiles_spec.2.1 [2, 1] [1, 2]
    (by decide) (by decide) (by decide)
  rw [h]
  decide

/-- Claim C10: on a non-empty list of length `n` the three indices the
code uses — `⌊n/4⌋`, `⌊n/2⌋` and `3·⌊n/4⌋` — are all strictly below
`n`, so the indexing stays in bounds and every component of the result
is an element of the input list. -/
theorem calculate_quartiles_indices_in_bounds (l : List Int) (hl : l ≠ []) :
    (l.length / 4 < l.length ∧ l.length / 2 < l.length ∧
      3 * (l.length / 4) < l.length) ∧
    ((calculate_quartiles l).1 ∈ l ∧ (calculate_quartiles l).2.1 ∈ l ∧
      (calculate_quartiles l).2.2 ∈ l) := by
  have hn : 0 < l.length := List.length_pos.mpr hl
  have hidx : l.length / 4 < l.length ∧ l.length / 2 < l.length ∧
      3 * (l.length / 4) < l.length := by
    refine ⟨?_, ?_, ?_⟩ <;> omega
  refine ⟨hidx, ?_⟩
  have hperm := List.perm_insertionSort (· ≤ ·) l
  have hlen : (List.insertionSort (· ≤ ·) l).length = l.length := hperm.length_eq
  have hm : ∀ i, i < l.length →
      (List.insertionSort (· ≤ ·) l).getD i 0 ∈ l := by
    intro i hi
    have hi' : i < (List.insertionSort (· ≤ ·) l).length := by omega
    rw [List.getD_eq_getElem _ _ hi']
    exact hperm.mem_iff.mp (List.getElem_mem hi')
  have hq : calculate_quartiles l
      = ((List.insertionSort (· ≤ ·) l).getD (l.length / 4) 0,
         (List.insertionSort (· ≤ ·) l).getD (l.length / 2) 0,
         (List.insertionSort (· ≤ ·) l).getD (3 * (l.length / 4)) 0) := by
    simp only [calculate_quartiles, if_pos hl, hlen]
  rw [hq]
  exact ⟨hm _ hidx.1, hm _ hidx.2.1, hm _ hidx.2.2⟩

/-- Witness for claim C10 at a concrete input. -/
theorem calculate_quartiles_indices_in_bounds_witness :
    ((3 : Nat) / 4 < 3 ∧ (3 : Nat) / 2 < 3 ∧ 3 * ((3 : Nat) / 4) < 3) ∧
    ((calculate_quartiles [5, 9, 7]).1 ∈ [(5 : Int), 9, 7] ∧
      (calculate_quartiles [5, 9, 7]).2.1 ∈ [(5 : Int), 9, 7] ∧
      (calculate_quartiles [5, 9, 7]).2.2 ∈ [(5 : Int), 9, 7]) := by
  have h := calculate_quartiles_indices_in_bounds [5, 9, 7] (by decide)
  simpa using h

end GitActivity

namespace GitActivity

/-! ## Claim C9: input validation -/

/-- Claim C9: `positive_int` raises an input error exactly when the
value is non-positive and returns the value itself otherwise (argparse
runs this validator while parsing flags, before any aggregation). -/
theorem positive_int_spec (value : Int) :
    ((∃ e, positive_int value = Except.error e) ↔ value ≤ 0) ∧
    (0 < value → positive_int value = Except.ok value) := by
  by_cases h : value ≤ 0
  · refine ⟨⟨fun _ => h, fun _ => ⟨_, by rw [positive_int, if_pos h]⟩⟩, ?_⟩
    intro hpos
    omega
  · refine ⟨⟨?_, fun hc => absurd hc h⟩, fun _ => by rw [positive_int, if_neg h]⟩
    rintro ⟨e, he⟩
    rw [positive_int, if_neg h] at he
    cases he

/-- Witness for claim C9 at a concrete input. -/
theorem positive_int_spec_witness : positive_int 5 = Except.ok 5 :=
  (positive_int_spec 5).2 (by decide)

/-! ## Claim C3: hue selection in `determine_color_for` -/

/-- Claim C3: with two or more active repositories the hue row is the
reserved last palette row regardless of counts; with exactly one active
repository the hue row is that repository's index among the GAD's keys
modulo (palette size − 1); with none active the color equals palette
row 0's zero-bucket shade. -/
theorem determine_color_for_hue (gad : Gad) (q : Int × Int × Int) :
    (2 ≤ active_count gad →
      determine_color_for gad q
        = (COLORWAYS.getD (COLORWAYS.length - 1) []).getD
            (color_index_of (gad_total gad) q) 0) ∧
    (∀ r c, (r, c) ∈ gad.2 → 0 < c → active_count gad = 1 →
      determine_color_for gad q
        = (COLORWAYS.getD
            ((gad.2.map Prod.fst).indexOf r % (COLORWAYS.length - 1)) []).getD
            (color_index_of (gad_total gad) q) 0) ∧
    (active_count gad = 0 →
      determine_color_for gad q = (COLORWAYS.getD 0 []).getD 0 0) := by
  have htot : (gad.2.foldl (fun (acc : String × Nat) p =>
      if p.2 > 0 then (p.1, acc.2 + p.2) else acc) ("", 0)).2 = gad_total gad := by
    rw [loop_total]
    simp [gad_total]
  refine ⟨?_, ?_, ?_⟩
  · intro h2
    have ho : only1 (gad.2.map Prod.snd) = false := by
      cases hb : only1 (gad.2.map Prod.snd)
      · rfl
      · have := (active_count_only1 gad).mp hb
        omega
    simp only [determine_color_for, ho, Bool.not_false, if_pos, htot]
  · intro r c hmem hc h1
    have ho : only1 (gad.2.map Prod.snd) = true :=
      (active_count_only1 gad).mpr h1
    have hact : (gad.2.foldl (fun (acc : String × Nat) p =>
        if p.2 > 0 then (p.1, acc.2 + p.2) else acc) ("", 0)).1 = r :=
      loop_active_of_one gad.2 r c hmem hc h1 ("", 0)
    simp only [determine_color_for, ho, Bool.not_true, Bool.false_eq_true,
      if_false, hact, htot]
  · intro h0
    have ho : only1 (gad.2.map Prod.snd) = false := by
      cases hb : only1 (gad.2.map Prod.snd)
      · rfl
      · have := (active_count_only1 gad).mp hb
        omega
    have hz : gad_total gad = 0 := by
      rw [gad_total, List.sum_eq_zero]
      intro x hx
      rcases List.mem_map.mp hx with ⟨p, hp, hpx⟩
      have := List.countP_eq_zero.mp h0 p hp
      simp at this
      omega
    simp only [determine_color_for, ho, Bool.not_false, if_pos, htot, hz]
    rfl

/-- Witness for claim C3 at concrete inputs exercising all three cases. -/
theorem determine_color_for_hue_witness :
    determine_color_for (0, [("a", 1), ("b", 2)]) (1, 3, 5) = 241 ∧
    determine_color_for (0, [("a", 0), ("b", 2)]) (1, 3, 5) = 100 ∧
    determine_color_for (0, [("a", 0), ("b", 0)]) (1, 3, 5) = 236 := by
  refine ⟨?_, ?_, ?_⟩
  · rw [(determine_color_for_hue (0, [("a", 1), ("b", 2)]) (1, 3, 5)).1 (by decide)]
    decide
  · rw [(determine_color_for_hue (0, [("a", 0), ("b", 2)]) (1, 3, 5)).2.1
      "b" 2 (by decide) (by decide) (by decide)]
    decide
  · rw [(determine_color_for_hue (0, [("a", 0), ("b", 0)]) (1, 3, 5)).2.2 (by decide)]
    decide

end GitActivity

namespace GitActivity

/-! ## ANSI escape sequences: `non_ansi_len` (git_activity.py lines 57-64)
and `colorize_string` (lines 238-240)

The pyparsing grammar is `Combine(esc + '[' + Optional(delimitedList(
integer, ';')) + oneOf(list(alphas)))`: an escape sequence is ESC, `[`,
optionally one or more runs of digits separated by `;`, then exactly one
letter.  `Suppress(...).transformString` removes every match, scanning
left to right.  `fg(color)` of the `colored` library produces
`"\x1b[38;5;%dm" % color`. -/

/-- Auxiliary list fact: `dropWhile` never lengthens a list. -/
theorem length_dropWhile_le (p : Char → Bool) (l : List Char) :
    (l.dropWhile p).length ≤ l.length := by
  induction l with
  | nil => simp
  | cons c t ih =>
    rw [List.dropWhile_cons]
    split
    · exact Nat.le_succ_of_le ih
    · simp

/-- `takeWhile` over an append whose right part starts with a character
breaking the predicate stops within the left part. -/
theorem takeWhile_append_break (p : Char → Bool) (t b : List Char) (c : Char)
    (hc : p c = false) :
    (t ++ c :: b).takeWhile p = t.takeWhile p ∧
    (t ++ c :: b).dropWhile p = t.dropWhile p ++ c :: b := by
  induction t with
  | nil => simp [List.takeWhile_cons, List.dropWhile_cons, hc]
  | cons x t ih =>
    by_cases hx : p x
    · simp only [List.cons_append, List.takeWhile_cons, List.dropWhile_cons, hx,
        if_pos, ih.1, ih.2, and_self, List.cons_append]
    · simp [List.takeWhile_cons, List.dropWhile_cons, hx]

/-- Parse, after `ESC [` and a first run of digits, zero or more
`; digits` groups followed by one letter; return the remainder of the
input after the single-letter terminator, or `none` when the grammar
does not match at this position. -/
def matchSemis : List Char → Option (List Char)
  | [] => none
  | c :: rest =>
    if c.isAlpha then some rest
    else if c = ';' then
      if (rest.takeWhile Char.isDigit).isEmpty then none
      else matchSemis (rest.dropWhile Char.isDigit)
    else none
termination_by l => l.length
decreasing_by
  simp only [List.length_cons]
  exact Nat.lt_succ_of_le (length_dropWhile_le _ _)

/-- The part of an escape-sequence match after `ESC [`: either a letter
at once (empty digit list), or digits followed by `matchSemis`. -/
def matchEscBody : List Char → Option (List Char)
  | [] => none
  | c :: rest2 =>
    if c.isAlpha then some rest2
    else if c.isDigit then matchSemis ((c :: rest2).dropWhile Char.isDigit)
    else none

/-- Match one full ANSI escape sequence (`ESC [ digits(;digits)* letter`,
the digit list optional) at the head of the input; return the remainder
after the sequence, or `none`. -/
def matchEsc : List Char → Option (List Char)
  | c1 :: c2 :: rest =>
    if c1 = '\x1b' ∧ c2 = '[' then matchEscBody rest else none
  | _ => none

theorem matchSemis_shrink (l : List Char) :
    ∀ r, matchSemis l = some r → r.length < l.length := by
  induction l using matchSemis.induct with
  | case1 =>
    intro r hr
    simp [matchSemis] at hr
  | case2 c rest halpha =>
    intro r hr
    simp only [matchSemis, if_pos halpha, Option.some.injEq] at hr
    subst hr
    simp
  | case3 rest hemp halpha =>
    intro r hr
    simp [matchSemis, halpha, hemp] at hr
  | case4 rest hemp halpha ih =>
    intro r hr
    simp only [matchSemis] at hr
    split_ifs at hr
    have h1 := ih r hr
    have h2 := length_dropWhile_le Char.isDigit rest
    simp only [List.length_cons]
    omega
  | case5 c rest halpha hne =>
    intro r hr
    simp [matchSemis, halpha, hne] at hr

theorem matchEscBody_shrink (l : List Char) :
    ∀ r, matchEscBody l = some r → r.length < l.length := by
  match l with
  | [] => intro r hr; simp [matchEscBody] at hr
  | c :: rest2 =>
    intro r hr
    by_cases halpha : c.isAlpha
    · simp only [matchEscBody, if_pos halpha, Option.some.injEq] at hr
      subst hr
      simp
    · by_cases hdig : c.isDigit
      · simp only [matchEscBody, if_neg halpha, if_pos hdig] at hr
        have h1 := matchSemis_shrink _ r hr
        have h2 : ((c :: rest2).dropWhile Char.isDigit).length ≤ rest2.length := by
          rw [List.dropWhile_cons, if_pos hdig]
          exact length_dropWhile_le _ _
        simp only [List.length_cons]
        omega
      · simp [matchEscBody, halpha, hdig] at hr

theorem matchEsc_shrink (l : List Char) :
    ∀ r, matchEsc l = some r → r.length < l.length := by
  match l with
  | [] => intro r hr; simp [matchEsc] at hr
  | [c] => intro r hr; simp [matchEsc] at hr
  | c1 :: c2 :: rest =>
    intro r hr
    by_cases hpre : c1 = '\x1b' ∧ c2 = '['
    · simp only [matchEsc, if_pos hpre] at hr
      have := matchEscBody_shrink rest r hr
      simp only [List.length_cons]
      omega
    · simp [matchEsc, hpre] at hr

/-- `Suppress(escape_seq).transformString`: delete every match of the
escape-sequence grammar, scanning left to right, keeping other
characters. -/
def stripAnsi : List Char → List Char
  | [] => []
  | c :: rest =>
    match h : matchEsc (c :: rest) with
    | some rest2 => stripAnsi rest2
    | none => c :: stripAnsi rest
termination_by l => l.length
decreasing_by
  · exact matchEsc_shrink _ _ h
  · simp

/-- `non_ansi_len(input_string)`: the length of the input with ANSI
escape codes stripped. -/
def non_ansi_len (input_string : List Char) : Nat :=
  (stripAnsi input_string).length

/-- Decimal digit characters of a natural number (Python `"%d" % n`),
with structural fuel (`n` itself always suffices since `n / 10 < n`). -/
def natDigitsAux : Nat → Nat → List Char → List Char
  | 0, _, acc => acc
  | fuel + 1, n, acc =>
    if n = 0 then acc
    else natDigitsAux fuel (n / 10) (Nat.digitChar (n % 10) :: acc)

/-- Decimal representation of a natural number as characters. -/
def natDigits (n : Nat) : List Char :=
  if n = 0 then ['0'] else natDigitsAux n n []

/-- `fg(color)` of the `colored` library: `"\x1b[38;5;%dm" % color`. -/
def fg (color : Nat) : List Char :=
  '\x1b' :: '[' :: '3' :: '8' :: ';' :: '5' :: ';' :: (natDigits color ++ ['m'])

/-- `colorize_string(string, color, default=DEFAULT_COLOR)`: wrap the
string in a foreground-color escape and a reset to the default color. -/
def colorize_string (s : List Char) (color : Nat) (dflt : Nat := DEFAULT_COLOR) :
    List Char :=
  fg color ++ s ++ fg dflt

end GitActivity

namespace GitActivity

theorem natDigitsAux_digits : ∀ (fuel n : Nat) (acc : List Char),
    (∀ c ∈ acc, c.isDigit = true) → ∀ c ∈ natDigitsAux fuel n acc, c.isDigit = true := by
  intro fuel
  induction fuel with
  | zero => intro n acc hacc; simpa [natDigitsAux] using hacc
  | succ f ih =>
    intro n acc hacc
    rw [natDigitsAux]
    split
    · exact hacc
    · apply ih
      intro c hc
      rcases List.mem_cons.mp hc with h | h
      · subst h
        have h10 : n % 10 < 10 := Nat.mod_lt _ (by decide)
        have hd : ∀ d, d < 10 → (Nat.digitChar d).isDigit = true := by decide
        exact hd _ h10
      · exact hacc c h

theorem natDigitsAux_ne : ∀ (fuel n : Nat) (acc : List Char),
    acc ≠ [] → natDigitsAux fuel n acc ≠ [] := by
  intro fuel
  induction fuel with
  | zero => intro n acc h; simpa [natDigitsAux] using h
  | succ f ih =>
    intro n acc h
    rw [natDigitsAux]
    split
    · exact h
    · exact ih _ _ (by simp)

theorem natDigits_digits (n : Nat) : ∀ c ∈ natDigits n, c.isDigit = true := by
  rw [natDigits]
  split
  · intro c hc
    rcases List.mem_singleton.mp hc with rfl
    decide
  · exact natDigitsAux_digits n n [] (by simp)

theorem natDigits_ne (n : Nat) : natDigits n ≠ [] := by
  rw [natDigits]
  split
  · simp
  · rename_i hn
    cases n with
    | zero => exact absurd rfl hn
    | succ k =>
      rw [natDigitsAux, if_neg hn]
      exact natDigitsAux_ne k _ _ (by simp)

/-- All-digit lists are fully consumed by `takeWhile Char.isDigit`. -/
theorem takeWhile_digits_all (l : List Char) (hall : ∀ c ∈ l, c.isDigit = true) :
    l.takeWhile Char.isDigit = l ∧ l.dropWhile Char.isDigit = [] := by
  induction l with
  | nil => simp
  | cons c t ih =>
    have hc : c.isDigit = true := hall c (by simp)
    have ht := ih (fun x hx => hall x (List.mem_cons_of_mem _ hx))
    simp [List.takeWhile_cons, List.dropWhile_cons, hc, ht.1, ht.2]

theorem matchSemis_append (u w : List Char) :
    matchSemis (u ++ '\x1b' :: w) = (matchSemis u).map (· ++ '\x1b' :: w) := by
  induction u using matchSemis.induct with
  | case1 =>
    have h1 : ('\x1b').isAlpha = false := by decide
    have h2 : ¬(('\x1b') = ';') := by decide
    simp [matchSemis, h1, h2]
  | case2 c rest halpha =>
    simp only [List.cons_append, matchSemis, if_pos halpha]
    rfl
  | case3 rest hemp halpha =>
    have hbr := takeWhile_append_break Char.isDigit rest w '\x1b' (by decide)
    simp only [List.cons_append, matchSemis, hbr.1]
    rw [if_neg halpha, if_neg halpha]
    simp [hemp]
  | case4 rest hemp halpha ih =>
    have hbr := takeWhile_append_break Char.isDigit rest w '\x1b' (by decide)
    simp only [List.cons_append, matchSemis, hbr.1, hbr.2]
    rw [if_neg halpha, if_neg halpha]
    simp [hemp, ih]
  | case5 c rest halpha hne =>
    simp [matchSemis, halpha, hne]

theorem matchEscBody_append (u w : List Char) :
    matchEscBody (u ++ '\x1b' :: w) = (matchEscBody u).map (· ++ '\x1b' :: w) := by
  match u with
  | [] =>
    have h1 : ('\x1b').isAlpha = false := by decide
    have h2 : ('\x1b').isDigit = false := by decide
    simp [matchEscBody, h1, h2]
  | c :: rest2 =>
    by_cases halpha : c.isAlpha
    · simp only [List.cons_append, matchEscBody, if_pos halpha]
      rfl
    · by_cases hdig : c.isDigit
      · have hbr := takeWhile_append_break Char.isDigit (c :: rest2) w '\x1b' (by decide)
        simp only [List.cons_append, matchEscBody, if_neg halpha, if_pos hdig]
        rw [show c :: (rest2 ++ '\x1b' :: w) = (c :: rest2) ++ '\x1b' :: w from rfl, hbr.2]
        exact matchSemis_append _ w
      · simp [matchEscBody, halpha, hdig]

theorem matchEsc_append (u w : List Char) (hu : u ≠ []) :
    matchEsc (u ++ '\x1b' :: w) = (matchEsc u).map (· ++ '\x1b' :: w) := by
  match u with
  | [] => exact absurd rfl hu
  | [c] =>
    have h2 : ¬(('\x1b') = '[') := by decide
    simp only [List.cons_append, List.nil_append, matchEsc]
    rw [if_neg (by tauto)]
    rfl
  | c1 :: c2 :: rest =>
    by_cases hpre : c1 = '\x1b' ∧ c2 = '['
    · simp only [List.cons_append, matchEsc, if_pos hpre]
      exact matchEscBody_append rest w
    · simp only [List.cons_append, matchEsc, if_neg hpre]
      rfl

end GitActivity

namespace GitActivity

theorem matchEsc_fg (color : Nat) (t : List Char) :
    matchEsc (fg color ++ t) = some t := by
  have hnd := natDigits_digits color
  have hne := natDigits_ne color
  have hbr := takeWhile_append_break Char.isDigit (natDigits color) t 'm' (by decide)
  have hdW : (natDigits color ++ 'm' :: t).dropWhile Char.isDigit = 'm' :: t := by
    rw [hbr.2, (takeWhile_digits_all _ hnd).2]
    rfl
  have htW : ((natDigits color ++ 'm' :: t).takeWhile Char.isDigit).isEmpty = false := by
    rw [hbr.1, (takeWhile_digits_all _ hnd).1]
    cases hcase : natDigits color with
    | nil => exact absurd hcase hne
    | cons a b => rfl
  have hshape : fg color ++ t
      = '\x1b' :: '[' :: '3' :: '8' :: ';' :: '5' :: ';' :: (natDigits color ++ 'm' :: t) := by
    simp [fg]
  rw [hshape, matchEsc, if_pos ⟨rfl, rfl⟩, matchEscBody]
  rw [if_neg (by decide), if_pos (by decide)]
  rw [show ('3' :: '8' :: ';' :: '5' :: ';' :: (natDigits color ++ 'm' :: t)).dropWhile
        Char.isDigit = ';' :: '5' :: ';' :: (natDigits color ++ 'm' :: t) from by
    simp [List.dropWhile_cons]]
  rw [matchSemis, if_neg (by decide), if_pos rfl]
  rw [show (('5' :: ';' :: (natDigits color ++ 'm' :: t)).takeWhile Char.isDigit).isEmpty
        = false from by simp [List.takeWhile_cons]]
  rw [show ('5' :: ';' :: (natDigits color ++ 'm' :: t)).dropWhile Char.isDigit
        = ';' :: (natDigits color ++ 'm' :: t) from by simp [List.dropWhile_cons]]
  simp only [Bool.false_eq_true, if_false]
  rw [matchSemis, if_neg (by decide), if_pos rfl, htW, hdW]
  simp only [Bool.false_eq_true, if_false]
  rw [matchSemis, if_pos (by decide)]

end GitActivity

namespace GitActivity

theorem stripAnsi_cons_some (c : Char) (rest r : List Char)
    (h : matchEsc (c :: rest) = some r) :
    stripAnsi (c :: rest) = stripAnsi r := by
  rw [stripAnsi]
  split
  · rename_i r2 heq
    rw [h] at heq
    cases heq
    rfl
  · rename_i heq
    rw [h] at heq
    cases heq

theorem stripAnsi_cons_none (c : Char) (rest : List Char)
    (h : matchEsc (c :: rest) = none) :
    stripAnsi (c :: rest) = c :: stripAnsi rest := by
  rw [stripAnsi]
  split
  · rename_i r2 heq
    rw [h] at heq
    cases heq
  · rfl

end GitActivity

namespace GitActivity

theorem stripAnsi_append_esc (w : List Char)
    (hw : matchEsc ('\x1b' :: w) = some []) :
    ∀ (n : Nat) (s : List Char), s.length ≤ n →
      stripAnsi (s ++ '\x1b' :: w) = stripAnsi s := by
  intro n
  induction n with
  | zero =>
    intro s hs
    have hnil : s = [] := List.eq_nil_of_length_eq_zero (Nat.le_zero.mp hs)
    subst hnil
    rw [List.nil_append, stripAnsi_cons_some _ _ _ hw]
  | succ n ih =>
    intro s hs
    match s with
    | [] => rw [List.nil_append, stripAnsi_cons_some _ _ _ hw]
    | c :: rest =>
      have hma := matchEsc_append (c :: rest) w (by simp)
      cases hm : matchEsc (c :: rest) with
      | some r =>
        have h2 : matchEsc (c :: (rest ++ '\x1b' :: w)) = some (r ++ '\x1b' :: w) := by
          rw [show c :: (rest ++ '\x1b' :: w) = (c :: rest) ++ '\x1b' :: w from rfl,
            hma, hm]
          rfl
        rw [show (c :: rest) ++ '\x1b' :: w = c :: (rest ++ '\x1b' :: w) from rfl]
        rw [stripAnsi_cons_some _ _ _ h2, stripAnsi_cons_some _ _ _ hm]
        have hlen := matchEsc_shrink _ r hm
        apply ih
        simp only [List.length_cons] at hlen hs
        omega
      | none =>
        have h2 : matchEsc (c :: (rest ++ '\x1b' :: w)) = none := by
          rw [show c :: (rest ++ '\x1b' :: w) = (c :: rest) ++ '\x1b' :: w from rfl,
            hma, hm]
          rfl
        rw [show (c :: rest) ++ '\x1b' :: w = c :: (rest ++ '\x1b' :: w) from rfl]
        rw [stripAnsi_cons_none _ _ h2, stripAnsi_cons_none _ _ hm]
        have : rest.length ≤ n := by
          simp only [List.length_cons] at hs
          omega
        rw [ih rest this]

theorem stripAnsi_fg (color : Nat) (t : List Char) :
    stripAnsi (fg color ++ t) = stripAnsi t := by
  have h := matchEsc_fg color t
  rw [show fg color ++ t
      = '\x1b' :: (('[' :: '3' :: '8' :: ';' :: '5' :: ';' :: (natDigits color ++ ['m'])) ++ t)
      from rfl] at h ⊢
  exact stripAnsi_cons_some _ _ t h

theorem stripAnsi_colorize (s : List Char) (color : Nat) :
    stripAnsi (colorize_string s color) = stripAnsi s := by
  rw [colorize_string, List.append_assoc, stripAnsi_fg]
  have hw : matchEsc ('\x1b' :: ('[' :: '3' :: '8' :: ';' :: '5' :: ';'
      :: (natDigits DEFAULT_COLOR ++ ['m']))) = some [] := by
    have h := matchEsc_fg DEFAULT_COLOR []
    rw [List.append_nil] at h
    exact h
  exact stripAnsi_append_esc _ hw s.length s (Nat.le_refl _)

end GitActivity

namespace GitActivity

/-- Claim C7: for every string and color, `non_ansi_len` of the
colorized string equals the length of the string with ANSI color escape
sequences stripped; in particular any single glyph wrapped by
`colorize_string` has `non_ansi_len` 1. -/
theorem non_ansi_len_colorize (s : List Char) (color : Nat) :
    non_ansi_len (colorize_string s color) = (stripAnsi s).length ∧
    ∀ (g : Char), non_ansi_len (colorize_string [g] color) = 1 := by
  constructor
  · rw [non_ansi_len, stripAnsi_colorize]
  · intro g
    rw [non_ansi_len, stripAnsi_colorize]
    have hm : matchEsc [g] = none := rfl
    rw [stripAnsi_cons_none _ _ hm]
    have h0 : stripAnsi [] = [] := by rw [stripAnsi]
    rw [h0]
    rfl

end GitActivity

namespace GitActivity

/-! ## Calendar arithmetic (datetime.date / calendar.monthdatescalendar)

Dates are embedded as integers counting days, day 0 being 0000-03-01 of
the proleptic Gregorian calendar (the calendar of `datetime.date`,
extended to all integers).  March-based years put the leap day last,
following the standard civil-from-days / days-from-civil algorithms. -/

/-- Days from the start of a 400-year era (March 1 of a year divisible
by 400) to March 1 of year-of-era `y`. -/
def yearStartE (y : Nat) : Nat := 365 * y + y / 4 - y / 100

/-- Year-of-era of a day-of-era (`doe` in `[0, 146096]`). -/
def yoeOf (doe : Nat) : Nat :=
  let g := doe / 365
  min (if yearStartE g ≤ doe then g else g - 1) 399

/-- 400-year era of a day number. -/
def eraOf (rd : Int) : Int := rd / 146097

/-- Day-of-era of a day number, in `[0, 146096]`. -/
def doeOf (rd : Int) : Nat := (rd - eraOf rd * 146097).toNat

/-- Day-of-(March-based)-year of a day number, in `[0, 365]`. -/
def doyOf (rd : Int) : Nat := doeOf rd - yearStartE (yoeOf (doeOf rd))

/-- March-based month (0 = March … 11 = February) of a day number. -/
def mpOf (rd : Int) : Nat := (5 * doyOf rd + 2) / 153

/-- Day-of-month (1-based) of a day number. -/
def dmOf (rd : Int) : Nat := doyOf rd - (153 * mpOf rd + 2) / 5 + 1

/-- Civil month (1 = January … 12 = December) of a day number. -/
def mOf (rd : Int) : Nat := if mpOf rd < 10 then mpOf rd + 3 else mpOf rd - 9

/-- The `(year, month, day)` of a day number: the inverse of `toRD`,
i.e. the `.year`, `.month` and `.day` attributes of `datetime.date`. -/
def civilFromDays (rd : Int) : Int × Int × Int :=
  (eraOf rd * 400 + yoeOf (doeOf rd) + (if (mOf rd : Int) ≤ 2 then 1 else 0),
   (mOf rd : Int), (dmOf rd : Int))

/-- The day number of the calendar date `(y, m, d)` (valid for
`1 ≤ m ≤ 12`): the embedding of constructing a `datetime.date`. -/
def toRD (y m d : Int) : Int :=
  let yAdj : Int := if m ≤ 2 then y - 1 else y
  let era : Int := yAdj / 400
  let yoe : Nat := (yAdj - era * 400).toNat
  let mp : Nat := (if m ≤ 2 then m + 9 else m - 3).toNat
  era * 146097 + (yearStartE yoe : Int) + (((153 * mp + 2) / 5 : Nat) : Int) + d - 1

/-- `.year` of a day number. -/
def yearOf (rd : Int) : Int := (civilFromDays rd).1

/-- `.month` of a day number. -/
def monthOf (rd : Int) : Int := (civilFromDays rd).2.1

/-- `.day` of a day number. -/
def dayOf (rd : Int) : Int := (civilFromDays rd).2.2

end GitActivity


namespace GitActivity

theorem yearStartE_succ (y : Nat) :
    yearStartE y + 365 ≤ yearStartE (y + 1) ∧ yearStartE (y + 1) ≤ yearStartE y + 366 := by
  unfold yearStartE
  omega

theorem yearStartE_mono (a b : Nat) (h : a ≤ b) : yearStartE a ≤ yearStartE b := by
  have h4 : a / 4 ≤ b / 4 := Nat.div_le_div_right h
  have h100 : a / 100 ≤ b / 100 := Nat.div_le_div_right h
  unfold yearStartE
  omega

theorem yoeOf_spec (doe : Nat) (h : doe ≤ 146096) :
    yoeOf doe ≤ 399 ∧ yearStartE (yoeOf doe) ≤ doe ∧
      (doe < yearStartE (yoeOf doe + 1) ∨ yoeOf doe = 399) := by
  have hgl : 365 * (doe / 365) ≤ doe := by omega
  have hgu : doe < 365 * (doe / 365) + 365 := by omega
  have hgle : doe / 365 ≤ 400 := by omega
  simp only [yoeOf]
  by_cases hc : yearStartE (doe / 365) ≤ doe
  · rw [if_pos hc]
    by_cases h399 : doe / 365 ≤ 399
    · rw [Nat.min_eq_left h399]
      refine ⟨h399, hc, ?_⟩
      by_cases hl : doe / 365 = 399
      · right
        exact hl
      · left
        have h1 : 365 * (doe / 365 + 1) ≤ yearStartE (doe / 365 + 1) := by
          unfold yearStartE
          omega
        omega
    · have hg400 : doe / 365 = 400 := by omega
      rw [Nat.min_eq_right (by omega)]
      refine ⟨Nat.le_refl _, ?_, Or.inr rfl⟩
      have hv : yearStartE 399 = 145731 := by decide
      omega
  · rw [if_neg hc]
    have hg1 : 1 ≤ doe / 365 := by
      by_contra hg0
      have h0 : doe / 365 = 0 := by omega
      rw [h0] at hc
      exact hc (by unfold yearStartE; omega)
    rw [Nat.min_eq_left (by omega)]
    refine ⟨by omega, ?_, Or.inl ?_⟩
    · have h1 : yearStartE (doe / 365 - 1) ≤ 365 * (doe / 365 - 1) + (doe / 365 - 1) / 4 := by
        unfold yearStartE
        omega
      have h2 : (doe / 365 - 1) / 4 ≤ 101 := by omega
      omega
    · have hsub : doe / 365 - 1 + 1 = doe / 365 := by omega
      rw [hsub]
      unfold yearStartE at hc ⊢
      omega

end GitActivity

namespace GitActivity

/-- Successor month in the civil calendar. -/
def nextYM (y m : Int) : Int × Int := if m = 12 then (y + 1, 1) else (y, m + 1)

/-- Number of days in month `(y, m)`: span between consecutive month
starts. -/
def daysInMonth (y m : Int) : Int :=
  toRD (nextYM y m).1 (nextYM y m).2 1 - toRD y m 1

set_option maxRecDepth 40000 in
theorem mp_bracket : ∀ doy : Nat, doy < 366 →
    (5 * doy + 2) / 153 < 12 ∧
    (153 * ((5 * doy + 2) / 153) + 2) / 5 ≤ doy ∧
    doy < (153 * ((5 * doy + 2) / 153 + 1) + 2) / 5 := by decide

set_option maxRecDepth 100000 in
theorem mp_unique : ∀ k : Nat, k < 12 → ∀ doy : Nat, doy < 366 →
    (153 * k + 2) / 5 ≤ doy → doy < (153 * (k + 1) + 2) / 5 →
    (5 * doy + 2) / 153 = k := by decide

theorem monthLenM_val : ∀ k : Nat, k < 11 →
    30 ≤ (153 * (k + 1) + 2) / 5 - (153 * k + 2) / 5 ∧
    (153 * (k + 1) + 2) / 5 - (153 * k + 2) / 5 ≤ 31 := by decide

theorem doe_spec (rd : Int) :
    (doeOf rd : Int) = rd - eraOf rd * 146097 ∧ doeOf rd ≤ 146096 := by
  unfold doeOf eraOf
  omega

theorem doy_spec (rd : Int) :
    doyOf rd ≤ 365 ∧ yearStartE (yoeOf (doeOf rd)) + doyOf rd = doeOf rd := by
  obtain ⟨h1, h2, h3⟩ := yoeOf_spec (doeOf rd) (doe_spec rd).2
  unfold doyOf
  rcases h3 with h | h
  · have hs := yearStartE_succ (yoeOf (doeOf rd))
    omega
  · have hv : yearStartE 399 = 145731 := by decide
    have h4 := (doe_spec rd).2
    rw [h] at h2 ⊢
    omega

end GitActivity

namespace GitActivity

theorem era_div (a : Int) (b : Nat) (hb : b ≤ 399) :
    (a * 400 + (b : Int)) / 400 = a := by omega

theorem era_rem (a : Int) (b : Nat) :
    ((a * 400 + (b : Int)) - a * 400).toNat = b := by omega

theorem m_spec (rd : Int) :
    1 ≤ mOf rd ∧ mOf rd ≤ 12 ∧ mpOf rd < 12 ∧
    ((mOf rd : Int) ≤ 2 ↔ 10 ≤ mpOf rd) ∧
    ((mOf rd : Int) ≤ 2 → ((mOf rd : Int) + 9).toNat = mpOf rd) ∧
    (¬ (mOf rd : Int) ≤ 2 → ((mOf rd : Int) - 3).toNat = mpOf rd) := by
  have hdoy := (doy_spec rd).1
  have hmp : mpOf rd < 12 := (mp_bracket (doyOf rd) (by omega)).1
  unfold mOf
  by_cases h : mpOf rd < 10
  · rw [if_pos h]
    refine ⟨by omega, by omega, hmp, ⟨by intro hh; omega, by intro hh; omega⟩,
      by intro hh; omega, by intro hh; omega⟩
  · rw [if_neg h]
    refine ⟨by omega, by omega, hmp, ⟨by intro hh; omega, by intro hh; omega⟩,
      by intro hh; omega, by intro hh; omega⟩

theorem dm_spec (rd : Int) :
    1 ≤ dmOf rd ∧ (153 * mpOf rd + 2) / 5 + dmOf rd = doyOf rd + 1 := by
  have hdoy := (doy_spec rd).1
  have hb1 : (153 * mpOf rd + 2) / 5 ≤ doyOf rd :=
    (mp_bracket (doyOf rd) (by omega)).2.1
  unfold dmOf
  omega

theorem toRD_civil (rd : Int) :
    toRD (civilFromDays rd).1 (civilFromDays rd).2.1 (civilFromDays rd).2.2 = rd := by
  obtain ⟨hdoe1, hdoe2⟩ := doe_spec rd
  obtain ⟨hdoy1, hdoy2⟩ := doy_spec rd
  obtain ⟨hyoe1, hyoe2, hyoe3⟩ := yoeOf_spec (doeOf rd) hdoe2
  obtain ⟨hm1, hm2, hmp12, hm3, hm4, hm5⟩ := m_spec rd
  obtain ⟨hd1, hd2⟩ := dm_spec rd
  simp only [civilFromDays, toRD]
  by_cases hc : (mOf rd : Int) ≤ 2
  · simp only [if_pos hc]
    have h1 : eraOf rd * 400 + ((yoeOf (doeOf rd) : Int)) + 1 - 1
        = eraOf rd * 400 + (yoeOf (doeOf rd) : Int) := by ring
    rw [h1, era_div _ _ hyoe1, era_rem, hm4 hc]
    omega
  · simp only [if_neg hc]
    have h1 : eraOf rd * 400 + ((yoeOf (doeOf rd) : Int)) + 0
        = eraOf rd * 400 + (yoeOf (doeOf rd) : Int) := by ring
    rw [h1, era_div _ _ hyoe1, era_rem, hm5 hc]
    omega

end GitActivity

namespace GitActivity

/-- The `yAdj` component of `toRD`. -/
def yAdjOf (y m : Int) : Int := if m ≤ 2 then y - 1 else y

/-- The March-based month index used by `toRD`. -/
def mpN (m : Int) : Nat := (if m ≤ 2 then m + 9 else m - 3).toNat

theorem toRD_expand (y m d : Int) :
    toRD y m d = (yAdjOf y m / 400) * 146097
      + (yearStartE ((yAdjOf y m - yAdjOf y m / 400 * 400).toNat) : Int)
      + (((153 * mpN m + 2) / 5 : Nat) : Int) + d - 1 := by
  simp only [toRD, yAdjOf, mpN]

theorem next_not_feb (y m : Int) (h1 : 1 ≤ m) (h2 : m ≤ 12) (hne : m ≠ 2) :
    yAdjOf (nextYM y m).1 (nextYM y m).2 = yAdjOf y m ∧
    mpN (nextYM y m).2 = mpN m + 1 ∧ mpN m ≤ 10 := by
  by_cases h12 : m = 12
  · subst h12
    simp only [nextYM, if_pos rfl]
    unfold yAdjOf mpN
    split_ifs <;> refine ⟨by omega, by omega, by omega⟩
  · simp only [nextYM, if_neg h12]
    unfold yAdjOf mpN
    split_ifs <;> refine ⟨by omega, by omega, by omega⟩

theorem daysInMonth_ne2 (y m : Int) (h1 : 1 ≤ m) (h2 : m ≤ 12) (hne : m ≠ 2) :
    daysInMonth y m = (((153 * (mpN m + 1) + 2) / 5 : Nat) : Int)
      - (((153 * mpN m + 2) / 5 : Nat) : Int) := by
  obtain ⟨ha, hb, _⟩ := next_not_feb y m h1 h2 hne
  unfold daysInMonth
  rw [toRD_expand, toRD_expand, ha, hb]
  ring

theorem daysInMonth_feb (y : Int) (era : Int) (yoe : Nat)
    (he : era = (y - 1) / 400) (hy : (yoe : Int) = (y - 1) - era * 400) :
    daysInMonth y 2 = (if yoe ≤ 398
      then (yearStartE (yoe + 1) : Int) - yearStartE yoe - 337
      else 29) := by
  have hyoe399 : yoe ≤ 399 := by omega
  have hnext : nextYM y 2 = (y, 3) := by
    unfold nextYM
    norm_num
  unfold daysInMonth
  rw [hnext]
  rw [toRD_expand, toRD_expand]
  have hA3 : yAdjOf y 3 = y := by
    unfold yAdjOf
    norm_num
  have hA2 : yAdjOf y 2 = y - 1 := by
    unfold yAdjOf
    norm_num
  have hm3 : mpN 3 = 0 := by decide
  have hm2 : mpN 2 = 11 := by decide
  rw [hA3, hA2, hm3, hm2]
  have hrem2 : ((y - 1) - (y - 1) / 400 * 400).toNat = yoe := by omega
  rw [← he] at hrem2 ⊢
  rw [hrem2]
  by_cases hcase : yoe ≤ 398
  · rw [if_pos hcase]
    have h400 : y / 400 = era := by omega
    have hrem : ((y - era * 400).toNat) = yoe + 1 := by omega
    rw [h400, hrem]
    have hz : ((153 * 0 + 2) / 5 : Nat) = 0 := by decide
    have ho : ((153 * 11 + 2) / 5 : Nat) = 337 := by decide
    rw [hz, ho]
    push_cast
    ring
  · rw [if_neg hcase]
    have hy399 : yoe = 399 := by omega
    have h400 : y / 400 = era + 1 := by omega
    have hrem : (y - (era + 1) * 400).toNat = 0 := by omega
    rw [h400, hrem, hy399]
    have hz : ((153 * 0 + 2) / 5 : Nat) = 0 := by decide
    have ho : ((153 * 11 + 2) / 5 : Nat) = 337 := by decide
    have hy0 : yearStartE 0 = 0 := by decide
    have hy399v : yearStartE 399 = 145731 := by decide
    rw [hz, ho, hy0, hy399v]
    push_cast
    ring

theorem daysInMonth_bounds (y m : Int) (h1 : 1 ≤ m) (h2 : m ≤ 12) :
    28 ≤ daysInMonth y m ∧ daysInMonth y m ≤ 31 := by
  by_cases hne : m = 2
  · subst hne
    have hd := daysInMonth_feb y ((y - 1) / 400) ((y - 1 - (y - 1) / 400 * 400).toNat)
      rfl (by omega)
    rw [hd]
    split_ifs with hc
    · have := yearStartE_succ ((y - 1 - (y - 1) / 400 * 400).toNat)
      omega
    · omega
  · rw [daysInMonth_ne2 y m h1 h2 hne]
    have hmp := (next_not_feb y m h1 h2 hne).2.2
    have := monthLenM_val (mpN m) (by omega)
    omega

end GitActivity

namespace GitActivity

theorem mpN_mOf (rd : Int) : mpN ((mOf rd : Nat) : Int) = mpOf rd := by
  obtain ⟨hm1, hm2, hmp12, hm3, hm4, hm5⟩ := m_spec rd
  unfold mpN
  by_cases hc : ((mOf rd : Nat) : Int) ≤ 2
  · rw [if_pos hc]
    exact hm4 hc
  · rw [if_neg hc]
    exact hm5 hc

theorem m_eq_two_iff (rd : Int) : mOf rd = 2 ↔ mpOf rd = 11 := by
  have hmp := (m_spec rd).2.2.1
  unfold mOf
  split_ifs with h <;> omega

theorem civil_valid (rd : Int) :
    1 ≤ (civilFromDays rd).2.1 ∧ (civilFromDays rd).2.1 ≤ 12 ∧
    1 ≤ (civilFromDays rd).2.2 ∧
    (civilFromDays rd).2.2 ≤ daysInMonth (civilFromDays rd).1 (civilFromDays rd).2.1 := by
  obtain ⟨hdoe1, hdoe2⟩ := doe_spec rd
  obtain ⟨hdoy1, hdoy2⟩ := doy_spec rd
  obtain ⟨hyoe1, hyoe2, hyoe3⟩ := yoeOf_spec (doeOf rd) hdoe2
  obtain ⟨hm1, hm2, hmp12, hm3, hm4, hm5⟩ := m_spec rd
  obtain ⟨hd1, hd2⟩ := dm_spec rd
  have hdoyb : doyOf rd < 366 := by omega
  have hb2 : doyOf rd < (153 * (mpOf rd + 1) + 2) / 5 :=
    (mp_bracket (doyOf rd) hdoyb).2.2
  refine ⟨by simp [civilFromDays]; omega, by simp [civilFromDays]; omega,
    by simp [civilFromDays]; omega, ?_⟩
  simp only [civilFromDays]
  by_cases h2 : mOf rd = 2
  · -- February: mpOf rd = 11
    have hmp11 : mpOf rd = 11 := (m_eq_two_iff rd).mp h2
    have hcond : ((mOf rd : Nat) : Int) ≤ 2 := by omega
    rw [if_pos hcond, h2]
    have hyeq : eraOf rd * 400 + (yoeOf (doeOf rd) : Int) + 1 - 1
        = eraOf rd * 400 + (yoeOf (doeOf rd) : Int) := by ring
    have hfeb := daysInMonth_feb (eraOf rd * 400 + (yoeOf (doeOf rd) : Int) + 1)
      (eraOf rd) (yoeOf (doeOf rd)) (by rw [hyeq.symm] at *; omega) (by omega)
    push_cast at hfeb ⊢
    rw [hfeb]
    have h337 : (153 * mpOf rd + 2) / 5 = 337 := by rw [hmp11]
    rw [h337] at hd2
    split_ifs with hc
    · rcases hyoe3 with h | h
      · have hstep := yearStartE_succ (yoeOf (doeOf rd))
        omega
      · omega
    · have h399 : yoeOf (doeOf rd) = 399 := by omega
      have hv : yearStartE 399 = 145731 := by decide
      rw [h399] at hyoe2
      rw [hv] at hyoe2
      omega
  · -- not February
    have hne2 : ((mOf rd : Nat) : Int) ≠ 2 := by
      intro hc
      exact h2 (by omega)
    have hlen := daysInMonth_ne2 (eraOf rd * 400 + (yoeOf (doeOf rd) : Int)
        + (if ((mOf rd : Nat) : Int) ≤ 2 then 1 else 0)) ((mOf rd : Nat) : Int)
      (by omega) (by omega) hne2
    rw [hlen, mpN_mOf]
    omega

end GitActivity

namespace GitActivity

theorem yoeOf_unique (doe : Nat) (yoe : Nat) (h399 : yoe ≤ 399)
    (hl : yearStartE yoe ≤ doe)
    (hu : doe < yearStartE (yoe + 1) ∨ (yoe = 399 ∧ doe ≤ 146096)) :
    yoeOf doe = yoe := by
  have hdoe : doe ≤ 146096 := by
    rcases hu with h | h
    · have hmono : yearStartE (yoe + 1) ≤ yearStartE 400 := yearStartE_mono _ _ (by omega)
      have hv : yearStartE 400 = 146096 := by decide
      omega
    · exact h.2
  obtain ⟨a1, a2, a3⟩ := yoeOf_spec doe hdoe
  rcases Nat.lt_trichotomy (yoeOf doe) yoe with h | h | h
  · rcases a3 with h3 | h3
    · have hmono : yearStartE (yoeOf doe + 1) ≤ yearStartE yoe :=
        yearStartE_mono _ _ (by omega)
      omega
    · omega
  · exact h
  · rcases hu with h3 | h3
    · have hmono : yearStartE (yoe + 1) ≤ yearStartE (yoeOf doe) :=
        yearStartE_mono _ _ (by omega)
      omega
    · omega

theorem civil_toRD (y m d : Int) (hm1 : 1 ≤ m) (hm2 : m ≤ 12)
    (hd1 : 1 ≤ d) (hd2 : d ≤ daysInMonth y m) :
    civilFromDays (toRD y m d) = (y, m, d) := by
  have hyoe399 : (yAdjOf y m - yAdjOf y m / 400 * 400).toNat ≤ 399 := by
    unfold yAdjOf
    split_ifs <;> omega
  set era := yAdjOf y m / 400 with hera
  set yoe := (yAdjOf y m - era * 400).toNat with hyoe
  set mp := mpN m with hmp
  set doy := (153 * mp + 2) / 5 + (d - 1).toNat with hdoy
  have hrd : toRD y m d = era * 146097 + ((yearStartE yoe + doy : Nat) : Int) := by
    rw [toRD_expand, ← hera, ← hyoe, ← hmp]
    omega
  have hmp11 : mp ≤ 11 := by
    rw [hmp]
    unfold mpN
    split_ifs <;> omega
  have hbrack : (153 * mp + 2) / 5 ≤ doy ∧
      (mp ≤ 10 → doy < (153 * (mp + 1) + 2) / 5) := by
    constructor
    · omega
    · intro hle
      have hlen := daysInMonth_ne2 y m hm1 hm2 (by
        intro hc
        rw [hc] at hmp
        have hval : mpN 2 = 11 := by decide
        omega)
      rw [← hmp] at hlen
      omega
  have hX : yearStartE yoe + doy ≤ 146096 ∧
      (doy < yearStartE (yoe + 1) - yearStartE yoe ∨ (yoe = 399 ∧ doy ≤ 365)) := by
    by_cases hfe : mp ≤ 10
    · have hdoylt : doy < 337 := by
        have h337 : (153 * (mp + 1) + 2) / 5 ≤ 337 := by
          have hmono : (153 * (mp + 1) + 2) / 5 ≤ (153 * 11 + 2) / 5 :=
            Nat.div_le_div_right (by omega)
          omega
        have := hbrack.2 hfe
        omega
      have hmono : yearStartE yoe ≤ yearStartE 399 := yearStartE_mono _ _ (by omega)
      have hv : yearStartE 399 = 145731 := by decide
      have hstep := yearStartE_succ yoe
      exact ⟨by omega, Or.inl (by omega)⟩
    · have hmp_eq : mp = 11 := by omega
      have hm_eq : m = 2 := by
        rw [hmp] at hmp_eq
        unfold mpN at hmp_eq
        split_ifs at hmp_eq <;> omega
      subst hm_eq
      have hyadj : yAdjOf y 2 = y - 1 := by
        unfold yAdjOf
        norm_num
      have hfeb := daysInMonth_feb y era yoe
        (by rw [hera, hyadj]) (by rw [hyoe, hera, hyadj]; omega)
      have h337 : (153 * mp + 2) / 5 = 337 := by rw [hmp_eq]
      by_cases hcase : yoe ≤ 398
      · rw [if_pos hcase] at hfeb
        have hstep := yearStartE_succ yoe
        have hmono : yearStartE (yoe + 1) ≤ yearStartE 399 := yearStartE_mono _ _ (by omega)
        have hv : yearStartE 399 = 145731 := by decide
        exact ⟨by omega, Or.inl (by omega)⟩
      · rw [if_neg hcase] at hfeb
        have hy399 : yoe = 399 := by omega
        have hv : yearStartE 399 = 145731 := by decide
        rw [hy399, hv]
        exact ⟨by omega, Or.inr ⟨rfl, by omega⟩⟩
  have heraOf : eraOf (toRD y m d) = era := by
    unfold eraOf
    rw [hrd]
    omega
  have hdoeOf : doeOf (toRD y m d) = yearStartE yoe + doy := by
    unfold doeOf
    rw [heraOf, hrd]
    omega
  have hyoeOf : yoeOf (doeOf (toRD y m d)) = yoe := by
    rw [hdoeOf]
    refine yoeOf_unique _ yoe (by rw [hyoe, hera]; exact hyoe399) (by omega) ?_
    rcases hX.2 with h | h
    · left
      omega
    · right
      exact ⟨h.1, hX.1⟩
  have hdoyOf : doyOf (toRD y m d) = doy := by
    unfold doyOf
    rw [hyoeOf, hdoeOf]
    omega
  have hdoy366 : doy < 366 := by
    rcases hX.2 with h | h
    · have hstep := yearStartE_succ yoe
      omega
    · omega
  have hmpOf : mpOf (toRD y m d) = mp := by
    unfold mpOf
    rw [hdoyOf]
    refine mp_unique mp (by omega) doy hdoy366 hbrack.1 ?_
    by_cases hfe : mp ≤ 10
    · exact hbrack.2 hfe
    · have hmp_eq : mp = 11 := by omega
      have hval : (153 * (11 + 1) + 2) / 5 = 367 := by decide
      omega
  have hdmOf : (dmOf (toRD y m d) : Int) = d := by
    unfold dmOf
    rw [hdoyOf, hmpOf]
    omega
  have hmOf : ((mOf (toRD y m d) : Nat) : Int) = m := by
    unfold mOf
    rw [hmpOf, hmp]
    unfold mpN
    split_ifs <;> omega
  simp only [civilFromDays, Prod.mk.injEq]
  refine ⟨?_, hmOf, hdmOf⟩
  rw [heraOf, hyoeOf, hmOf]
  rw [hera] at *
  rw [hyoe] at *
  unfold yAdjOf
  split_ifs with hc <;> omega

end GitActivity

namespace GitActivity

/-! ## Calendar builder (git_activity.py lines 97-132)

`calendar.TextCalendar(calendar.SUNDAY)` lays out weeks Sunday-first;
`monthdatescalendar(year, month)` returns that month's weeks, from the
Sunday on or before the 1st through the Saturday on or after the last
day.  Day 0 of our encoding (0000-03-01) is a Wednesday, so a day
number `rd` falls on a Sunday exactly when `(rd + 3) % 7 = 0`. -/

/-- The Sunday on or before a day number. -/
def sundayOnOrBefore (rd : Int) : Int := rd - (rd + 3) % 7

/-- The 7 consecutive days starting at `s`. -/
def weekOf (s : Int) : List Int := (List.range 7).map (fun j => s + (j : Int))

/-- `k` consecutive weeks starting at day `s`. -/
def weeksFrom (s : Int) : Nat → List (List Int)
  | 0 => []
  | k + 1 => weekOf s :: weeksFrom (s + 7) k

/-- `month_dates(year, month)` (line 97): the Sunday-first week grid of
a month, `calendar.TextCalendar(calendar.SUNDAY).monthdatescalendar`. -/
def month_dates (y m : Int) : List (List Int) :=
  let first := toRD y m 1
  let last := toRD (nextYM y m).1 (nextYM y m).2 1 - 1
  let start := sundayOnOrBefore first
  weeksFrom start (((last - start) / 7 + 1).toNat)

/-- `previous_month(date)` (line 102): the last day of the month prior
to `date`, i.e. `date.replace(day=1) - timedelta(days=1)`. -/
def previous_month (date : Int) : Int := date - dayOf date

/-- `join_date_months(preceding_month, current_month)` (line 107). -/
def join_date_months (preceding_month current_month : List (List Int)) :
    List (List Int) :=
  if monthOf ((current_month.headD []).headD 0)
      = monthOf ((current_month.headD []).getLastD 0) then
    preceding_month ++ current_month
  else
    preceding_month.dropLast ++ current_month

/-- The `while len(current_weeks) < num_weeks` loop of `last_n_weeks`
(lines 127-130), embedded with explicit fuel; `num_weeks` units of fuel
always suffice because every iteration prepends at least three weeks
(see `last_n_weeks_go_length`), so the fueled function equals the
Python loop. -/
def last_n_weeks_go (num_weeks : Nat) :
    Nat → Int → List (List Int) → List (List Int)
  | 0, _, current_weeks => current_weeks
  | fuel + 1, current_date, current_weeks =>
    if current_weeks.length < num_weeks then
      let cd := previous_month current_date
      last_n_weeks_go num_weeks fuel cd
        (join_date_months (month_dates (yearOf cd) (monthOf cd)) current_weeks)
    else current_weeks

/-- `last_n_weeks(date, num_weeks)` (line 115): the `num_weeks` weeks up
to and including the week containing `date`. -/
def last_n_weeks (date : Int) (num_weeks : Nat) : List (List Int) :=
  let starting_month := month_dates (yearOf date) (monthOf date)
  let truncated := starting_month.take
    (starting_month.findIdx (fun w => w.contains date) + 1)
  let ws := last_n_weeks_go num_weeks num_weeks date truncated
  ws.drop (ws.length - num_weeks)

end GitActivity


namespace GitActivity

/-- `ws` is the list of consecutive Sunday-to-Saturday weeks starting at
day `s`: week `i` is exactly the 7 consecutive days from `s + 7·i`.
This captures "each week has exactly 7 consecutive days, the weeks are
contiguous and oldest-first". -/
def weekChain : Int → List (List Int) → Prop
  | _, [] => True
  | s, w :: t => w = weekOf s ∧ weekChain (s + 7) t

theorem weekOf_eval (s : Int) :
    weekOf s = [s, s + 1, s + 2, s + 3, s + 4, s + 5, s + 6] := by
  unfold weekOf
  norm_num [List.range_succ]

theorem weekOf_length (s : Int) : (weekOf s).length = 7 := by
  rw [weekOf_eval]
  rfl

theorem weekOf_mem (s x : Int) : x ∈ weekOf s ↔ s ≤ x ∧ x ≤ s + 6 := by
  rw [weekOf_eval]
  simp only [List.mem_cons, List.not_mem_nil, or_false]
  omega

theorem weekOf_headD (s : Int) : (weekOf s).headD 0 = s := by
  rw [weekOf_eval]
  rfl

theorem weekOf_getLastD (s : Int) : (weekOf s).getLastD 0 = s + 6 := by
  rw [weekOf_eval]
  rfl

theorem weekOf_inj (s s' : Int) (h : weekOf s = weekOf s') : s = s' := by
  rw [weekOf_eval, weekOf_eval] at h
  injection h

theorem weeksFrom_length (s : Int) (k : Nat) : (weeksFrom s k).length = k := by
  induction k generalizing s with
  | zero => rfl
  | succ n ih =>
    show (weekOf s :: weeksFrom (s + 7) n).length = n + 1
    simp [ih]

theorem weekChain_weeksFrom (s : Int) (k : Nat) : weekChain s (weeksFrom s k) := by
  induction k generalizing s with
  | zero => trivial
  | succ n ih => exact ⟨rfl, ih (s + 7)⟩

theorem weekChain_append (s : Int) (a b : List (List Int))
    (ha : weekChain s a) (hb : weekChain (s + 7 * a.length) b) :
    weekChain s (a ++ b) := by
  induction a generalizing s with
  | nil => simpa using hb
  | cons w t ih =>
    refine ⟨ha.1, ih (s + 7) ha.2 ?_⟩
    have : s + 7 + 7 * (t.length : Int) = s + 7 * ((w :: t).length : Int) := by
      simp [List.length_cons]
      ring
    rw [this]
    exact hb

theorem weekChain_take (s : Int) (a : List (List Int)) (k : Nat)
    (ha : weekChain s a) : weekChain s (a.take k) := by
  induction a generalizing s k with
  | nil => simp [weekChain]
  | cons w t ih =>
    cases k with
    | zero => trivial
    | succ n => exact ⟨ha.1, ih (s + 7) n ha.2⟩

theorem weekChain_drop (s : Int) (a : List (List Int)) (k : Nat)
    (ha : weekChain s a) : weekChain (s + 7 * k) (a.drop k) := by
  induction a generalizing s k with
  | nil => simp [weekChain]
  | cons w t ih =>
    cases k with
    | zero => simpa using ha
    | succ n =>
      have := ih (s + 7) n ha.2
      rw [List.drop_succ_cons]
      have heq : s + 7 + 7 * (n : Int) = s + 7 * ((n + 1 : Nat) : Int) := by
        push_cast
        ring
      rw [← heq]
      exact this

theorem weekChain_getElem (s : Int) (a : List (List Int)) (i : Nat)
    (ha : weekChain s a) (hi : i < a.length) :
    a[i] = weekOf (s + 7 * i) := by
  induction a generalizing s i with
  | nil => simp at hi
  | cons w t ih =>
    cases i with
    | zero =>
      simpa using ha.1
    | succ n =>
      have := ih (s + 7) n ha.2 (by simpa using hi)
      simp only [List.getElem_cons_succ, this]
      congr 1
      push_cast
      ring

theorem weekChain_headD (s : Int) (a : List (List Int))
    (ha : weekChain s a) (hne : a ≠ []) : a.headD [] = weekOf s := by
  cases a with
  | nil => exact absurd rfl hne
  | cons w t => exact ha.1

theorem weekChain_getLast (s : Int) (a : List (List Int))
    (ha : weekChain s a) (hne : a ≠ []) :
    a.getLastD [] = weekOf (s + 7 * (a.length - 1 : Nat)) := by
  have hlen : a.length - 1 < a.length := by
    cases a
    · exact absurd rfl hne
    · simp
  rw [List.getLastD_eq_getLast? , List.getLast?_eq_getElem?]
  rw [List.getElem?_eq_getElem hlen]
  simp only [Option.getD_some]
  exact weekChain_getElem s a _ ha hlen

end GitActivity

namespace GitActivity

theorem sOB_le (rd : Int) : sundayOnOrBefore rd ≤ rd ∧ rd ≤ sundayOnOrBefore rd + 6
    ∧ (sundayOnOrBefore rd + 3) % 7 = 0 := by
  unfold sundayOnOrBefore
  omega

theorem sOB_pred_ne (rd : Int) (h : (rd + 3) % 7 ≠ 0) :
    sundayOnOrBefore (rd - 1) = sundayOnOrBefore rd := by
  unfold sundayOnOrBefore
  omega

theorem sOB_pred_eq (rd : Int) (h : (rd + 3) % 7 = 0) :
    sundayOnOrBefore (rd - 1) = rd - 7 := by
  unfold sundayOnOrBefore
  omega

theorem sOB_self (rd : Int) (h : (rd + 3) % 7 = 0) : sundayOnOrBefore rd = rd := by
  unfold sundayOnOrBefore
  omega

theorem month_dates_chain (y m : Int) :
    weekChain (sundayOnOrBefore (toRD y m 1)) (month_dates y m) := by
  unfold month_dates
  exact weekChain_weeksFrom _ _

theorem month_dates_length_eq (y m : Int) :
    (month_dates y m).length
      = ((toRD (nextYM y m).1 (nextYM y m).2 1 - 1
          - sundayOnOrBefore (toRD y m 1)) / 7 + 1).toNat := by
  unfold month_dates
  rw [weeksFrom_length]

theorem toRD_lin (y m d : Int) : toRD y m d = toRD y m 1 + d - 1 := by
  rw [toRD_expand, toRD_expand]
  ring

theorem month_dates_len (y m : Int) (h1 : 1 ≤ m) (h2 : m ≤ 12) :
    4 ≤ (month_dates y m).length ∧
    sundayOnOrBefore (toRD y m 1) + 7 * (((month_dates y m).length : Int) - 1)
      = sundayOnOrBefore (toRD (nextYM y m).1 (nextYM y m).2 1 - 1) := by
  have hb := daysInMonth_bounds y m h1 h2
  have hnext : toRD (nextYM y m).1 (nextYM y m).2 1 = toRD y m 1 + daysInMonth y m := by
    unfold daysInMonth
    ring
  have hlen := month_dates_length_eq y m
  have hs := sOB_le (toRD y m 1)
  have hs2 := sOB_le (toRD y m 1 + daysInMonth y m - 1)
  rw [hlen, hnext]
  unfold sundayOnOrBefore at *
  constructor <;> omega

theorem month_dates_cover (y m rd : Int) (h1 : 1 ≤ m) (h2 : m ≤ 12)
    (hl : toRD y m 1 ≤ rd) (hu : rd < toRD y m 1 + daysInMonth y m) :
    ∃ w ∈ month_dates y m, rd ∈ w := by
  have hchain := month_dates_chain y m
  have hlen := month_dates_length_eq y m
  have hnext : toRD (nextYM y m).1 (nextYM y m).2 1 = toRD y m 1 + daysInMonth y m := by
    unfold daysInMonth
    ring
  have hs := sOB_le (toRD y m 1)
  have hidx : (rd - sundayOnOrBefore (toRD y m 1)).toNat / 7 < (month_dates y m).length := by
    rw [hlen, hnext]
    omega
  refine ⟨(month_dates y m)[(rd - sundayOnOrBefore (toRD y m 1)).toNat / 7],
    List.getElem_mem _, ?_⟩
  rw [weekChain_getElem _ _ _ hchain hidx, weekOf_mem]
  omega

/-- The predecessor month of `(y, m)`. -/
def prevYM (y m : Int) : Int × Int := if m = 1 then (y - 1, 12) else (y, m - 1)

theorem prevYM_next (y m : Int) (h1 : 1 ≤ m) (h2 : m ≤ 12) :
    nextYM (prevYM y m).1 (prevYM y m).2 = (y, m) ∧
    1 ≤ (prevYM y m).2 ∧ (prevYM y m).2 ≤ 12 ∧ (prevYM y m).2 ≠ m := by
  by_cases hm : m = 1
  · have hp : prevYM y m = (y - 1, 12) := by
      unfold prevYM
      rw [if_pos hm]
    rw [hp]
    subst hm
    refine ⟨?_, by norm_num, by norm_num, by norm_num⟩
    unfold nextYM
    norm_num
  · have hp : prevYM y m = (y, m - 1) := by
      unfold prevYM
      rw [if_neg hm]
    rw [hp]
    refine ⟨?_, by simp only; omega, by simp only; omega, by simp only; omega⟩
    show (if m - 1 = 12 then (y + 1, 1) else (y, m - 1 + 1)) = (y, m)
    rw [if_neg (by omega : ¬(m - 1 = 12))]
    simp only [Prod.mk.injEq]
    constructor
    · trivial
    · omega

theorem month_valid (rd : Int) : 1 ≤ monthOf rd ∧ monthOf rd ≤ 12 := by
  have h := civil_valid rd
  exact ⟨h.1, h.2.1⟩

theorem previous_month_civil (rd : Int) :
    civilFromDays (previous_month rd)
      = ((prevYM (yearOf rd) (monthOf rd)).1, (prevYM (yearOf rd) (monthOf rd)).2,
         daysInMonth (prevYM (yearOf rd) (monthOf rd)).1
           (prevYM (yearOf rd) (monthOf rd)).2) := by
  obtain ⟨hm1, hm2, hd1, hd2⟩ := civil_valid rd
  have hrt := toRD_civil rd
  obtain ⟨hnx, hp1, hp2, _⟩ := prevYM_next (yearOf rd) (monthOf rd) hm1 hm2
  have hlenb := daysInMonth_bounds (prevYM (yearOf rd) (monthOf rd)).1
    (prevYM (yearOf rd) (monthOf rd)).2 hp1 hp2
  have hnext : toRD (yearOf rd) (monthOf rd) 1
      = toRD (prevYM (yearOf rd) (monthOf rd)).1 (prevYM (yearOf rd) (monthOf rd)).2 1
        + daysInMonth (prevYM (yearOf rd) (monthOf rd)).1
            (prevYM (yearOf rd) (monthOf rd)).2 := by
    have hdm : daysInMonth (prevYM (yearOf rd) (monthOf rd)).1
        (prevYM (yearOf rd) (monthOf rd)).2
        = toRD (yearOf rd) (monthOf rd) 1
          - toRD (prevYM (yearOf rd) (monthOf rd)).1
              (prevYM (yearOf rd) (monthOf rd)).2 1 := by
      unfold daysInMonth
      rw [hnx]
    rw [hdm]
    ring
  have hpm : previous_month rd
      = toRD (prevYM (yearOf rd) (monthOf rd)).1 (prevYM (yearOf rd) (monthOf rd)).2
          (daysInMonth (prevYM (yearOf rd) (monthOf rd)).1
            (prevYM (yearOf rd) (monthOf rd)).2) := by
    unfold previous_month
    rw [toRD_lin]
    have hlin := toRD_lin (yearOf rd) (monthOf rd) (dayOf rd)
    have hrd : rd = toRD (yearOf rd) (monthOf rd) (dayOf rd) := hrt.symm
    omega
  rw [hpm]
  exact civil_toRD _ _ _ hp1 hp2 (by omega) (le_refl _)

end GitActivity

namespace GitActivity

theorem getLastD_append_right (a b : List (List Int)) (hb : b ≠ []) :
    (a ++ b).getLastD [] = b.getLastD [] := by
  rw [List.getLastD_eq_getLast?, List.getLastD_eq_getLast?, List.getLast?_append]
  cases hlb : b.getLast?
  · exact absurd (List.getLast?_eq_none_iff.mp hlb) hb
  · rfl

theorem headD_append_left (a b : List (List Int)) (ha : a ≠ []) :
    (a ++ b).headD [] = a.headD [] := by
  cases a with
  | nil => exact absurd rfl ha
  | cons x t => rfl

/-- The invariant carried through the prepending loop of
`last_n_weeks`: the accumulated weeks are a contiguous Sunday-aligned
chain starting at the first grid week of the month containing
`current_date`, and the target date is in the last accumulated week. -/
def LoopInv (cd target : Int) (ws : List (List Int)) : Prop :=
  ws ≠ [] ∧
  weekChain (sundayOnOrBefore (toRD (yearOf cd) (monthOf cd) 1)) ws ∧
  target ∈ ws.getLastD []

theorem join_step (cd target : Int) (ws : List (List Int))
    (hInv : LoopInv cd target ws) :
    LoopInv (previous_month cd) target
      (join_date_months
        (month_dates (yearOf (previous_month cd)) (monthOf (previous_month cd))) ws) ∧
    ws.length + 3 ≤ (join_date_months
        (month_dates (yearOf (previous_month cd)) (monthOf (previous_month cd))) ws).length := by
  obtain ⟨hne, hchain, htgt⟩ := hInv
  have hM1 : 1 ≤ monthOf cd := (month_valid cd).1
  have hM2 : monthOf cd ≤ 12 := (month_valid cd).2
  have hpc := previous_month_civil cd
  have hpy : yearOf (previous_month cd) = (prevYM (yearOf cd) (monthOf cd)).1 :=
    congrArg Prod.fst hpc
  have hpm : monthOf (previous_month cd) = (prevYM (yearOf cd) (monthOf cd)).2 :=
    congrArg (fun t => t.2.1) hpc
  obtain ⟨hnx, hp1, hp2, hpne⟩ := prevYM_next (yearOf cd) (monthOf cd) hM1 hM2
  rw [hpy, hpm]
  have hlenM := daysInMonth_bounds (yearOf cd) (monthOf cd) hM1 hM2
  have hlenp := daysInMonth_bounds (prevYM (yearOf cd) (monthOf cd)).1
    (prevYM (yearOf cd) (monthOf cd)).2 hp1 hp2
  have hnext : toRD (yearOf cd) (monthOf cd) 1
      = toRD (prevYM (yearOf cd) (monthOf cd)).1 (prevYM (yearOf cd) (monthOf cd)).2 1
        + daysInMonth (prevYM (yearOf cd) (monthOf cd)).1
            (prevYM (yearOf cd) (monthOf cd)).2 := by
    have hdm : daysInMonth (prevYM (yearOf cd) (monthOf cd)).1
        (prevYM (yearOf cd) (monthOf cd)).2
        = toRD (yearOf cd) (monthOf cd) 1
          - toRD (prevYM (yearOf cd) (monthOf cd)).1
              (prevYM (yearOf cd) (monthOf cd)).2 1 := by
      unfold daysInMonth
      rw [hnx]
    omega
  have hGchain := month_dates_chain (prevYM (yearOf cd) (monthOf cd)).1
    (prevYM (yearOf cd) (monthOf cd)).2
  have hGlen := month_dates_len (prevYM (yearOf cd) (monthOf cd)).1
    (prevYM (yearOf cd) (monthOf cd)).2 hp1 hp2
  have hGlast : sundayOnOrBefore (toRD (prevYM (yearOf cd) (monthOf cd)).1
        (prevYM (yearOf cd) (monthOf cd)).2 1)
      + 7 * (((month_dates (prevYM (yearOf cd) (monthOf cd)).1
          (prevYM (yearOf cd) (monthOf cd)).2).length : Int) - 1)
      = sundayOnOrBefore (toRD (yearOf cd) (monthOf cd) 1 - 1) := by
    have h2 := hGlen.2
    rw [hnx] at h2
    exact h2
  have hGne : month_dates (prevYM (yearOf cd) (monthOf cd)).1
      (prevYM (yearOf cd) (monthOf cd)).2 ≠ [] := by
    intro hc
    have := hGlen.1
    rw [hc] at this
    simp at this
  have hhead : ws.headD [] = weekOf (sundayOnOrBefore (toRD (yearOf cd) (monthOf cd) 1)) :=
    weekChain_headD _ _ hchain hne
  have hh1 : (ws.headD []).headD 0 = sundayOnOrBefore (toRD (yearOf cd) (monthOf cd) 1) := by
    rw [hhead, weekOf_headD]
  have hh2 : (ws.headD []).getLastD 0
      = sundayOnOrBefore (toRD (yearOf cd) (monthOf cd) 1) + 6 := by
    rw [hhead, weekOf_getLastD]
  have hsf := sOB_le (toRD (yearOf cd) (monthOf cd) 1)
  by_cases hsun : (toRD (yearOf cd) (monthOf cd) 1 + 3) % 7 = 0
  · -- the 1st of the month is a Sunday: simple concatenation
    have hS : sundayOnOrBefore (toRD (yearOf cd) (monthOf cd) 1)
        = toRD (yearOf cd) (monthOf cd) 1 := sOB_self _ hsun
    have hm1 : monthOf ((ws.headD []).headD 0) = monthOf cd := by
      rw [hh1, hS]
      show (civilFromDays (toRD (yearOf cd) (monthOf cd) 1)).2.1 = monthOf cd
      rw [civil_toRD (yearOf cd) (monthOf cd) 1 hM1 hM2 (by omega) (by omega)]
    have hm2 : monthOf ((ws.headD []).getLastD 0) = monthOf cd := by
      rw [hh2, hS]
      show (civilFromDays (toRD (yearOf cd) (monthOf cd) 1 + 6)).2.1 = monthOf cd
      have h7 : toRD (yearOf cd) (monthOf cd) 1 + 6 = toRD (yearOf cd) (monthOf cd) 7 := by
        rw [toRD_lin (yearOf cd) (monthOf cd) 7]
        ring
      rw [h7, civil_toRD (yearOf cd) (monthOf cd) 7 hM1 hM2 (by omega) (by omega)]
    have hcond : monthOf ((ws.headD []).headD 0) = monthOf ((ws.headD []).getLastD 0) := by
      rw [hm1, hm2]
    have hj : join_date_months (month_dates (prevYM (yearOf cd) (monthOf cd)).1
        (prevYM (yearOf cd) (monthOf cd)).2) ws
        = month_dates (prevYM (yearOf cd) (monthOf cd)).1
            (prevYM (yearOf cd) (monthOf cd)).2 ++ ws := by
      unfold join_date_months
      rw [if_pos hcond]
    rw [hj]
    have hpred := sOB_pred_eq _ hsun
    have hGfirst : sundayOnOrBefore (toRD (prevYM (yearOf cd) (monthOf cd)).1
          (prevYM (yearOf cd) (monthOf cd)).2 1)
        + 7 * (((month_dates (prevYM (yearOf cd) (monthOf cd)).1
            (prevYM (yearOf cd) (monthOf cd)).2).length : Int))
        = toRD (yearOf cd) (monthOf cd) 1 := by
      omega
    have hchain2 : weekChain (sundayOnOrBefore (toRD (prevYM (yearOf cd) (monthOf cd)).1
        (prevYM (yearOf cd) (monthOf cd)).2 1))
        (month_dates (prevYM (yearOf cd) (monthOf cd)).1
          (prevYM (yearOf cd) (monthOf cd)).2 ++ ws) := by
      refine weekChain_append _ _ _ hGchain ?_
      rw [hGfirst, ← hS]
      exact hchain
    refine ⟨⟨by simp [hGne], ?_, ?_⟩, ?_⟩
    · rw [hpy, hpm]
      exact hchain2
    · rw [getLastD_append_right _ _ hne]
      exact htgt
    · rw [List.length_append]
      have := hGlen.1
      omega
  · -- the week containing the 1st also holds days of the earlier month
    have hS : sundayOnOrBefore (toRD (yearOf cd) (monthOf cd) 1)
        ≤ toRD (yearOf cd) (monthOf cd) 1 - 1 := by
      unfold sundayOnOrBefore at *
      omega
    have hm1 : monthOf ((ws.headD []).headD 0) = (prevYM (yearOf cd) (monthOf cd)).2 := by
      rw [hh1]
      show (civilFromDays (sundayOnOrBefore (toRD (yearOf cd) (monthOf cd) 1))).2.1
        = (prevYM (yearOf cd) (monthOf cd)).2
      have hd : sundayOnOrBefore (toRD (yearOf cd) (monthOf cd) 1)
          = toRD (prevYM (yearOf cd) (monthOf cd)).1 (prevYM (yearOf cd) (monthOf cd)).2
              (sundayOnOrBefore (toRD (yearOf cd) (monthOf cd) 1)
                - toRD (prevYM (yearOf cd) (monthOf cd)).1
                    (prevYM (yearOf cd) (monthOf cd)).2 1 + 1) := by
        rw [toRD_lin (prevYM (yearOf cd) (monthOf cd)).1 (prevYM (yearOf cd) (monthOf cd)).2
          (sundayOnOrBefore (toRD (yearOf cd) (monthOf cd) 1)
            - toRD (prevYM (yearOf cd) (monthOf cd)).1
                (prevYM (yearOf cd) (monthOf cd)).2 1 + 1)]
        ring
      rw [hd, civil_toRD _ _ _ hp1 hp2 (by omega) (by omega)]
    have hm2 : monthOf ((ws.headD []).getLastD 0) = monthOf cd := by
      rw [hh2]
      show (civilFromDays (sundayOnOrBefore (toRD (yearOf cd) (monthOf cd) 1) + 6)).2.1
        = monthOf cd
      have hd : sundayOnOrBefore (toRD (yearOf cd) (monthOf cd) 1) + 6
          = toRD (yearOf cd) (monthOf cd)
              (sundayOnOrBefore (toRD (yearOf cd) (monthOf cd) 1) + 6
                - toRD (yearOf cd) (monthOf cd) 1 + 1) := by
        rw [toRD_lin (yearOf cd) (monthOf cd)
          (sundayOnOrBefore (toRD (yearOf cd) (monthOf cd) 1) + 6
            - toRD (yearOf cd) (monthOf cd) 1 + 1)]
        ring
      rw [hd, civil_toRD _ _ _ hM1 hM2 (by omega) (by omega)]
    have hcond : ¬ (monthOf ((ws.headD []).headD 0)
        = monthOf ((ws.headD []).getLastD 0)) := by
      rw [hm1, hm2]
      intro hc
      exact hpne hc
    have hj : join_date_months (month_dates (prevYM (yearOf cd) (monthOf cd)).1
        (prevYM (yearOf cd) (monthOf cd)).2) ws
        = (month_dates (prevYM (yearOf cd) (monthOf cd)).1
            (prevYM (yearOf cd) (monthOf cd)).2).dropLast ++ ws := by
      unfold join_date_months
      rw [if_neg hcond]
    rw [hj]
    have hpred := sOB_pred_ne _ hsun
    have hdl : ((month_dates (prevYM (yearOf cd) (monthOf cd)).1
        (prevYM (yearOf cd) (monthOf cd)).2).dropLast).length
        = (month_dates (prevYM (yearOf cd) (monthOf cd)).1
            (prevYM (yearOf cd) (monthOf cd)).2).length - 1 := by
      rw [List.dropLast_eq_take, List.length_take]
      omega
    have hGfirst : sundayOnOrBefore (toRD (prevYM (yearOf cd) (monthOf cd)).1
          (prevYM (yearOf cd) (monthOf cd)).2 1)
        + 7 * ((((month_dates (prevYM (yearOf cd) (monthOf cd)).1
            (prevYM (yearOf cd) (monthOf cd)).2).dropLast).length : Int))
        = sundayOnOrBefore (toRD (yearOf cd) (monthOf cd) 1) := by
      rw [hdl]
      have h4 := hGlen.1
      omega
    have hchain2 : weekChain (sundayOnOrBefore (toRD (prevYM (yearOf cd) (monthOf cd)).1
        (prevYM (yearOf cd) (monthOf cd)).2 1))
        ((month_dates (prevYM (yearOf cd) (monthOf cd)).1
          (prevYM (yearOf cd) (monthOf cd)).2).dropLast ++ ws) := by
      refine weekChain_append _ _ _ ?_ ?_
      · rw [List.dropLast_eq_take]
        exact weekChain_take _ _ _ hGchain
      · rw [hGfirst]
        exact hchain
    have hdlne : (month_dates (prevYM (yearOf cd) (monthOf cd)).1
        (prevYM (yearOf cd) (monthOf cd)).2).dropLast ≠ [] := by
      intro hc
      have hlc := congrArg List.length hc
      rw [hdl] at hlc
      have := hGlen.1
      simp at hlc
      omega
    refine ⟨⟨by simp [hdlne], ?_, ?_⟩, ?_⟩
    · rw [hpy, hpm]
      exact hchain2
    · rw [getLastD_append_right _ _ hne]
      exact htgt
    · rw [List.length_append, hdl]
      have := hGlen.1
      omega

end GitActivity

namespace GitActivity

theorem getLastD_ne_default (t : List (List Int)) (a : List Int) (ht : t ≠ []) :
    t.getLastD a = t.getLastD [] := by
  rw [List.getLastD_eq_getLast?, List.getLastD_eq_getLast?]
  cases hlt : t.getLast?
  · exact absurd (List.getLast?_eq_none_iff.mp hlt) ht
  · rfl

theorem getLastD_drop (ws : List (List Int)) (k : Nat) (hk : k < ws.length) :
    (ws.drop k).getLastD [] = ws.getLastD [] := by
  induction k generalizing ws with
  | zero => rfl
  | succ n ih =>
    cases ws with
    | nil => simp at hk
    | cons w t =>
      have hk2 : n < t.length := by simpa using hk
      rw [List.drop_succ_cons, ih t hk2]
      have htne : t ≠ [] := by
        intro hc
        rw [hc] at hk2
        simp at hk2
      rw [List.getLastD_cons]
      exact (getLastD_ne_default t w htne).symm

theorem getLastD_take_getElem (l : List (List Int)) (j : Nat) (hj : j < l.length) :
    (l.take (j + 1)).getLastD [] = l[j] := by
  have hlen : (l.take (j + 1)).length = j + 1 := by
    rw [List.length_take]
    omega
  rw [List.getLastD_eq_getLast?, List.getLast?_eq_getElem?, hlen]
  simp only [Nat.add_sub_cancel]
  rw [List.getElem?_eq_getElem (by omega : j < (l.take (j + 1)).length)]
  simp [List.getElem_take]

theorem go_inv (num_weeks : Nat) (target : Int) :
    ∀ (fuel : Nat) (cd : Int) (ws : List (List Int)), LoopInv cd target ws →
      ∃ cd2, LoopInv cd2 target (last_n_weeks_go num_weeks fuel cd ws) := by
  intro fuel
  induction fuel with
  | zero => exact fun cd ws h => ⟨cd, h⟩
  | succ n ih =>
    intro cd ws hInv
    show ∃ cd2, LoopInv cd2 target
      (if ws.length < num_weeks then
        last_n_weeks_go num_weeks n (previous_month cd)
          (join_date_months (month_dates (yearOf (previous_month cd))
            (monthOf (previous_month cd))) ws)
      else ws)
    by_cases hc : ws.length < num_weeks
    · rw [if_pos hc]
      exact ih (previous_month cd) _ (join_step cd target ws hInv).1
    · rw [if_neg hc]
      exact ⟨cd, hInv⟩

theorem go_length (num_weeks : Nat) (target : Int) :
    ∀ (fuel : Nat) (cd : Int) (ws : List (List Int)), LoopInv cd target ws →
      num_weeks ≤ ws.length + 3 * fuel →
      num_weeks ≤ (last_n_weeks_go num_weeks fuel cd ws).length := by
  intro fuel
  induction fuel with
  | zero =>
    intro cd ws _ hfuel
    show num_weeks ≤ ws.length
    omega
  | succ n ih =>
    intro cd ws hInv hfuel
    show num_weeks ≤
      (if ws.length < num_weeks then
        last_n_weeks_go num_weeks n (previous_month cd)
          (join_date_months (month_dates (yearOf (previous_month cd))
            (monthOf (previous_month cd))) ws)
      else ws).length
    by_cases hc : ws.length < num_weeks
    · rw [if_pos hc]
      have hstep := join_step cd target ws hInv
      exact ih (previous_month cd) _ hstep.1 (by omega)
    · rw [if_neg hc]
      omega

end GitActivity

namespace GitActivity

/-- Claim C1: for every date and every `n ≥ 1`, `last_n_weeks` returns
exactly `n` weeks, each of exactly 7 consecutive days, the weeks
contiguous and oldest-first (captured by `weekChain`), and the last
returned week contains the date. -/
theorem last_n_weeks_spec (date : Int) (n : Nat) (hn : 1 ≤ n) :
    (last_n_weeks date n).length = n ∧
    (∃ s, weekChain s (last_n_weeks date n)) ∧
    date ∈ (last_n_weeks date n).getLastD [] := by
  have hM1 : 1 ≤ monthOf date := (month_valid date).1
  have hM2 : monthOf date ≤ 12 := (month_valid date).2
  have hvd : 1 ≤ dayOf date ∧ dayOf date
      ≤ daysInMonth (yearOf date) (monthOf date) := by
    have h := civil_valid date
    exact ⟨h.2.2.1, h.2.2.2⟩
  have hrt : toRD (yearOf date) (monthOf date) (dayOf date) = date := toRD_civil date
  have hlin := toRD_lin (yearOf date) (monthOf date) (dayOf date)
  have hcov : ∃ w ∈ month_dates (yearOf date) (monthOf date), date ∈ w := by
    apply month_dates_cover _ _ _ hM1 hM2 <;> omega
  have hex : ∃ w ∈ month_dates (yearOf date) (monthOf date),
      (fun w : List Int => w.contains date) w = true := by
    obtain ⟨w, hw, hmem⟩ := hcov
    exact ⟨w, hw, List.elem_iff.mpr hmem⟩
  have hj : (month_dates (yearOf date) (monthOf date)).findIdx
      (fun w => w.contains date) < (month_dates (yearOf date) (monthOf date)).length :=
    List.findIdx_lt_length_of_exists hex
  have hjmem : date ∈ (month_dates (yearOf date) (monthOf date))[
      (month_dates (yearOf date) (monthOf date)).findIdx (fun w => w.contains date)] :=
    List.elem_iff.mp (List.findIdx_getElem (w := hj))
  have hInv0 : LoopInv date date
      ((month_dates (yearOf date) (monthOf date)).take
        ((month_dates (yearOf date) (monthOf date)).findIdx
          (fun w => w.contains date) + 1)) := by
    refine ⟨?_, ?_, ?_⟩
    · intro hc
      have hlc := congrArg List.length hc
      rw [List.length_take] at hlc
      simp only [List.length_nil] at hlc
      omega
    · exact weekChain_take _ _ _ (month_dates_chain _ _)
    · rw [getLastD_take_getElem _ _ hj]
      exact hjmem
  obtain ⟨cd2, hInv2⟩ := go_inv n date n date _ hInv0
  have hlen2 : n ≤ (last_n_weeks_go n n date
      ((month_dates (yearOf date) (monthOf date)).take
        ((month_dates (yearOf date) (monthOf date)).findIdx
          (fun w => w.contains date) + 1))).length := by
    apply go_length n date n date _ hInv0
    have hlt : 1 ≤ ((month_dates (yearOf date) (monthOf date)).take
        ((month_dates (yearOf date) (monthOf date)).findIdx
          (fun w => w.contains date) + 1)).length := by
      rw [List.length_take]
      omega
    omega
  obtain ⟨hne2, hchain2, htgt2⟩ := hInv2
  have hshow : last_n_weeks date n = (last_n_weeks_go n n date
      ((month_dates (yearOf date) (monthOf date)).take
        ((month_dates (yearOf date) (monthOf date)).findIdx
          (fun w => w.contains date) + 1))).drop
      ((last_n_weeks_go n n date
        ((month_dates (yearOf date) (monthOf date)).take
          ((month_dates (yearOf date) (monthOf date)).findIdx
            (fun w => w.contains date) + 1))).length - n) := rfl
  rw [hshow]
  refine ⟨?_, ?_, ?_⟩
  · rw [List.length_drop]
    omega
  · exact ⟨_, weekChain_drop _ _ _ hchain2⟩
  · rw [getLastD_drop _ _ (by omega)]
    exact htgt2

/-- Witness for claim C1 at a concrete date and width. -/
theorem last_n_weeks_spec_witness :
    (last_n_weeks (toRD 2023 5 15) 3).length = 3 ∧
    (∃ s, weekChain s (last_n_weeks (toRD 2023 5 15) 3)) ∧
    toRD 2023 5 15 ∈ (last_n_weeks (toRD 2023 5 15) 3).getLastD [] :=
  last_n_weeks_spec (toRD 2023 5 15) 3 (by decide)

end GitActivity

namespace GitActivity

/-! ## Activity aggregation (git_activity.py lines 424-456)

`count_commits_for` shells out to git and is treated as a black box: a
function from repository, week count and author filter to a partial map
from dates to commit counts (embedded as `Int → Option Nat`; `none`
means the date is absent from the returned dict).  The repository-mode
call `count_commits_for(repo, n)` uses the default `author=""`.
Python dict assignment `d[k] = v` updates an existing key in place or
appends a new one in insertion order. -/

/-- Python `d[k] = v` on a dict embedded as an association list. -/
def dictSet (d : List (String × Nat)) (k : String) (v : Nat) :
    List (String × Nat) :=
  if d.any (fun p => p.1 == k) then
    d.map (fun p => if p.1 == k then (k, v) else p)
  else d ++ [(k, v)]

/-- `gad_zip(annotated_date, sum_commits, repo_dir)` (line 424):
populate an annotated date with the number of commits for `repo_dir`. -/
def gad_zip (annotated_date : Gad) (sum_commits : Int → Option Nat)
    (repo_dir : String) : Gad :=
  let count := (sum_commits annotated_date.1).getD 0
  (annotated_date.1, dictSet annotated_date.2 repo_dir count)

/-- `aggregate_gads(repositories, time_period, authors)` (line 434),
parameterized by the black-box commit counter
`counter repo num_weeks author : Int → Option Nat`. -/
def aggregate_gads (counter : String → Nat → String → Int → Option Nat)
    (repositories : List String) (time_period : List (List Int))
    (authors : List String) : List (String × List (List Gad)) :=
  if authors ≠ [] then
    authors.map (fun author =>
      (author,
        repositories.foldl
          (fun gads_by_date repo_dir =>
            gads_by_date.map (fun week => week.map (fun day =>
              gad_zip day (counter repo_dir time_period.length author) repo_dir)))
          (time_period.map (fun week => week.map (fun day => (day, ([] : List (String × Nat))))))))
  else
    repositories.map (fun repo_dir =>
      (repo_dir,
        (time_period.map (fun week => week.map (fun day => (day, ([] : List (String × Nat)))))).map
          (fun week => week.map (fun day =>
            gad_zip day (counter repo_dir time_period.length "") repo_dir))))

theorem dictSet_absent (d : List (String × Nat)) (k : String) (v : Nat)
    (h : ∀ p ∈ d, p.1 ≠ k) : dictSet d k v = d ++ [(k, v)] := by
  unfold dictSet
  rw [if_neg]
  intro hc
  rw [List.any_eq_true] at hc
  obtain ⟨p, hp, hpk⟩ := hc
  exact h p hp (by simpa using hpk)

theorem foldl_map_nested (rs : List String) (F : String → Gad → Gad)
    (init : List (List Gad)) :
    rs.foldl (fun acc r => acc.map (fun week => week.map (F r))) init
      = init.map (fun week => week.map (fun g => rs.foldl (fun g r => F r g) g)) := by
  induction rs generalizing init with
  | nil => simp
  | cons r t ih =>
    rw [List.foldl_cons, ih]
    simp [List.map_map, Function.comp]

theorem gad_fold_spec (counter : String → Nat → String → Int → Option Nat)
    (len : Nat) (a : String) (dt : Int) :
    ∀ (rs : List String) (md : List (String × Nat)), rs.Nodup →
      (∀ r ∈ rs, ∀ p ∈ md, p.1 ≠ r) →
      rs.foldl (fun g r => gad_zip g (counter r len a) r) (dt, md)
        = (dt, md ++ rs.map (fun r => (r, (counter r len a dt).getD 0))) := by
  intro rs
  induction rs with
  | nil => intro md _ _; simp
  | cons r t ih =>
    intro md hnd hdisj
    rw [List.foldl_cons]
    have hz : gad_zip (dt, md) (counter r len a) r
        = (dt, md ++ [(r, (counter r len a dt).getD 0)]) := by
      show (dt, dictSet md r ((counter r len a dt).getD 0)) = _
      rw [dictSet_absent md r _ (fun p hp => hdisj r (by simp) p hp)]
    rw [hz, ih (md ++ [(r, (counter r len a dt).getD 0)]) (by simpa using hnd.of_cons)]
    · simp
    · intro r2 hr2 p hp
      rcases List.mem_append.mp hp with h | h
      · exact hdisj r2 (List.mem_cons_of_mem _ hr2) p h
      · rcases List.mem_singleton.mp h with rfl
        intro hc
        rw [List.nodup_cons] at hnd
        apply hnd.1
        have hr : r = r2 := hc
        rw [hr]
        exact hr2

end GitActivity

namespace GitActivity

/-- Claim C4, counterexample: with authors empty and two configured
repositories, each repository's GADs carry only that repository's own
key (`["a"]`), not the full configured key set `["a", "b"]`. -/
theorem aggregate_gads_claim_false :
    ¬ (∀ entry ∈ aggregate_gads (fun _ _ _ _ => none) ["a", "b"] [[(0 : Int)]] [],
        ∀ week ∈ entry.2, ∀ gad ∈ week, gad.2.map Prod.fst = ["a", "b"]) := by
  decide

theorem map_fst_pair {β : Type} (l : List String) (f : String → β) :
    (l.map (fun a => (a, f a))).map Prod.fst = l := by
  rw [List.map_map]
  have h : (Prod.fst ∘ fun a => (a, f a)) = id := by
    funext a
    rfl
  rw [h, List.map_id]

/-- Claim C4, amended: with a non-empty author list, `aggregate_gads`
produces one entry per author, one GAD per date of the window in window
order, and every GAD's map has exactly the configured repositories as
keys, each mapped to the counter's count for that repository, author
and date (0 when the counter reports nothing).  With an empty author
list the result is keyed by repository and each GAD's map holds exactly
the one key of its own repository (not all configured repositories). -/
theorem aggregate_gads_spec (counter : String → Nat → String → Int → Option Nat)
    (repositories : List String) (time_period : List (List Int))
    (authors : List String) (hrnd : repositories.Nodup) :
    (authors ≠ [] →
      (aggregate_gads counter repositories time_period authors).map Prod.fst = authors ∧
      ∀ entry ∈ aggregate_gads counter repositories time_period authors,
        entry.2.map (fun week => week.map Prod.fst) = time_period ∧
        ∀ week ∈ entry.2, ∀ gad ∈ week,
          gad.2.map Prod.fst = repositories ∧
          ∀ r c, (r, c) ∈ gad.2 →
            c = (counter r time_period.length entry.1 gad.1).getD 0) ∧
    (authors = [] →
      (aggregate_gads counter repositories time_period authors).map Prod.fst
        = repositories ∧
      ∀ entry ∈ aggregate_gads counter repositories time_period authors,
        entry.2.map (fun week => week.map Prod.fst) = time_period ∧
        ∀ week ∈ entry.2, ∀ gad ∈ week,
          gad.2.map Prod.fst = [entry.1] ∧
          ∀ r c, (r, c) ∈ gad.2 →
            c = (counter r time_period.length "" gad.1).getD 0) := by
  constructor
  · intro hne
    have hagg : aggregate_gads counter repositories time_period authors
        = authors.map (fun author =>
          (author,
            (time_period.map (fun week => week.map (fun day =>
                (day, ([] : List (String × Nat)))))).map
              (fun week => week.map (fun g =>
                repositories.foldl
                  (fun g r => gad_zip g (counter r time_period.length author) r) g)))) := by
      unfold aggregate_gads
      rw [if_pos hne]
      refine List.map_congr_left ?_
      intro author _
      exact congrArg (fun z => (author, z)) (foldl_map_nested repositories _ _)
    rw [hagg]
    constructor
    · exact map_fst_pair authors _
    · intro entry hentry
      rcases List.mem_map.mp hentry with ⟨author, hauth, hentryeq⟩
      subst hentryeq
      constructor
      · simp only [List.map_map]
        rw [show time_period.map _ = time_period.map id from ?_, List.map_id]
        refine List.map_congr_left ?_
        intro week hweek
        simp only [Function.comp, List.map_map, id]
        rw [show week.map _ = week.map id from ?_, List.map_id]
        refine List.map_congr_left ?_
        intro day hday
        simp only [Function.comp, id]
        rw [gad_fold_spec counter time_period.length author day repositories [] hrnd
          (by simp)]
      · intro week hweek gad hgad
        rcases List.mem_map.mp hweek with ⟨week0, hweek0, hweq⟩
        subst hweq
        rcases List.mem_map.mp hgad with ⟨g0, hg0, hgeq⟩
        rcases List.mem_map.mp hweek0 with ⟨winit, hwinit, hweq0⟩
        subst hweq0
        rcases List.mem_map.mp hg0 with ⟨day, hday, hg0eq⟩
        subst hg0eq
        rw [gad_fold_spec counter time_period.length author day repositories [] hrnd
          (by simp)] at hgeq
        subst hgeq
        constructor
        · rw [List.nil_append]
          exact map_fst_pair repositories _
        · intro r c hrc
          simp only [List.nil_append] at hrc
          rcases List.mem_map.mp hrc with ⟨r0, hr0, hreq⟩
          have h1 : r0 = r := congrArg Prod.fst hreq
          have h2 : (counter r0 time_period.length author day).getD 0 = c :=
            congrArg Prod.snd hreq
          subst h1
          rw [← h2]
  · intro hempty
    subst hempty
    have hagg : aggregate_gads counter repositories time_period []
        = repositories.map (fun repo_dir =>
          (repo_dir,
            (time_period.map (fun week => week.map (fun day =>
                (day, ([] : List (String × Nat)))))).map
              (fun week => week.map (fun day =>
                gad_zip day (counter repo_dir time_period.length "") repo_dir)))) := by
      unfold aggregate_gads
      rw [if_neg (by simp)]
    rw [hagg]
    constructor
    · exact map_fst_pair repositories _
    · intro entry hentry
      rcases List.mem_map.mp hentry with ⟨repo, hrepo, hentryeq⟩
      subst hentryeq
      have hz : ∀ day : Int,
          gad_zip (day, ([] : List (String × Nat))) (counter repo time_period.length "") repo
            = (day, [(repo, (counter repo time_period.length "" day).getD 0)]) := by
        intro day
        show (day, dictSet [] repo ((counter repo time_period.length "" day).getD 0)) = _
        rw [dictSet_absent [] repo _ (by simp)]
        rfl
      constructor
      · simp only [List.map_map]
        rw [show time_period.map _ = time_period.map id from ?_, List.map_id]
        refine List.map_congr_left ?_
        intro week hweek
        simp only [Function.comp, List.map_map, id]
        rw [show week.map _ = week.map id from ?_, List.map_id]
        refine List.map_congr_left ?_
        intro day hday
        simp only [Function.comp, id]
        rw [hz day]
      · intro week hweek gad hgad
        rcases List.mem_map.mp hweek with ⟨week0, hweek0, hweq⟩
        subst hweq
        rcases List.mem_map.mp hgad with ⟨g0, hg0, hgeq⟩
        rcases List.mem_map.mp hweek0 with ⟨winit, hwinit, hweq0⟩
        subst hweq0
        rcases List.mem_map.mp hg0 with ⟨day, hday, hg0eq⟩
        subst hg0eq
        rw [hz day] at hgeq
        subst hgeq
        refine ⟨rfl, ?_⟩
        intro r c hrc
        rcases List.mem_singleton.mp hrc with hreq
        have h1 : repo = r := congrArg Prod.fst hreq.symm
        have h2 : c = (counter repo time_period.length "" day).getD 0 :=
          congrArg Prod.snd hreq
        subst h1
        exact h2

/-- Witness for the amended claim C4 at concrete inputs. -/
theorem aggregate_gads_spec_witness :
    (aggregate_gads (fun _ _ _ _ => some 2) ["a", "b"] [[(0 : Int)]] ["x"]).map Prod.fst
      = ["x"] ∧
    (aggregate_gads (fun _ _ _ _ => some 2) ["a", "b"] [[(0 : Int)]] []).map Prod.fst
      = ["a", "b"] := by
  have h1 := (aggregate_gads_spec (fun _ _ _ _ => some 2) ["a", "b"] [[(0 : Int)]] ["x"]
    (by decide)).1 (by decide)
  have h2 := (aggregate_gads_spec (fun _ _ _ _ => some 2) ["a", "b"] [[(0 : Int)]] []
    (by decide)).2 rfl
  exact ⟨h1.1, h2.1⟩

end GitActivity

namespace GitActivity

/-! ## Rendering (git_activity.py lines 34, 256-295, 314-333, 367-396)

A Python "rendered element" is a list of strings (a box); the rendered
output of `render_gads` is a list of boxes.  Strings are `List Char`. -/

/-- A rendered box: a list of strings. -/
abbrev Box := List (List Char)

/-- `DUMMY_GAD` (line 34).  The date component is `TODAY` at runtime;
both render functions ignore the date, so it is embedded as day 0. -/
def DUMMY_GAD : Gad := (0, [("~/path_one", 0), ("~/path_two", 1), ("~/path_three", 2)])

/-- `render_colored_block_string(color, emphasize=False)` (line 256). -/
def render_colored_block_string (color : Nat) (emphasize : Bool := false) :
    List Box :=
  let block := ['◼']
  let em_blocks := [['●'], ['◆'], ['▢']]
  if emphasize then [[colorize_string (em_blocks.getD 0 []) color]]
  else [[colorize_string block color]]

/-- `render_colored_block_gad(gad, quartiles)` (line 274). -/
def render_colored_block_gad (gad : Gad) (quartiles : Int × Int × Int) : List Box :=
  render_colored_block_string (determine_color_for gad quartiles)

/-- `strftime("%b")`: the English month abbreviation of a month number. -/
def month_abbrev (m : Int) : List Char :=
  if m = 1 then ['J', 'a', 'n']
  else if m = 2 then ['F', 'e', 'b']
  else if m = 3 then ['M', 'a', 'r']
  else if m = 4 then ['A', 'p', 'r']
  else if m = 5 then ['M', 'a', 'y']
  else if m = 6 then ['J', 'u', 'n']
  else if m = 7 then ['J', 'u', 'l']
  else if m = 8 then ['A', 'u', 'g']
  else if m = 9 then ['S', 'e', 'p']
  else if m = 10 then ['O', 'c', 't']
  else if m = 11 then ['N', 'o', 'v']
  else ['D', 'e', 'c']

/-- `strftime("%Y")`: the year, zero-padded to four digits (years in
`datetime.date` range are between 1 and 9999). -/
def year_digits (y : Int) : List Char :=
  let ds := natDigits y.toNat
  List.replicate (4 - ds.length) '0' ++ ds

/-- `render_gads(gad_weeks, gad_render_func, quartiles)` (line 279):
one row of rendered day boxes per week, preceded by a year-label row at
year boundaries, followed per week by a month label (when the week
spans a month boundary or starts on the 1st) or by spacing one glyph
wide, then a newline box. -/
def render_gads (gad_weeks : List (List Gad))
    (gad_render_func : Gad → Int × Int × Int → List Box)
    (quartiles : Int × Int × Int) : List Box :=
  let element_width :=
    non_ansi_len (((gad_render_func DUMMY_GAD quartiles).getD 0 []).getD 0 [])
  gad_weeks.foldl
    (fun rendered_string_list week =>
      let w0 := (week.getD 0 (0, [])).1
      let w6 := (week.getD 6 (0, [])).1
      let rendered_string_list :=
        if yearOf w0 ≠ yearOf w6 ∨ (dayOf w0 = 1 ∧ monthOf w0 = 1) then
          rendered_string_list
            ++ (year_digits (yearOf w6) ++ [' ', ' ', ' ', ' ']).map (fun c => [[c]])
            ++ [[['\n']]]
        else rendered_string_list
      let rendered_string_list :=
        rendered_string_list ++ week.flatMap (fun gad => gad_render_func gad quartiles)
      let rendered_string_list :=
        rendered_string_list
          ++ [if monthOf w0 ≠ monthOf w6 ∨ dayOf w0 = 1
              then [month_abbrev (monthOf w6)]
              else [List.replicate element_width ' ']]
      rendered_string_list ++ [[['\n']]])
    []

/-- `daily_commit_counts(gads)` (line 392): totals of the nonzero days. -/
def daily_commit_counts (gads : List (List Gad)) : List Int :=
  let flat_gads := gads.flatMap id
  let total_commits_per_day := flat_gads.map (fun x => ((x.2.map Prod.snd).sum : Int))
  total_commits_per_day.filter (fun commits => commits ≠ 0)

end GitActivity

namespace GitActivity

/-- Index-0 access with a default is the head with that default. -/
theorem getD_zero_headD {α : Type} (l : List α) (d : α) : l.getD 0 d = l.headD d := by
  cases l <;> rfl

/-- On a 7-element list, index-6 access with a default is the last element. -/
theorem getD_six_getLastD {α : Type} (l : List α) (h : l.length = 7) (d : α) :
    l.getD 6 d = l.getLastD d := by
  match l, h with
  | [a, b, c, e, f, g, k], _ => rfl

/-- A left fold whose step appends a per-element block is a `flatMap`. -/
theorem foldl_append_out {α β : Type} (s : List α → β → List α) (g : β → List α)
    (hs : ∀ acc b, s acc b = acc ++ g b) :
    ∀ (l : List β) (acc : List α), l.foldl s acc = acc ++ l.flatMap g := by
  intro l
  induction l with
  | nil => intro acc; simp
  | cons b l ih =>
    intro acc
    rw [List.foldl_cons, hs, List.flatMap_cons, ih, List.append_assoc]

/-- `flatMap` is determined by the function's values on the list's members. -/
theorem flatMap_congr_mem {α β : Type} {l : List α} {g h : α → List β}
    (H : ∀ a ∈ l, g a = h a) : l.flatMap g = l.flatMap h := by
  induction l with
  | nil => rfl
  | cons a l ih =>
    rw [List.flatMap_cons, List.flatMap_cons, H a (List.mem_cons_self a l),
      ih (fun x hx => H x (List.mem_cons_of_mem _ hx))]

/-- The claim's description of one week's row of `render_gads` output: an
optional year-label row at a year boundary, the week's rendered day glyphs,
then a month abbreviation of the week's last day exactly when the week spans
a month boundary or its first day is the 1st — otherwise a run of spaces as
wide as one glyph's display width measured ignoring ANSI escapes
(`non_ansi_len`) — and a terminating newline marker. -/
def week_row_spec (gad_render_func : Gad → Int × Int × Int → List Box)
    (quartiles : Int × Int × Int) (week : List Gad) : List Box :=
  let w0 := (week.headD (0, [])).1
  let w6 := (week.getLastD (0, [])).1
  let element_width :=
    non_ansi_len (((gad_render_func DUMMY_GAD quartiles).getD 0 []).getD 0 [])
  (if yearOf w0 ≠ yearOf w6 ∨ (dayOf w0 = 1 ∧ monthOf w0 = 1) then
      (year_digits (yearOf w6) ++ [' ', ' ', ' ', ' ']).map (fun c => [[c]]) ++ [[['\n']]]
    else [])
  ++ week.flatMap (fun gad => gad_render_func gad quartiles)
  ++ [if monthOf w0 ≠ monthOf w6 ∨ dayOf w0 = 1
      then [month_abbrev (monthOf w6)]
      else [List.replicate element_width ' ']]
  ++ [[['\n']]]

/-- On a window of 7-day weeks, `render_gads` is the concatenation of
the per-week row descriptions. -/
theorem render_gads_eq_rows (gad_weeks : List (List Gad))
    (f : Gad → Int × Int × Int → List Box) (q : Int × Int × Int)
    (h7 : ∀ w ∈ gad_weeks, w.length = 7) :
    render_gads gad_weeks f q = gad_weeks.flatMap (week_row_spec f q) := by
  simp only [render_gads]
  refine (foldl_append_out _
    (fun week =>
      (if yearOf (week.getD 0 (0, [])).1 ≠ yearOf (week.getD 6 (0, [])).1 ∨
          (dayOf (week.getD 0 (0, [])).1 = 1 ∧ monthOf (week.getD 0 (0, [])).1 = 1) then
          (year_digits (yearOf (week.getD 6 (0, [])).1) ++ [' ', ' ', ' ', ' ']).map
            (fun c => [[c]]) ++ [[['\n']]]
        else [])
      ++ week.flatMap (fun gad => f gad q)
      ++ [if monthOf (week.getD 0 (0, [])).1 ≠ monthOf (week.getD 6 (0, [])).1 ∨
            dayOf (week.getD 0 (0, [])).1 = 1
          then [month_abbrev (monthOf (week.getD 6 (0, [])).1)]
          else [List.replicate
            (non_ansi_len (((f DUMMY_GAD q).getD 0 []).getD 0 [])) ' ']]
      ++ [[['\n']]])
    ?_ gad_weeks []).trans ?_
  · intro acc w
    by_cases hy : yearOf (w.getD 0 (0, [])).1 ≠ yearOf (w.getD 6 (0, [])).1 ∨
        (dayOf (w.getD 0 (0, [])).1 = 1 ∧ monthOf (w.getD 0 (0, [])).1 = 1)
    · simp only [if_pos hy, List.append_assoc]
    · simp only [if_neg hy, List.nil_append, List.append_assoc]
  · rw [List.nil_append]
    refine flatMap_congr_mem (fun w hw => ?_)
    have hl : w.length = 7 := h7 w hw
    simp only [week_row_spec]
    rw [getD_zero_headD w (0, []), getD_six_getLastD w hl (0, [])]

/-- C8: on a window of 7-day weeks, `render_gads` is exactly the
concatenation, week by week, of rows that append a month abbreviation of
the week's last day precisely when the week spans a month boundary or its
first day is the first of a month, append spaces one glyph's ANSI-ignoring
display width wide otherwise, and always end with a newline marker. -/
theorem render_gads_rows (gad_weeks : List (List Gad))
    (f : Gad → Int × Int × Int → List Box) (q : Int × Int × Int)
    (h7 : ∀ w ∈ gad_weeks, w.length = 7) :
    render_gads gad_weeks f q = gad_weeks.flatMap (week_row_spec f q) :=
  render_gads_eq_rows gad_weeks f q h7

end GitActivity

namespace GitActivity

/-- A concrete one-week window (Sunday 2023-05-14 through 2023-05-20) with
no commits, used to instantiate the row-structure theorem. -/
def c8_window : List (List Gad) :=
  [(List.range 7).map (fun i => ((toRD 2023 5 14 + i : Int), ([] : List (String × Nat))))]

/-- Witness: the row-structure theorem instantiated on a concrete one-week
window in block mode. -/
theorem render_gads_rows_witness :
    (∀ w ∈ c8_window, w.length = 7) ∧
    render_gads c8_window render_colored_block_gad (1, 3, 5) =
      c8_window.flatMap (week_row_spec render_colored_block_gad (1, 3, 5)) :=
  ⟨by decide, render_gads_rows c8_window render_colored_block_gad (1, 3, 5) (by decide)⟩

end GitActivity

namespace GitActivity

/-! ## End-to-end block-mode scenario (claim about lines 201-235, 274-276)

One configured repository, one author, a 1-week window containing
2023-05-20, and a commit counter reporting 3 commits on 2023-05-17 and
none on any other day. -/

/-- The scenario's black-box commit counter: 3 commits on 2023-05-17,
no entries for any other date. -/
def c5_counter : String → Nat → String → Int → Option Nat :=
  fun _ _ _ date => if date = toRD 2023 5 17 then some 3 else none

/-- The scenario's 1-week window. -/
def c5_window : List (List Int) := last_n_weeks (toRD 2023 5 20) 1

/-- The scenario's aggregated GADs for the single author. -/
def c5_gads : List (List Gad) :=
  ((aggregate_gads c5_counter ["repo"] c5_window ["alice"]).headD ("", [])).2

/-- The scenario's rendered week: one block glyph per day, using
quartiles computed from the scenario's daily commit counts. -/
def c5_glyphs : List (List Box) :=
  (c5_gads.flatMap id).map (fun gad =>
    render_colored_block_gad gad (calculate_quartiles (daily_commit_counts c5_gads)))

end GitActivity

namespace GitActivity

/-- C5 counterexample: in the scenario the daily counts are `[3]`, the
quartiles are `(3, 3, 3)`, six of the seven glyphs are at the zero
intensity level, but the colored glyph for the 3-commit day is NOT at
intensity level 3 of its colorway (the claim's "≤Q3" bucket): the
cascade in `determine_color_for` tests `≤ Q1` first, so count 3 lands
in bucket 1. -/
theorem render_block_pipeline_claim_false :
    daily_commit_counts c5_gads = [3] ∧
    calculate_quartiles (daily_commit_counts c5_gads) = (3, 3, 3) ∧
    c5_glyphs.length = 7 ∧
    c5_glyphs.getD 3 []
      ≠ render_colored_block_string ((COLORWAYS.getD 0 []).getD 3 0) := by
  decide

/-- C5 amended: in the scenario the quartiles computed from `[3]` are
`(3, 3, 3)` and block-mode rendering of the week produces six glyphs at
the zero intensity level (shade `COLORWAYS[last][0] = 236`) and one
colored glyph for the 3-commit day at intensity level 1 of its
repository's colorway (shade `COLORWAYS[0][1] = 94`), because the
bucket cascade tests `≤ Q1` before `≤ Q2` and `≤ Q3`. -/
theorem render_block_pipeline_spec :
    calculate_quartiles (daily_commit_counts c5_gads) = (3, 3, 3) ∧
    c5_glyphs =
      [render_colored_block_string ((COLORWAYS.getD (COLORWAYS.length - 1) []).getD 0 0),
       render_colored_block_string ((COLORWAYS.getD (COLORWAYS.length - 1) []).getD 0 0),
       render_colored_block_string ((COLORWAYS.getD (COLORWAYS.length - 1) []).getD 0 0),
       render_colored_block_string ((COLORWAYS.getD 0 []).getD 1 0),
       render_colored_block_string ((COLORWAYS.getD (COLORWAYS.length - 1) []).getD 0 0),
       render_colored_block_string ((COLORWAYS.getD (COLORWAYS.length - 1) []).getD 0 0),
       render_colored_block_string ((COLORWAYS.getD (COLORWAYS.length - 1) []).getD 0 0)] := by
  decide

end GitActivity

namespace GitActivity

/-! ## Orientation machinery (git_activity.py lines 75-94, 314-333, 367-396)

Rendered output manipulation: splitting a rendered box list on newline
boxes, the `zip(*rows)` transpose, `str.join`, the month-label spacing
fixup, and `render_author_gads` itself. -/

/-- `split_list_on(element, lst)` (line 75): split a list on a separator
element; note the segment after the last separator is dropped. -/
def split_list_on (element : Box) (lst : List Box) : List (List Box) :=
  (lst.foldl
    (fun (acc : List (List Box) × List Box) x =>
      if x = element then (acc.1 ++ [acc.2], [])
      else (acc.1, acc.2 ++ [x]))
    ([], [])).1

/-- One step of Python `zip(*rows)`: the heads and tails of every row,
or `none` once some row is exhausted. -/
def headsTails {α : Type} (rows : List (List α)) :
    Option (List α × List (List α)) :=
  rows.foldr
    (fun r acc =>
      match r, acc with
      | a :: t, some (hs, ts) => some (a :: hs, t :: ts)
      | _, _ => none)
    (some ([], []))

/-- Fueled core of `zip(*rows)`. -/
def pyZipGo {α : Type} : Nat → List (List α) → List (List α)
  | 0, _ => []
  | fuel + 1, rows =>
    match headsTails rows with
    | some (hs, ts) => hs :: pyZipGo fuel ts
    | none => []

/-- Python `zip(*rows)` (as lists): truncates to the shortest row, and
`zip()` of no rows is empty.  The first row's length bounds the result
length, so it serves as structural fuel. -/
def pyZip {α : Type} (rows : List (List α)) : List (List α) :=
  match rows with
  | [] => []
  | r :: _ => pyZipGo r.length rows

/-- `diagonally_reflect(lst)` (line 92): reflect each author's
two-dimensional rendered-row list over the diagonal. -/
def diagonally_reflect (lst : List (List (List Box))) : List (List (List Box)) :=
  lst.map pyZip

/-- Python `sep.join(parts)`. -/
def pyJoin (sep : List Char) : List (List Char) → List Char
  | [] => []
  | [s] => s
  | s :: rest => s ++ sep ++ pyJoin sep rest

/-- `merge_rendered_gads(rendered_gads)` (line 367): flatten each week's
boxes into a space-joined line and join the lines with newlines. -/
def merge_rendered_gads (rendered_gads : List (List (List Box))) :
    List (List Char) :=
  rendered_gads.map (fun gads =>
    pyJoin ['\n'] (gads.map (fun week => pyJoin [' '] (week.flatMap id))))

/-- Python 2 `\s` on ASCII strings. -/
def isPySpace (c : Char) : Bool :=
  c = ' ' || c = '\t' || c = '\n' || c = '\r' || c = '\x0b' || c = '\x0c'

/-- Python 2 `\w` on ASCII strings. -/
def isPyWord (c : Char) : Bool := c.isAlphanum || c = '_'

/-- `re.findall(r"\s+|\w+", s)`: maximal whitespace and word runs in
order, characters matching neither skipped. -/
def pyTokens (s : List Char) : List (List Char) :=
  match s with
  | [] => []
  | c :: rest =>
    if isPySpace c then
      (c :: rest.takeWhile isPySpace) :: pyTokens (rest.dropWhile isPySpace)
    else if isPyWord c then
      (c :: rest.takeWhile isPyWord) :: pyTokens (rest.dropWhile isPyWord)
    else pyTokens rest
termination_by s.length
decreasing_by
  · exact Nat.lt_succ_of_le (length_dropWhile_le _ _)
  · exact Nat.lt_succ_of_le (length_dropWhile_le _ _)
  · simp

/-- Python `x[:-overrun]` (`overrun` may be zero or negative: `x[:-0]`
is `x[:0] = ""`, and `x[:-(-k)]` is `x[:k]`). -/
def pyNegSlice (x : List Char) (overrun : Int) : List Char :=
  if overrun > 0 then x.take (x.length - overrun.toNat)
  else x.take (-overrun).toNat

/-- Python `s.split(sep)` for a single-character separator (used to
model the regex line decomposition below). -/
def pySplit (sep : Char) : List Char → List (List Char)
  | [] => [[]]
  | c :: t =>
    if c = sep then [] :: pySplit sep t
    else
      match pySplit sep t with
      | [] => [[c]]
      | h :: r => (c :: h) :: r

/-- `adjust_month_label_spacing(gad_month_string)` (line 376).  The
regex `^((.*\n)+)(.*)$` greedily captures everything up to and
including the last newline in group 1, the last line-with-newline in
group 2, and the final line in group 3 (the Python code crashes when
the string has no newline; this embedding is only ever applied to
multi-line strings). -/
def adjust_month_label_spacing (s : List Char) : List Char :=
  let lines := pySplit '\n' s
  let group1 := lines.dropLast.flatMap (fun l => l ++ ['\n'])
  let group2 := lines.dropLast.getLastD [] ++ ['\n']
  let group3 := lines.getLastD []
  let element_width := non_ansi_len (group2.takeWhile (fun c => !(c = ' ')))
  let overrun : Int := 3 - element_width
  let month_line := pyTokens group3
  let mod_month_line := month_line.take 1 ++
    (month_line.drop 1).map (fun x =>
      if isPySpace (x.headD 'a') then pyNegSlice x overrun else x)
  let mod_month_line2 := mod_month_line.map (fun x =>
    if x.length < element_width then [' ', ' '] else x)
  group1 ++ mod_month_line2.flatten

/-- `render_author_gads(author_gads, gads_render_func,
author_render_func, orientation)` (line 314); an unknown orientation is
`exit(1)`. -/
def render_author_gads (author_gads : List (String × List (List Gad)))
    (gads_render_func : List (List Gad) → Int × Int × Int → List Box)
    (author_render_func : String → List Int → List Char)
    (orientation : String) :
    Except Unit (List (List Char) × List (List Char)) :=
  let authors := author_gads.map (fun p =>
    author_render_func p.1 (daily_commit_counts p.2))
  let rendered_gads := author_gads.map (fun p =>
    gads_render_func p.2 (calculate_quartiles (daily_commit_counts p.2)))
  let split_rendered_gads := rendered_gads.map (fun l => split_list_on [['\n']] l)
  if orientation = "vertical" then
    Except.ok (authors, merge_rendered_gads split_rendered_gads)
  else if orientation = "horizontal" then
    Except.ok (authors,
      (merge_rendered_gads (diagonally_reflect split_rendered_gads)).map
        adjust_month_label_spacing)
  else Except.error ()

/-- The multiset of non-whitespace characters of a string: the content
of its glyph tokens, with all layout whitespace discarded. -/
def nonws (s : List Char) : Multiset Char :=
  (↑(s.filter (fun c => !(isPySpace c))) : Multiset Char)

/-- The non-whitespace content of a rendered box. -/
def boxNonws (b : Box) : Multiset Char := (b.map nonws).sum

end GitActivity

namespace GitActivity

/-! ## Supporting lemmas for the orientation claim: splitting and joining -/

theorem split_foldl_no_sep (sep : Box) :
    ∀ (seg : List Box) (acc : List (List Box)) (temp : List Box), sep ∉ seg →
      seg.foldl
        (fun (acc : List (List Box) × List Box) x =>
          if x = sep then (acc.1 ++ [acc.2], [])
          else (acc.1, acc.2 ++ [x]))
        (acc, temp) = (acc, temp ++ seg) := by
  intro seg
  induction seg with
  | nil => intro acc temp _; simp
  | cons b t ih =>
    intro acc temp hmem
    have hb : ¬(b = sep) := fun h => hmem (h ▸ List.mem_cons_self b t)
    rw [List.foldl_cons, if_neg hb]
    show List.foldl _ (acc, temp ++ [b]) t = _
    rw [ih acc (temp ++ [b]) (fun h => hmem (List.mem_cons_of_mem _ h)),
      List.append_assoc]
    rfl

theorem split_core (sep : Box) :
    ∀ (segs : List (List Box)) (acc : List (List Box)),
      (∀ seg ∈ segs, sep ∉ seg) →
      (segs.flatMap (fun seg => seg ++ [sep])).foldl
        (fun (acc : List (List Box) × List Box) x =>
          if x = sep then (acc.1 ++ [acc.2], [])
          else (acc.1, acc.2 ++ [x]))
        (acc, []) = (acc ++ segs, []) := by
  intro segs
  induction segs with
  | nil => intro acc _; simp
  | cons s t ih =>
    intro acc h
    rw [List.flatMap_cons, List.append_assoc, List.foldl_append,
      split_foldl_no_sep sep s acc [] (h s (List.mem_cons_self s t)),
      List.nil_append, List.singleton_append, List.foldl_cons, if_pos rfl]
    show List.foldl _ (acc ++ [s], []) _ = _
    rw [ih (acc ++ [s]) (fun g hg => h g (List.mem_cons_of_mem _ hg)),
      List.append_assoc]
    rfl

/-- `split_list_on` recovers the segments from a separator-terminated
concatenation whose segments avoid the separator. -/
theorem split_list_on_flatMap (sep : Box) (segs : List (List Box))
    (h : ∀ seg ∈ segs, sep ∉ seg) :
    split_list_on sep (segs.flatMap (fun seg => seg ++ [sep])) = segs := by
  unfold split_list_on
  rw [split_core sep segs [] h]
  rfl

theorem flatMap_flatMap {α β γ : Type} (l : List α) (f : α → List β)
    (g : β → List γ) :
    (l.flatMap f).flatMap g = l.flatMap (fun a => (f a).flatMap g) := by
  induction l with
  | nil => rfl
  | cons a t ih => simp only [List.flatMap_cons, List.flatMap_append, ih]

theorem pyJoin_eq_cons (sep s r : List Char) (t : List (List Char)) :
    pyJoin sep (s :: r :: t) = s ++ sep ++ pyJoin sep (r :: t) := rfl

theorem nonws_append (a b : List Char) : nonws (a ++ b) = nonws a + nonws b := by
  simp [nonws, List.filter_append]

theorem nonws_nil : nonws [] = 0 := rfl

theorem nonws_pyJoin (sep : List Char) (hsep : nonws sep = 0) :
    ∀ parts : List (List Char),
      nonws (pyJoin sep parts) = (parts.map nonws).sum := by
  intro parts
  induction parts with
  | nil => simp [pyJoin, nonws_nil]
  | cons s t ih =>
    cases t with
    | nil => simp [pyJoin]
    | cons r t2 =>
      rw [pyJoin_eq_cons, nonws_append, nonws_append, hsep, ih]
      simp

theorem nonws_flatten : ∀ L : List (List Char),
    nonws L.flatten = (L.map nonws).sum := by
  intro L
  induction L with
  | nil => simp [nonws_nil]
  | cons s t ih => rw [List.flatten_cons, nonws_append, ih, List.map_cons, List.sum_cons]

theorem nonws_row (w : List Box) :
    nonws (pyJoin [' '] (w.flatMap id)) = (w.map boxNonws).sum := by
  rw [nonws_pyJoin [' '] rfl]
  induction w with
  | nil => rfl
  | cons b t ih =>
    rw [List.flatMap_cons, List.map_append, List.sum_append, ih,
      List.map_cons, List.sum_cons]
    rfl

/-- The non-whitespace content of a merged author entry is the summed
content of every box of every row. -/
theorem nonws_merge_entry (rws : List (List Box)) :
    nonws (pyJoin ['\n'] (rws.map (fun week => pyJoin [' '] (week.flatMap id))))
      = (rws.flatten.map boxNonws).sum := by
  rw [nonws_pyJoin ['\n'] rfl, List.map_map]
  induction rws with
  | nil => rfl
  | cons w t ih =>
    rw [List.map_cons, List.sum_cons, List.flatten_cons, List.map_append,
      List.sum_append, ih]
    congr 1
    exact nonws_row w

end GitActivity

namespace GitActivity

/-! ## Supporting lemmas for the orientation claim: the transpose -/

theorem getD_succ_tail {α : Type} (l : List α) (i : Nat) (d : α) :
    l.getD (i + 1) d = l.tail.getD i d := by
  cases l <;> rfl

theorem getD_mem {α : Type} :
    ∀ (l : List α) (i : Nat) (d : α), i < l.length → l.getD i d ∈ l := by
  intro l
  induction l with
  | nil => intro i d h; simp at h
  | cons a t ih =>
    intro i d h
    cases i with
    | zero => exact List.mem_cons_self _ _
    | succ j =>
      rw [List.length_cons, Nat.succ_lt_succ_iff] at h
      exact List.mem_cons_of_mem _ (ih j d h)

theorem map_range_getD {α : Type} (d : α) :
    ∀ r : List α, (List.range r.length).map (fun i => r.getD i d) = r := by
  intro r
  induction r with
  | nil => rfl
  | cons a t ih =>
    rw [List.length_cons, List.range_succ_eq_map, List.map_cons, List.map_map]
    congr 1

theorem headsTails_all_nil {α : Type} (t : List (List α)) :
    headsTails (([] : List α) :: t) = none := by
  unfold headsTails
  rw [List.foldr_cons]

theorem headsTails_uniform {α : Type} (d : α) :
    ∀ (rows : List (List α)) (n : Nat), (∀ r ∈ rows, r.length = n + 1) →
      headsTails rows
        = some (rows.map (fun r => r.headD d), rows.map (fun r => r.tail)) := by
  intro rows
  induction rows with
  | nil => intro n _; rfl
  | cons r t ih =>
    intro n h
    have hr : r.length = n + 1 := h r (List.mem_cons_self r t)
    have ht := ih n (fun x hx => h x (List.mem_cons_of_mem _ hx))
    cases r with
    | nil => simp at hr
    | cons a rt =>
      unfold headsTails
      unfold headsTails at ht
      rw [List.foldr_cons, ht]
      rfl

theorem pyZipGo_uniform {α : Type} (d : α) :
    ∀ (n fuel : Nat) (rows : List (List α)), rows ≠ [] →
      (∀ r ∈ rows, r.length = n) → n ≤ fuel →
      pyZipGo fuel rows
        = (List.range n).map (fun i => rows.map (fun r => r.getD i d)) := by
  intro n
  induction n with
  | zero =>
    intro fuel rows hne hlen _
    obtain ⟨r, t, rfl⟩ := List.exists_cons_of_ne_nil hne
    have hr : r = [] := List.length_eq_zero.mp (hlen r (List.mem_cons_self r t))
    subst hr
    cases fuel with
    | zero => rfl
    | succ f =>
      unfold pyZipGo
      rw [headsTails_all_nil]
      rfl
  | succ m ih =>
    intro fuel rows hne hlen hfuel
    cases fuel with
    | zero => omega
    | succ f =>
      unfold pyZipGo
      rw [headsTails_uniform d rows m hlen]
      have hne2 : rows.map (fun r => r.tail) ≠ [] := by
        simpa using hne
      have hlen2 : ∀ r ∈ rows.map (fun r => r.tail), r.length = m := by
        intro r hr
        obtain ⟨x, hx, rfl⟩ := List.mem_map.mp hr
        have := hlen x hx
        simp [List.length_tail, this]
      show (rows.map (fun r => r.headD d)) :: pyZipGo f (rows.map (fun r => r.tail)) = _
      rw [ih f (rows.map (fun r => r.tail)) hne2 hlen2 (by omega)]
      rw [List.range_succ_eq_map, List.map_cons, List.map_map]
      congr 1
      · refine List.map_congr_left ?_
        intro r hr
        have hrl := hlen r hr
        cases r with
        | nil => simp at hrl
        | cons a rt => rfl
      · refine List.map_congr_left ?_
        intro i _
        show (rows.map (fun r => r.tail)).map (fun r => r.getD i d)
            = rows.map (fun r => r.getD (i + 1) d)
        rw [List.map_map]
        refine List.map_congr_left ?_
        intro r _
        show r.tail.getD i d = r.getD (i + 1) d
        exact (getD_succ_tail r i d).symm

/-- On a non-empty rectangular matrix, `zip(*rows)` is the transpose. -/
theorem pyZip_rect {α : Type} (d : α) (n : Nat) (rows : List (List α))
    (hne : rows ≠ []) (hlen : ∀ r ∈ rows, r.length = n) :
    pyZip rows = (List.range n).map (fun i => rows.map (fun r => r.getD i d)) := by
  obtain ⟨r, t, rfl⟩ := List.exists_cons_of_ne_nil hne
  show pyZipGo r.length (r :: t) = _
  have hr : r.length = n := hlen r (List.mem_cons_self r t)
  exact pyZipGo_uniform d n r.length (r :: t) (by simp) hlen (by omega)

theorem flatten_map_cons_perm {α β : Type} (L : List β) (f : β → α)
    (g : β → List α) :
    ((L.map (fun x => f x :: g x)).flatten).Perm (L.map f ++ (L.map g).flatten) := by
  induction L with
  | nil => simp
  | cons b t ih =>
    simp only [List.map_cons, List.flatten_cons, List.cons_append]
    refine List.Perm.cons _ ?_
    refine (List.Perm.append_left (g b) ih).trans ?_
    rw [← List.append_assoc, ← List.append_assoc]
    exact List.Perm.append_right _ List.perm_append_comm

/-- Transposing a rectangular matrix permutes its flattened entries. -/
theorem cols_flatten_perm {α : Type} (d : α) (n : Nat) :
    ∀ rows : List (List α), (∀ r ∈ rows, r.length = n) →
      (((List.range n).map (fun i => rows.map (fun r => r.getD i d))).flatten).Perm
        rows.flatten := by
  intro rows
  induction rows with
  | nil =>
    intro _
    simp
  | cons r t ih =>
    intro h
    have hr : r.length = n := h r (List.mem_cons_self r t)
    have ht := ih (fun x hx => h x (List.mem_cons_of_mem _ hx))
    have h1 : ((List.range n).map (fun i => (r :: t).map (fun x => x.getD i d))).flatten
        = ((List.range n).map (fun i => r.getD i d :: t.map (fun x => x.getD i d))).flatten := by
      simp only [List.map_cons]
    rw [h1, List.flatten_cons]
    refine (flatten_map_cons_perm _ _ _).trans ?_
    have h2 : (List.range n).map (fun i => r.getD i d) = r := by
      rw [← hr]; exact map_range_getD d r
    rw [h2]
    exact List.Perm.append_left r ht

/-- `zip(*rows)` of a non-empty rectangular matrix preserves the
multiset of entries. -/
theorem pyZip_flatten_perm {α : Type} (d : α) (n : Nat) (rows : List (List α))
    (hne : rows ≠ []) (hlen : ∀ r ∈ rows, r.length = n) :
    ((pyZip rows).flatten).Perm rows.flatten := by
  rw [pyZip_rect d n rows hne hlen]
  exact cols_flatten_perm d n rows hlen

end GitActivity

namespace GitActivity

/-! ## Supporting lemmas for the orientation claim: lines and tokens -/

theorem pySplit_cons (sep c : Char) (t : List Char) :
    pySplit sep (c :: t)
      = if c = sep then [] :: pySplit sep t
        else
          match pySplit sep t with
          | [] => [[c]]
          | h :: r => (c :: h) :: r := rfl

theorem pySplit_no_sep (sep : Char) :
    ∀ p : List Char, sep ∉ p → pySplit sep p = [p] := by
  intro p
  induction p with
  | nil => intro _; rfl
  | cons c t ih =>
    intro h
    have hc : ¬(c = sep) := fun e => h (e ▸ List.mem_cons_self c t)
    rw [pySplit_cons, if_neg hc, ih (fun hm => h (List.mem_cons_of_mem _ hm))]

theorem pySplit_append_sep (sep : Char) :
    ∀ (p rest : List Char), sep ∉ p →
      pySplit sep (p ++ sep :: rest) = p :: pySplit sep rest := by
  intro p
  induction p with
  | nil =>
    intro rest _
    show pySplit sep (sep :: rest) = [] :: pySplit sep rest
    rw [pySplit_cons, if_pos rfl]
  | cons c t ih =>
    intro rest h
    have hc : ¬(c = sep) := fun e => h (e ▸ List.mem_cons_self c t)
    show pySplit sep (c :: (t ++ sep :: rest)) = (c :: t) :: pySplit sep rest
    rw [pySplit_cons, if_neg hc, ih rest (fun hm => h (List.mem_cons_of_mem _ hm))]

theorem pySplit_pyJoin (sep : Char) :
    ∀ parts : List (List Char), parts ≠ [] → (∀ p ∈ parts, sep ∉ p) →
      pySplit sep (pyJoin [sep] parts) = parts := by
  intro parts
  induction parts with
  | nil => intro hne _; exact absurd rfl hne
  | cons p t ih =>
    intro _ h
    cases t with
    | nil => exact pySplit_no_sep sep p (h p (List.mem_cons_self p []))
    | cons q t2 =>
      rw [pyJoin_eq_cons, List.append_assoc, List.singleton_append,
        pySplit_append_sep sep p _ (h p (List.mem_cons_self p _)),
        ih (by simp) (fun x hx => h x (List.mem_cons_of_mem _ hx))]

theorem pyJoin_append_last (c : Char) :
    ∀ (l : List (List Char)) (x : List Char),
      pyJoin [c] (l ++ [x]) = l.flatMap (fun p => p ++ [c]) ++ x := by
  intro l
  induction l with
  | nil => intro x; rfl
  | cons a t ih =>
    intro x
    cases t with
    | nil => simp [pyJoin]
    | cons b t2 =>
      rw [List.cons_append]
      have h2 : (b :: t2) ++ [x] = b :: (t2 ++ [x]) := rfl
      rw [h2, pyJoin_eq_cons, ← h2, ih x, List.flatMap_cons]
      simp [List.append_assoc]

theorem dropLast_append_getLastD {α : Type} :
    ∀ l : List α, l ≠ [] → ∀ d : α, l.dropLast ++ [l.getLastD d] = l := by
  intro l
  induction l with
  | nil => intro h; exact absurd rfl h
  | cons a t ih =>
    intro _ d
    cases t with
    | nil => rfl
    | cons b t2 =>
      rw [List.getLastD_cons]
      show a :: ((b :: t2).dropLast ++ [(b :: t2).getLastD a]) = a :: b :: t2
      rw [ih (by simp) a]

theorem takeWhile_all (p : Char → Bool) :
    ∀ l : List Char, (∀ c ∈ l, p c = true) → l.takeWhile p = l := by
  intro l
  induction l with
  | nil => intro _; rfl
  | cons c t ih =>
    intro h
    rw [List.takeWhile_cons, if_pos (h c (List.mem_cons_self c t)),
      ih (fun x hx => h x (List.mem_cons_of_mem _ hx))]

theorem nonws_eq_zero (s : List Char) (h : ∀ c ∈ s, isPySpace c = true) :
    nonws s = 0 := by
  unfold nonws
  have hf : s.filter (fun c => !(isPySpace c)) = [] := by
    rw [List.filter_eq_nil_iff]
    intro c hc
    simp [h c hc]
  rw [hf]
  rfl

theorem pyNegSlice_subset (x : List Char) (k : Int) :
    ∀ c ∈ pyNegSlice x k, c ∈ x := by
  intro c hc
  unfold pyNegSlice at hc
  split at hc
  · exact List.take_subset _ _ hc
  · exact List.take_subset _ _ hc

/-- Every token of `pyTokens` is non-empty and either all-whitespace or
headed by a non-whitespace character. -/
theorem pyTokens_classify :
    ∀ s : List Char, ∀ t ∈ pyTokens s,
      t ≠ [] ∧ ((∀ c ∈ t, isPySpace c = true) ∨ isPySpace (t.headD 'a') = false) := by
  intro s
  induction s using pyTokens.induct with
  | case1 => intro t ht; simp [pyTokens] at ht
  | case2 c rest hsp ih =>
    intro t ht
    simp only [pyTokens] at ht
    rw [if_pos hsp] at ht
    rcases List.mem_cons.mp ht with rfl | hmem
    · refine ⟨by simp, Or.inl ?_⟩
      intro x hx
      rcases List.mem_cons.mp hx with rfl | hx2
      · exact hsp
      · exact List.mem_takeWhile_imp hx2
    · exact ih t hmem
  | case3 c rest hnsp hw ih =>
    intro t ht
    simp only [pyTokens] at ht
    rw [if_neg hnsp, if_pos hw] at ht
    rcases List.mem_cons.mp ht with rfl | hmem
    · refine ⟨by simp, Or.inr ?_⟩
      show isPySpace c = false
      exact Bool.not_eq_true _ ▸ (by simpa using hnsp)
    · exact ih t hmem
  | case4 c rest hnsp hnw ih =>
    intro t ht
    simp only [pyTokens] at ht
    rw [if_neg hnsp, if_neg hnw] at ht
    exact ih t ht

/-- On strings of whitespace and word characters the tokenizer loses
nothing. -/
theorem pyTokens_flatten :
    ∀ s : List Char, (∀ c ∈ s, isPySpace c = true ∨ isPyWord c = true) →
      (pyTokens s).flatten = s := by
  intro s
  induction s using pyTokens.induct with
  | case1 => intro _; simp [pyTokens]
  | case2 c rest hsp ih =>
    intro h
    simp only [pyTokens]
    rw [if_pos hsp, List.flatten_cons,
      ih (fun x hx => h x (List.mem_cons_of_mem _ ((List.dropWhile_sublist _).subset hx)))]
    rw [List.cons_append, List.takeWhile_append_dropWhile]
  | case3 c rest hnsp hw ih =>
    intro h
    simp only [pyTokens]
    rw [if_neg hnsp, if_pos hw, List.flatten_cons,
      ih (fun x hx => h x (List.mem_cons_of_mem _ ((List.dropWhile_sublist _).subset hx)))]
    rw [List.cons_append, List.takeWhile_append_dropWhile]
  | case4 c rest hnsp hnw ih =>
    intro h
    rcases h c (List.mem_cons_self c rest) with hc | hc
    · exact absurd hc hnsp
    · exact absurd hc hnw

end GitActivity

namespace GitActivity

/-- The month-label spacing fixup only rearranges whitespace: on a
multi-line string whose last line consists of whitespace and word
characters and whose non-whitespace tokens are at least as long as the
measured element width, it preserves the multiset of non-whitespace
characters. -/
theorem adjust_nonws_of (parts : List (List Char)) (hne : parts ≠ [])
    (hnl : ∀ p ∈ parts, '\n' ∉ p)
    (hlast : ∀ c ∈ parts.getLastD [], isPySpace c = true ∨ isPyWord c = true)
    (htok : ∀ t ∈ pyTokens (parts.getLastD []),
      (∀ c ∈ t, isPySpace c = true) ∨
        non_ansi_len ((parts.dropLast.getLastD [] ++ ['\n']).takeWhile
          (fun c => !(c = ' '))) ≤ t.length) :
    nonws (adjust_month_label_spacing (pyJoin ['\n'] parts))
      = nonws (pyJoin ['\n'] parts) := by
  have hsplit : pySplit '\n' (pyJoin ['\n'] parts) = parts :=
    pySplit_pyJoin '\n' parts hne hnl
  simp only [adjust_month_label_spacing]
  rw [hsplit]
  set EW := non_ansi_len
    ((parts.dropLast.getLastD [] ++ ['\n']).takeWhile (fun c => !(c = ' '))) with hEW
  rw [nonws_append]
  conv_rhs => rw [← dropLast_append_getLastD parts hne ([] : List Char)]
  rw [pyJoin_append_last, nonws_append]
  congr 1
  rw [nonws_flatten, List.map_map, List.map_append, List.sum_append, List.map_map]
  have hsp_f2 : ∀ s : List Char, (∀ c ∈ s, isPySpace c = true) →
      nonws (if s.length < EW then [' ', ' '] else s) = 0 := by
    intro s hs
    split
    · refine nonws_eq_zero _ ?_
      intro c hc
      simp only [List.mem_cons, List.not_mem_nil, or_false] at hc
      rcases hc with rfl | rfl <;> rfl
    · exact nonws_eq_zero _ hs
  have hword_f2 : ∀ t : List Char, EW ≤ t.length →
      (if t.length < EW then ([' ', ' '] : List Char) else t) = t :=
    fun t h => if_neg (by omega)
  have htake : ((pyTokens (parts.getLastD [])).take 1).map
        (nonws ∘ (fun x => if x.length < EW then [' ', ' '] else x))
      = ((pyTokens (parts.getLastD [])).take 1).map nonws := by
    refine List.map_congr_left ?_
    intro t ht
    have htm : t ∈ pyTokens (parts.getLastD []) := List.take_subset _ _ ht
    show nonws (if t.length < EW then [' ', ' '] else t) = nonws t
    rcases htok t htm with hsp | hlen
    · rw [hsp_f2 t hsp, nonws_eq_zero t hsp]
    · rw [hword_f2 t hlen]
  have hdrop : ((pyTokens (parts.getLastD [])).drop 1).map
        ((nonws ∘ (fun x => if x.length < EW then [' ', ' '] else x)) ∘
          (fun x => if isPySpace (x.headD 'a') = true
            then pyNegSlice x (3 - (EW : Int)) else x))
      = ((pyTokens (parts.getLastD [])).drop 1).map nonws := by
    refine List.map_congr_left ?_
    intro t ht
    have htm : t ∈ pyTokens (parts.getLastD []) := List.drop_subset _ _ ht
    obtain ⟨hne2, hcl⟩ := pyTokens_classify (parts.getLastD []) t htm
    show nonws (if (if isPySpace (t.headD 'a') = true
          then pyNegSlice t (3 - (EW : Int)) else t).length < EW
        then [' ', ' ']
        else (if isPySpace (t.headD 'a') = true
          then pyNegSlice t (3 - (EW : Int)) else t)) = nonws t
    rcases hcl with hsp | hhead
    · have hh : isPySpace (t.headD 'a') = true := by
        cases t with
        | nil => exact absurd rfl hne2
        | cons c u => exact hsp c (List.mem_cons_self c u)
      rw [if_pos hh]
      rw [hsp_f2 _ (fun c hc => hsp c (pyNegSlice_subset _ _ c hc)),
        nonws_eq_zero t hsp]
    · rw [if_neg (fun h => Bool.false_ne_true (hhead ▸ h))]
      rcases htok t htm with hsp | hlen
      · rw [hsp_f2 t hsp, nonws_eq_zero t hsp]
      · rw [hword_f2 t hlen]
  rw [htake, hdrop, ← List.sum_append, ← List.map_append, List.take_append_drop]
  rw [← nonws_flatten, pyTokens_flatten _ hlast]

end GitActivity

namespace GitActivity

/-! ## Supporting lemmas for the orientation claim: box contents -/

theorem isAlpha_not_space (c : Char) (h : c.isAlpha = true) :
    isPySpace c = false ∧ c ≠ '\n' ∧ c ≠ ' ' := by
  refine ⟨?_, ?_, ?_⟩
  · simp only [isPySpace, Bool.or_eq_false_iff, decide_eq_false_iff_not]
    repeat' apply And.intro
    all_goals intro heq
    all_goals subst heq
    all_goals simp at h
  · intro heq; subst heq; simp at h
  · intro heq; subst heq; simp at h

theorem isDigit_facts (c : Char) (h : c.isDigit = true) :
    isPySpace c = false ∧ c ≠ '\n' ∧ c ≠ ' ' := by
  refine ⟨?_, ?_, ?_⟩
  · simp only [isPySpace, Bool.or_eq_false_iff, decide_eq_false_iff_not]
    repeat' apply And.intro
    all_goals intro heq
    all_goals subst heq
    all_goals simp at h
  · intro heq; subst heq; simp at h
  · intro heq; subst heq; simp at h

theorem fg_chars (color : Nat) : ∀ c ∈ fg color, c ≠ '\n' ∧ c ≠ ' ' := by
  intro c hc
  unfold fg at hc
  simp only [List.mem_cons, List.mem_append, List.mem_singleton,
    List.not_mem_nil, or_false] at hc
  rcases hc with rfl | rfl | rfl | rfl | rfl | rfl | rfl | hd | rfl
  · exact ⟨by decide, by decide⟩
  · exact ⟨by decide, by decide⟩
  · exact ⟨by decide, by decide⟩
  · exact ⟨by decide, by decide⟩
  · exact ⟨by decide, by decide⟩
  · exact ⟨by decide, by decide⟩
  · exact ⟨by decide, by decide⟩
  · exact (isDigit_facts c (natDigits_digits color c hd)).2
  · exact ⟨by decide, by decide⟩

theorem colorize_block_chars (color : Nat) :
    ∀ c ∈ colorize_string ['◼'] color, c ≠ '\n' ∧ c ≠ ' ' := by
  intro c hc
  unfold colorize_string at hc
  rcases List.mem_append.mp hc with h1 | h2
  · rcases List.mem_append.mp h1 with hf | hb
    · exact fg_chars color c hf
    · rcases List.mem_singleton.mp hb with rfl
      exact ⟨by decide, by decide⟩
  · exact fg_chars DEFAULT_COLOR c h2

set_option maxHeartbeats 1000000 in
theorem month_abbrev_mem (m : Int) :
    month_abbrev m ∈
      [['J','a','n'], ['F','e','b'], ['M','a','r'], ['A','p','r'],
       ['M','a','y'], ['J','u','n'], ['J','u','l'], ['A','u','g'],
       ['S','e','p'], ['O','c','t'], ['N','o','v'], ['D','e','c']] := by
  unfold month_abbrev
  repeat' split
  all_goals simp

theorem month_abbrev_alpha (m : Int) : ∀ c ∈ month_abbrev m, c.isAlpha = true := by
  intro c hc
  have hm := month_abbrev_mem m
  simp only [List.mem_cons, List.not_mem_nil, or_false] at hm
  rcases hm with h|h|h|h|h|h|h|h|h|h|h|h <;>
    (rw [h] at hc
     simp only [List.mem_cons, List.not_mem_nil, or_false] at hc
     rcases hc with rfl|rfl|rfl <;> decide)

theorem month_abbrev_length (m : Int) : (month_abbrev m).length = 3 := by
  have hm := month_abbrev_mem m
  simp only [List.mem_cons, List.not_mem_nil, or_false] at hm
  rcases hm with h|h|h|h|h|h|h|h|h|h|h|h <;> rw [h] <;> rfl

theorem month_abbrev_word (m : Int) :
    ∀ c ∈ month_abbrev m, isPyWord c = true := by
  intro c hc
  have h := month_abbrev_alpha m c hc
  simp [isPyWord, Char.isAlphanum, h]

theorem stripAnsi_nil : stripAnsi [] = [] := by
  rw [stripAnsi]

theorem matchEsc_cons_ne (c : Char) (hc : c ≠ '\x1b') :
    ∀ l : List Char, matchEsc (c :: l) = none := by
  intro l
  cases l with
  | nil => rfl
  | cons c2 rest =>
    show (if c = '\x1b' ∧ c2 = '[' then matchEscBody rest else none) = none
    rw [if_neg]
    intro h
    exact hc h.1

theorem stripAnsi_block (color : Nat) :
    stripAnsi (colorize_string ['◼'] color) = ['◼'] := by
  rw [stripAnsi_colorize, stripAnsi_cons_none _ _ (matchEsc_cons_ne '◼' (by decide) []),
    stripAnsi_nil]

/-- In block mode the measured element width of `render_gads` is one. -/
theorem element_width_block (q : Int × Int × Int) :
    non_ansi_len (((render_colored_block_gad DUMMY_GAD q).getD 0 []).getD 0 []) = 1 := by
  show non_ansi_len (colorize_string ['◼'] (determine_color_for DUMMY_GAD q)) = 1
  unfold non_ansi_len
  rw [stripAnsi_block]
  rfl

theorem natDigitsAux_length : ∀ (fuel n : Nat) (acc : List Char) (k : Nat),
    n < 10 ^ k → (natDigitsAux fuel n acc).length ≤ acc.length + k := by
  intro fuel
  induction fuel with
  | zero =>
    intro n acc k _
    rw [natDigitsAux]
    omega
  | succ f ih =>
    intro n acc k hn
    rw [natDigitsAux]
    split
    · omega
    · rename_i hn0
      have hk : k ≠ 0 := by
        intro h0
        subst h0
        simp at hn
        omega
      obtain ⟨k2, rfl⟩ : ∃ k2, k = k2 + 1 := ⟨k - 1, by omega⟩
      have hdiv : n / 10 < 10 ^ k2 := by
        rw [Nat.div_lt_iff_lt_mul (by norm_num)]
        calc n < 10 ^ (k2 + 1) := hn
          _ = 10 ^ k2 * 10 := by rw [pow_succ]
      have := ih (n / 10) (Nat.digitChar (n % 10) :: acc) k2 hdiv
      simp only [List.length_cons] at this
      omega

theorem natDigits_length_le (n k : Nat) (hk : 1 ≤ k) (hn : n < 10 ^ k) :
    (natDigits n).length ≤ k := by
  rw [natDigits]
  split
  · simpa using hk
  · have := natDigitsAux_length n n [] k hn
    simpa using this

theorem year_digits_length (y : Int) (hy : y ≤ 9999) :
    (year_digits y).length = 4 := by
  have h1 : (natDigits y.toNat).length ≤ 4 := by
    refine natDigits_length_le _ 4 (by norm_num) ?_
    have : y.toNat ≤ 9999 := by omega
    omega
  unfold year_digits
  rw [List.length_append, List.length_replicate]
  omega

theorem year_digits_digits (y : Int) : ∀ c ∈ year_digits y, c.isDigit = true := by
  intro c hc
  unfold year_digits at hc
  rcases List.mem_append.mp hc with h1 | h2
  · rw [List.eq_of_mem_replicate h1]
    decide
  · exact natDigits_digits _ c h2

end GitActivity

namespace GitActivity

/-! ## Supporting lemmas for the orientation claim: row structure -/

/-- The year-label row a week contributes at a year boundary. -/
def yearRowOf (w : List Gad) : List Box :=
  (year_digits (yearOf (w.getLastD (0, [])).1) ++ [' ', ' ', ' ', ' ']).map
    (fun c => [[c]])

/-- A week's row of block glyphs followed by its label box. -/
def glyphRowOf (q : Int × Int × Int) (w : List Gad) : List Box :=
  w.flatMap (fun gad => render_colored_block_gad gad q) ++
    [if monthOf (w.headD (0, [])).1 ≠ monthOf (w.getLastD (0, [])).1 ∨
        dayOf (w.headD (0, [])).1 = 1
     then [month_abbrev (monthOf (w.getLastD (0, [])).1)]
     else [List.replicate
       (non_ansi_len (((render_colored_block_gad DUMMY_GAD q).getD 0 []).getD 0 [])) ' ']]

/-- The rows of block-mode `render_gads` output, between newline boxes. -/
def rowsOf (q : Int × Int × Int) (gads : List (List Gad)) : List (List Box) :=
  gads.flatMap (fun w =>
    (if yearOf (w.headD (0, [])).1 ≠ yearOf (w.getLastD (0, [])).1 ∨
        (dayOf (w.headD (0, [])).1 = 1 ∧ monthOf (w.headD (0, [])).1 = 1)
     then [yearRowOf w] else []) ++ [glyphRowOf q w])

theorem block_flatMap_map (q : Int × Int × Int) (w : List Gad) :
    w.flatMap (fun gad => render_colored_block_gad gad q)
      = w.map (fun gad => [colorize_string ['◼'] (determine_color_for gad q)]) := by
  induction w with
  | nil => rfl
  | cons g t ih => rw [List.flatMap_cons, ih]; rfl

theorem week_row_block (q : Int × Int × Int) (w : List Gad) :
    week_row_spec render_colored_block_gad q w
      = ((if yearOf (w.headD (0, [])).1 ≠ yearOf (w.getLastD (0, [])).1 ∨
            (dayOf (w.headD (0, [])).1 = 1 ∧ monthOf (w.headD (0, [])).1 = 1)
          then [yearRowOf w] else []) ++ [glyphRowOf q w]).flatMap
          (fun seg => seg ++ [[['\n']]]) := by
  simp only [week_row_spec, yearRowOf, glyphRowOf]
  by_cases hy : yearOf (w.headD (0, [])).1 ≠ yearOf (w.getLastD (0, [])).1 ∨
      (dayOf (w.headD (0, [])).1 = 1 ∧ monthOf (w.headD (0, [])).1 = 1)
  · rw [if_pos hy, if_pos hy]
    simp [List.append_assoc]
  · rw [if_neg hy, if_neg hy]
    simp [List.append_assoc]

/-- Splitting block-mode `render_gads` output on newline boxes yields
exactly the year and glyph rows. -/
theorem split_render_block (q : Int × Int × Int) (gads : List (List Gad))
    (h7 : ∀ w ∈ gads, w.length = 7)
    (hgood : ∀ row ∈ rowsOf q gads, [['\n']] ∉ row) :
    split_list_on [['\n']] (render_gads gads render_colored_block_gad q)
      = rowsOf q gads := by
  rw [render_gads_eq_rows gads _ q h7]
  have h1 : gads.flatMap (week_row_spec render_colored_block_gad q)
      = (rowsOf q gads).flatMap (fun seg => seg ++ [[['\n']]]) := by
    rw [rowsOf, flatMap_flatMap]
    exact flatMap_congr_mem (fun w _ => week_row_block q w)
  rw [h1, split_list_on_flatMap _ _ hgood]

theorem getD_append_left {α : Type} :
    ∀ (l₁ l₂ : List α) (n : Nat) (d : α), n < l₁.length →
      (l₁ ++ l₂).getD n d = l₁.getD n d := by
  intro l₁
  induction l₁ with
  | nil => intro l₂ n d h; simp at h
  | cons a t ih =>
    intro l₂ n d h
    cases n with
    | zero => rfl
    | succ m =>
      rw [List.length_cons, Nat.succ_lt_succ_iff] at h
      show (t ++ l₂).getD m d = t.getD m d
      exact ih l₂ m d h

theorem getD_append_right {α : Type} :
    ∀ (l₁ l₂ : List α) (n : Nat) (d : α),
      (l₁ ++ l₂).getD (l₁.length + n) d = l₂.getD n d := by
  intro l₁
  induction l₁ with
  | nil => intro l₂ n d; simp
  | cons a t ih =>
    intro l₂ n d
    have h : (a :: t).length + n = (t.length + n) + 1 := by
      rw [List.length_cons]; omega
    rw [h, List.cons_append]
    show (t ++ l₂).getD (t.length + n) d = l₂.getD n d
    exact ih l₂ n d

theorem headD_mem {α : Type} (l : List α) (h : l ≠ []) (d : α) : l.headD d ∈ l := by
  cases l with
  | nil => exact absurd rfl h
  | cons a t => exact List.mem_cons_self a t

theorem getLastD_mem {α : Type} (l : List α) (h : l ≠ []) (d : α) :
    l.getLastD d ∈ l := by
  have hm : l.getLastD d ∈ l.dropLast ++ [l.getLastD d] :=
    List.mem_append_right _ (List.mem_singleton.mpr rfl)
  rwa [dropLast_append_getLastD l h d] at hm

/-- Every box of a year row has a single digit-or-space character. -/
theorem yearRowOf_boxes (w : List Gad)
    (hy : yearOf (w.getLastD (0, [])).1 ≤ 9999) :
    (yearRowOf w).length = 8 ∧
    ∀ b ∈ yearRowOf w, ∃ s, b = [s] ∧ ∀ c ∈ s, c ≠ '\n' ∧ isPySpace c ∨ c.isDigit = true := by
  constructor
  · unfold yearRowOf
    rw [List.length_map, List.length_append, year_digits_length _ hy]
    rfl
  · intro b hb
    unfold yearRowOf at hb
    obtain ⟨c, hc, rfl⟩ := List.mem_map.mp hb
    refine ⟨[c], rfl, ?_⟩
    intro x hx
    rcases List.mem_singleton.mp hx with rfl
    rcases List.mem_append.mp hc with h1 | h2
    · exact Or.inr (year_digits_digits (yearOf (w.getLastD (0, [])).1) x h1)
    · left
      simp only [List.mem_cons, List.not_mem_nil, or_false] at h2
      rcases h2 with rfl | rfl | rfl | rfl <;> exact ⟨by decide, by decide⟩

end GitActivity

namespace GitActivity

theorem yearRowOf_boxes_nl (w : List Gad)
    (hy : yearOf (w.getLastD (0, [])).1 ≤ 9999) :
    (yearRowOf w).length = 8 ∧
    ∀ b ∈ yearRowOf w, ∃ s, b = [s] ∧ ∀ c ∈ s, c ≠ '\n' := by
  obtain ⟨hl, hb⟩ := yearRowOf_boxes w hy
  refine ⟨hl, fun b hbm => ?_⟩
  obtain ⟨s, hs, hchars⟩ := hb b hbm
  refine ⟨s, hs, fun c hc => ?_⟩
  rcases hchars c hc with ⟨h1, _⟩ | h2
  · exact h1
  · exact (isDigit_facts c h2).2.1

theorem glyphRowOf_boxes (q : Int × Int × Int) (w : List Gad) (h7 : w.length = 7) :
    (glyphRowOf q w).length = 8 ∧
    ∀ b ∈ glyphRowOf q w, ∃ s, b = [s] ∧ ∀ c ∈ s, c ≠ '\n' := by
  constructor
  · unfold glyphRowOf
    rw [List.length_append, block_flatMap_map, List.length_map, h7]
    rfl
  · intro b hb
    unfold glyphRowOf at hb
    rcases List.mem_append.mp hb with h1 | h2
    · rw [block_flatMap_map] at h1
      obtain ⟨g, hg, rfl⟩ := List.mem_map.mp h1
      exact ⟨_, rfl, fun c hc => (colorize_block_chars _ c hc).1⟩
    · rcases List.mem_singleton.mp h2 with rfl
      split
      · exact ⟨_, rfl, fun c hc =>
          (isAlpha_not_space c (month_abbrev_alpha _ c hc)).2.1⟩
      · refine ⟨_, rfl, ?_⟩
        intro c hc
        rw [List.eq_of_mem_replicate hc]
        decide

theorem rowsOf_good (q : Int × Int × Int) (gads : List (List Gad))
    (h7 : ∀ w ∈ gads, w.length = 7)
    (hyr : ∀ w ∈ gads, ∀ g ∈ w, yearOf g.1 ≤ 9999) :
    ∀ row ∈ rowsOf q gads, row.length = 8 ∧
      ∀ b ∈ row, ∃ s, b = [s] ∧ ∀ c ∈ s, c ≠ '\n' := by
  intro row hrow
  rw [rowsOf] at hrow
  obtain ⟨w, hw, hmem⟩ := List.mem_flatMap.mp hrow
  have h7w := h7 w hw
  have hwne : w ≠ [] := by
    intro h0; rw [h0] at h7w; simp at h7w
  have hyw : yearOf (w.getLastD (0, [])).1 ≤ 9999 :=
    hyr w hw _ (getLastD_mem w hwne (0, []))
  rcases List.mem_append.mp hmem with h1 | h2
  · split at h1
    · rcases List.mem_singleton.mp h1 with rfl
      exact yearRowOf_boxes_nl w hyw
    · simp at h1
  · rcases List.mem_singleton.mp h2 with rfl
    exact glyphRowOf_boxes q w h7w

theorem rowsOf_ne_nil (q : Int × Int × Int) (gads : List (List Gad))
    (hne : gads ≠ []) : rowsOf q gads ≠ [] := by
  obtain ⟨w, t, rfl⟩ := List.exists_cons_of_ne_nil hne
  rw [rowsOf, List.flatMap_cons]
  intro h
  rcases List.append_eq_nil.mp h with ⟨h1, _⟩
  rcases List.append_eq_nil.mp h1 with ⟨_, h2⟩
  simp at h2

theorem rowsOf_no_nl_box (q : Int × Int × Int) (gads : List (List Gad))
    (h7 : ∀ w ∈ gads, w.length = 7)
    (hyr : ∀ w ∈ gads, ∀ g ∈ w, yearOf g.1 ≤ 9999) :
    ∀ row ∈ rowsOf q gads, [['\n']] ∉ row := by
  intro row hrow hmem
  obtain ⟨_, hb⟩ := rowsOf_good q gads h7 hyr row hrow
  obtain ⟨s, hs, hchars⟩ := hb _ hmem
  have h1 : ['\n'] = s := by injection hs
  exact hchars '\n' (h1 ▸ List.mem_cons_self '\n' []) rfl

theorem yearRowOf_getD (w : List Gad)
    (hy : yearOf (w.getLastD (0, [])).1 ≤ 9999) :
    (yearRowOf w).getD 7 ([] : Box) = [[' ']] ∧
    (yearRowOf w).getD 6 ([] : Box) = [[' ']] := by
  unfold yearRowOf
  rw [List.map_append]
  have hl : ((year_digits (yearOf (w.getLastD (0, [])).1)).map
      (fun c => ([[c]] : Box))).length = 4 := by
    rw [List.length_map, year_digits_length _ hy]
  constructor
  · have h7 : (7 : Nat) = 4 + 3 := rfl
    rw [h7, ← hl, getD_append_right]
    rfl
  · have h6 : (6 : Nat) = 4 + 2 := rfl
    rw [h6, ← hl, getD_append_right]
    rfl

theorem glyphRowOf_getD7 (q : Int × Int × Int) (w : List Gad) (h7 : w.length = 7) :
    (glyphRowOf q w).getD 7 ([] : Box)
      = (if monthOf (w.headD (0, [])).1 ≠ monthOf (w.getLastD (0, [])).1 ∨
            dayOf (w.headD (0, [])).1 = 1
         then [month_abbrev (monthOf (w.getLastD (0, [])).1)]
         else [List.replicate
           (non_ansi_len
             (((render_colored_block_gad DUMMY_GAD q).getD 0 []).getD 0 [])) ' ']) := by
  unfold glyphRowOf
  have hl : (w.flatMap (fun gad => render_colored_block_gad gad q)).length = 7 := by
    rw [block_flatMap_map, List.length_map, h7]
  have h7e : (7 : Nat)
      = (w.flatMap (fun gad => render_colored_block_gad gad q)).length + 0 := by
    rw [hl]
  rw [h7e, getD_append_right]
  rfl

theorem glyphRowOf_getD6 (q : Int × Int × Int) (w : List Gad) (h7 : w.length = 7) :
    ∃ g ∈ w, (glyphRowOf q w).getD 6 ([] : Box)
      = [colorize_string ['◼'] (determine_color_for g q)] := by
  unfold glyphRowOf
  rw [block_flatMap_map]
  have hlen : (w.map
      (fun gad => [colorize_string ['◼'] (determine_color_for gad q)])).length = 7 := by
    rw [List.length_map, h7]
  rw [getD_append_left _ _ 6 _ (by rw [hlen]; norm_num)]
  have hmem : (w.map
        (fun gad => [colorize_string ['◼'] (determine_color_for gad q)])).getD 6 []
      ∈ w.map (fun gad => [colorize_string ['◼'] (determine_color_for gad q)]) :=
    getD_mem _ 6 _ (by rw [hlen]; norm_num)
  obtain ⟨g, hg, he⟩ := List.mem_map.mp hmem
  exact ⟨g, hg, he.symm⟩

theorem rowsOf_getD7_chars (q : Int × Int × Int) (gads : List (List Gad))
    (h7 : ∀ w ∈ gads, w.length = 7)
    (hyr : ∀ w ∈ gads, ∀ g ∈ w, yearOf g.1 ≤ 9999) :
    ∀ row ∈ rowsOf q gads, ∀ s ∈ row.getD 7 ([] : Box), ∀ c ∈ s,
      isPySpace c = true ∨ isPyWord c = true := by
  intro row hrow
  rw [rowsOf] at hrow
  obtain ⟨w, hw, hmem⟩ := List.mem_flatMap.mp hrow
  have h7w := h7 w hw
  have hwne : w ≠ [] := by
    intro h0; rw [h0] at h7w; simp at h7w
  have hyw : yearOf (w.getLastD (0, [])).1 ≤ 9999 :=
    hyr w hw _ (getLastD_mem w hwne (0, []))
  rcases List.mem_append.mp hmem with h1 | h2
  · split at h1
    · rcases List.mem_singleton.mp h1 with rfl
      rw [(yearRowOf_getD w hyw).1]
      intro s hs c hc
      rcases List.mem_singleton.mp hs with rfl
      rcases List.mem_singleton.mp hc with rfl
      left; rfl
    · simp at h1
  · rcases List.mem_singleton.mp h2 with rfl
    rw [glyphRowOf_getD7 q w h7w]
    intro s hs c hc
    split at hs
    · rcases List.mem_singleton.mp hs with rfl
      exact Or.inr (month_abbrev_word _ c hc)
    · rcases List.mem_singleton.mp hs with rfl
      rw [List.eq_of_mem_replicate hc]
      left; rfl

end GitActivity

namespace GitActivity

theorem getD_of_le {α : Type} :
    ∀ (l : List α) (n : Nat) (d : α), l.length ≤ n → l.getD n d = d := by
  intro l
  induction l with
  | nil => intro n d _; cases n <;> rfl
  | cons a t ih =>
    intro n d h
    cases n with
    | zero => simp at h
    | succ m =>
      show t.getD m d = d
      exact ih m d (by simpa using h)

theorem mem_pyJoin (sep : List Char) :
    ∀ (parts : List (List Char)) (c : Char), c ∈ pyJoin sep parts →
      c ∈ sep ∨ ∃ p ∈ parts, c ∈ p := by
  intro parts
  induction parts with
  | nil => intro c hc; simp [pyJoin] at hc
  | cons s t ih =>
    intro c hc
    cases t with
    | nil => exact Or.inr ⟨s, List.mem_cons_self _ _, hc⟩
    | cons r t2 =>
      rw [pyJoin_eq_cons] at hc
      rcases List.mem_append.mp hc with h1 | h2
      · rcases List.mem_append.mp h1 with hs | hsep
        · exact Or.inr ⟨s, List.mem_cons_self _ _, hs⟩
        · exact Or.inl hsep
      · rcases ih c h2 with h | ⟨p, hp, hcp⟩
        · exact Or.inl h
        · exact Or.inr ⟨p, List.mem_cons_of_mem _ hp, hcp⟩

theorem rowJoin_no_nl (rows : List (List Box)) (i : Nat)
    (hgood : ∀ r ∈ rows, ∀ b ∈ r, ∃ s, b = [s] ∧ ∀ c ∈ s, c ≠ '\n') :
    '\n' ∉ pyJoin [' '] ((rows.map (fun r => r.getD i ([] : Box))).flatMap id) := by
  intro hmem
  rcases mem_pyJoin [' '] _ '\n' hmem with hsep | ⟨p, hp, hcp⟩
  · simp at hsep
  · obtain ⟨b, hb, hpb⟩ := List.mem_flatMap.mp hp
    obtain ⟨r, hr, rfl⟩ := List.mem_map.mp hb
    by_cases hi : i < r.length
    · have hbm : r.getD i ([] : Box) ∈ r := getD_mem r i _ hi
      obtain ⟨s, hs, hchars⟩ := hgood r hr _ hbm
      rw [hs] at hpb
      rcases List.mem_singleton.mp hpb with rfl
      exact hchars '\n' hcp rfl
    · rw [getD_of_le r i _ (by omega)] at hpb
      simp at hpb

theorem lastline_chars (q : Int × Int × Int) (gads : List (List Gad))
    (h7 : ∀ w ∈ gads, w.length = 7)
    (hyr : ∀ w ∈ gads, ∀ g ∈ w, yearOf g.1 ≤ 9999) :
    ∀ c ∈ pyJoin [' ']
        (((rowsOf q gads).map (fun r => r.getD 7 ([] : Box))).flatMap id),
      isPySpace c = true ∨ isPyWord c = true := by
  intro c hc
  rcases mem_pyJoin [' '] _ c hc with hsep | ⟨p, hp, hcp⟩
  · rcases List.mem_singleton.mp hsep with rfl
    left; rfl
  · obtain ⟨b, hb, hpb⟩ := List.mem_flatMap.mp hp
    obtain ⟨r, hr, rfl⟩ := List.mem_map.mp hb
    exact rowsOf_getD7_chars q gads h7 hyr r hr p hpb c hcp

theorem rowsOf_cons (q : Int × Int × Int) (w : List Gad) (grest : List (List Gad)) :
    rowsOf q (w :: grest)
      = ((if yearOf (w.headD (0, [])).1 ≠ yearOf (w.getLastD (0, [])).1 ∨
            (dayOf (w.headD (0, [])).1 = 1 ∧ monthOf (w.headD (0, [])).1 = 1)
          then [yearRowOf w] else []) ++ [glyphRowOf q w]) ++ rowsOf q grest := by
  rw [rowsOf, List.flatMap_cons]
  rfl

theorem rowsOf_head (q : Int × Int × Int) (w : List Gad) (grest : List (List Gad)) :
    (rowsOf q (w :: grest)).headD []
      = (if yearOf (w.headD (0, [])).1 ≠ yearOf (w.getLastD (0, [])).1 ∨
            (dayOf (w.headD (0, [])).1 = 1 ∧ monthOf (w.headD (0, [])).1 = 1)
         then yearRowOf w else glyphRowOf q w) := by
  rw [rowsOf_cons]
  split
  · rfl
  · rfl

theorem rowsOf_single (q : Int × Int × Int) (gads : List (List Gad)) (r : List Box)
    (h : rowsOf q gads = [r]) : ∃ w, gads = [w] ∧ r = glyphRowOf q w := by
  cases gads with
  | nil => rw [rowsOf] at h; simp at h
  | cons w grest =>
    rw [rowsOf_cons] at h
    by_cases hc : yearOf (w.headD (0, [])).1 ≠ yearOf (w.getLastD (0, [])).1 ∨
        (dayOf (w.headD (0, [])).1 = 1 ∧ monthOf (w.headD (0, [])).1 = 1)
    · rw [if_pos hc] at h
      have := congrArg List.length h
      simp at this
    · rw [if_neg hc, List.nil_append] at h
      have h2 : glyphRowOf q w :: rowsOf q grest = [r] := h
      injection h2 with h3 h4
      have hg : grest = [] := by
        by_contra hg
        exact rowsOf_ne_nil q grest hg h4
      exact ⟨w, by rw [hg], h3.symm⟩

theorem stripAnsi_block_nl (col : Nat) :
    stripAnsi (colorize_string ['◼'] col ++ ['\n']) = ['◼', '\n'] := by
  rw [colorize_string, List.append_assoc, List.append_assoc, stripAnsi_fg]
  rw [show (['◼'] : List Char) ++ (fg DEFAULT_COLOR ++ ['\n'])
      = '◼' :: (fg DEFAULT_COLOR ++ ['\n']) from rfl]
  rw [stripAnsi_cons_none _ _ (matchEsc_cons_ne '◼' (by decide) _), stripAnsi_fg]
  rw [stripAnsi_cons_none '\n' [] (by rfl), stripAnsi_nil]

end GitActivity

namespace GitActivity

/-- An all-word non-empty string tokenizes to itself. -/
theorem pyTokens_all_word (s : List Char) (hne : s ≠ [])
    (h : ∀ c ∈ s, isPyWord c = true ∧ isPySpace c = false) :
    pyTokens s = [s] := by
  cases s with
  | nil => exact absurd rfl hne
  | cons c rest =>
    have hc := h c (List.mem_cons_self c rest)
    simp only [pyTokens]
    rw [if_neg (by simp [hc.2]), if_pos hc.1]
    have ht : rest.takeWhile isPyWord = rest :=
      takeWhile_all _ _ (fun x hx => (h x (List.mem_cons_of_mem _ hx)).1)
    have hd : rest.dropWhile isPyWord = [] := by
      rw [List.dropWhile_eq_nil_iff]
      intro x hx
      exact (h x (List.mem_cons_of_mem _ hx)).1
    rw [ht, hd]
    simp [pyTokens]

theorem pyTokens_one_space : pyTokens (List.replicate 1 ' ') = [[' ']] := by
  show pyTokens [' '] = [[' ']]
  simp only [pyTokens]
  rw [if_pos (by decide)]
  show ([' '] : List Char) :: pyTokens [] = [[' ']]
  simp only [pyTokens]

end GitActivity

namespace GitActivity

/-- Per author, the horizontal (transposed and label-adjusted) rendering
has the same non-whitespace character content as the vertical one. -/
theorem author_entry_nonws (q : Int × Int × Int) (gads : List (List Gad))
    (hne : gads ≠ []) (h7 : ∀ w ∈ gads, w.length = 7)
    (hyr : ∀ w ∈ gads, ∀ g ∈ w, yearOf g.1 ≤ 9999) :
    nonws (adjust_month_label_spacing (pyJoin ['\n']
        ((pyZip (split_list_on [['\n']]
            (render_gads gads render_colored_block_gad q))).map
          (fun week => pyJoin [' '] (week.flatMap id)))))
      = nonws (pyJoin ['\n']
          ((split_list_on [['\n']]
              (render_gads gads render_colored_block_gad q)).map
            (fun week => pyJoin [' '] (week.flatMap id)))) := by
  have hgood := rowsOf_good q gads h7 hyr
  have hboxes : ∀ r ∈ rowsOf q gads, ∀ b ∈ r, ∃ s, b = [s] ∧ ∀ c ∈ s, c ≠ '\n' :=
    fun r hr => (hgood r hr).2
  have hlen8 : ∀ r ∈ rowsOf q gads, r.length = 8 := fun r hr => (hgood r hr).1
  have hrne : rowsOf q gads ≠ [] := rowsOf_ne_nil q gads hne
  rw [split_render_block q gads h7 (rowsOf_no_nl_box q gads h7 hyr)]
  have htr := pyZip_rect ([] : Box) 8 (rowsOf q gads) hrne hlen8
  have hparts : (pyZip (rowsOf q gads)).map (fun week => pyJoin [' '] (week.flatMap id))
      = [pyJoin [' '] (((rowsOf q gads).map (fun r => r.getD 0 ([] : Box))).flatMap id),
         pyJoin [' '] (((rowsOf q gads).map (fun r => r.getD 1 ([] : Box))).flatMap id),
         pyJoin [' '] (((rowsOf q gads).map (fun r => r.getD 2 ([] : Box))).flatMap id),
         pyJoin [' '] (((rowsOf q gads).map (fun r => r.getD 3 ([] : Box))).flatMap id),
         pyJoin [' '] (((rowsOf q gads).map (fun r => r.getD 4 ([] : Box))).flatMap id),
         pyJoin [' '] (((rowsOf q gads).map (fun r => r.getD 5 ([] : Box))).flatMap id),
         pyJoin [' '] (((rowsOf q gads).map (fun r => r.getD 6 ([] : Box))).flatMap id),
         pyJoin [' '] (((rowsOf q gads).map (fun r => r.getD 7 ([] : Box))).flatMap id)] := by
    rw [htr, show List.range 8 = [0, 1, 2, 3, 4, 5, 6, 7] from rfl]
    rfl
  have hB : ∀ p ∈
      [pyJoin [' '] (((rowsOf q gads).map (fun r => r.getD 0 ([] : Box))).flatMap id),
       pyJoin [' '] (((rowsOf q gads).map (fun r => r.getD 1 ([] : Box))).flatMap id),
       pyJoin [' '] (((rowsOf q gads).map (fun r => r.getD 2 ([] : Box))).flatMap id),
       pyJoin [' '] (((rowsOf q gads).map (fun r => r.getD 3 ([] : Box))).flatMap id),
       pyJoin [' '] (((rowsOf q gads).map (fun r => r.getD 4 ([] : Box))).flatMap id),
       pyJoin [' '] (((rowsOf q gads).map (fun r => r.getD 5 ([] : Box))).flatMap id),
       pyJoin [' '] (((rowsOf q gads).map (fun r => r.getD 6 ([] : Box))).flatMap id),
       pyJoin [' '] (((rowsOf q gads).map (fun r => r.getD 7 ([] : Box))).flatMap id)],
      '\n' ∉ p := by
    intro p hp
    simp only [List.mem_cons, List.not_mem_nil, or_false] at hp
    rcases hp with rfl | rfl | rfl | rfl | rfl | rfl | rfl | rfl <;>
      exact rowJoin_no_nl _ _ hboxes
  have hC : ∀ c ∈ pyJoin [' ']
      (((rowsOf q gads).map (fun r => r.getD 7 ([] : Box))).flatMap id),
      isPySpace c = true ∨ isPyWord c = true := lastline_chars q gads h7 hyr
  have hD : ∀ t ∈ pyTokens (pyJoin [' ']
      (((rowsOf q gads).map (fun r => r.getD 7 ([] : Box))).flatMap id)),
      (∀ c ∈ t, isPySpace c = true) ∨
      non_ansi_len ((pyJoin [' ']
          (((rowsOf q gads).map (fun r => r.getD 6 ([] : Box))).flatMap id)
        ++ ['\n']).takeWhile (fun c => !(c = ' '))) ≤ t.length := by
    obtain ⟨r1, rest, hr⟩ := List.exists_cons_of_ne_nil hrne
    cases rest with
    | nil =>
      obtain ⟨w, hgads, hrg⟩ := rowsOf_single q gads r1 hr
      have h7w : w.length = 7 := h7 w (by rw [hgads]; exact List.mem_cons_self w [])
      obtain ⟨g6, hg6, hbox6⟩ := glyphRowOf_getD6 q w h7w
      have hF6 : ((rowsOf q gads).map (fun r => r.getD 6 ([] : Box))).flatMap id
          = [colorize_string ['◼'] (determine_color_for g6 q)] := by
        rw [hr, hrg, List.map_cons, List.map_nil, hbox6]
        rfl
      have hEW : non_ansi_len ((pyJoin [' ']
          (((rowsOf q gads).map (fun r => r.getD 6 ([] : Box))).flatMap id)
        ++ ['\n']).takeWhile (fun c => !(c = ' '))) = 2 := by
        rw [hF6]
        show non_ansi_len ((colorize_string ['◼'] (determine_color_for g6 q)
            ++ ['\n']).takeWhile (fun c => !(c = ' '))) = 2
        rw [takeWhile_all _ _ ?_]
        · unfold non_ansi_len
          rw [stripAnsi_block_nl]
          rfl
        · intro c hc
          rcases List.mem_append.mp hc with h1 | h2
          · have := (colorize_block_chars _ c h1).2
            simp [this]
          · rcases List.mem_singleton.mp h2 with rfl
            decide
      have hlab := glyphRowOf_getD7 q w h7w
      have hF7 : pyJoin [' ']
          (((rowsOf q gads).map (fun r => r.getD 7 ([] : Box))).flatMap id)
          = (if monthOf (w.headD (0, [])).1 ≠ monthOf (w.getLastD (0, [])).1 ∨
                dayOf (w.headD (0, [])).1 = 1
             then month_abbrev (monthOf (w.getLastD (0, [])).1)
             else List.replicate
               (non_ansi_len
                 (((render_colored_block_gad DUMMY_GAD q).getD 0 []).getD 0 [])) ' ') := by
        rw [hr, hrg, List.map_cons, List.map_nil, hlab]
        split
        · rfl
        · rfl
      intro t ht
      rw [hF7] at ht
      by_cases hm : monthOf (w.headD (0, [])).1 ≠ monthOf (w.getLastD (0, [])).1 ∨
          dayOf (w.headD (0, [])).1 = 1
      · rw [if_pos hm] at ht
        have hmne : month_abbrev (monthOf (w.getLastD (0, [])).1) ≠ [] := by
          intro h0
          have := month_abbrev_length (monthOf (w.getLastD (0, [])).1)
          rw [h0] at this
          simp at this
        have hmch : ∀ c ∈ month_abbrev (monthOf (w.getLastD (0, [])).1),
            isPyWord c = true ∧ isPySpace c = false := fun c hc =>
          ⟨month_abbrev_word _ c hc,
           (isAlpha_not_space c (month_abbrev_alpha _ c hc)).1⟩
        rw [pyTokens_all_word _ hmne hmch] at ht
        rcases List.mem_singleton.mp ht with rfl
        right
        rw [hEW, month_abbrev_length]
        norm_num
      · rw [if_neg hm, element_width_block q, pyTokens_one_space] at ht
        rcases List.mem_singleton.mp ht with rfl
        left
        intro c hc
        rcases List.mem_singleton.mp hc with rfl
        rfl
    | cons r2 rest2 =>
      have hr1m : r1 ∈ rowsOf q gads := by
        rw [hr]; exact List.mem_cons_self _ _
      have hr2m : r2 ∈ rowsOf q gads := by
        rw [hr]; exact List.mem_cons_of_mem _ (List.mem_cons_self _ _)
      obtain ⟨s1, hs1, hchars1⟩ := hboxes r1 hr1m _
        (getD_mem r1 6 ([] : Box) (by rw [hlen8 r1 hr1m]; norm_num))
      obtain ⟨s2, hs2, _⟩ := hboxes r2 hr2m _
        (getD_mem r2 6 ([] : Box) (by rw [hlen8 r2 hr2m]; norm_num))
      have hEW1 : non_ansi_len ((pyJoin [' ']
          (((rowsOf q gads).map (fun r => r.getD 6 ([] : Box))).flatMap id)
        ++ ['\n']).takeWhile (fun c => !(c = ' '))) ≤ 1 := by
        have hform : ((rowsOf q gads).map (fun r => r.getD 6 ([] : Box))).flatMap id
            = s1 :: s2 :: ((rest2.map (fun r => r.getD 6 ([] : Box))).flatMap id) := by
          rw [hr, List.map_cons, List.map_cons, hs1, hs2]
          rfl
        rw [hform, pyJoin_eq_cons, List.append_assoc, List.append_assoc]
        have hbreak := (takeWhile_append_break (fun c => !(c = ' ')) s1
          (pyJoin [' '] (s2 :: ((rest2.map (fun r => r.getD 6 ([] : Box))).flatMap id))
            ++ ['\n']) ' ' (by decide)).1
        rw [show s1 ++ (([' '] : List Char) ++
            (pyJoin [' '] (s2 :: ((rest2.map (fun r => r.getD 6 ([] : Box))).flatMap id))
              ++ ['\n']))
            = s1 ++ ' ' ::
              (pyJoin [' '] (s2 :: ((rest2.map (fun r => r.getD 6 ([] : Box))).flatMap id))
                ++ ['\n']) from rfl, hbreak]
        obtain ⟨w1, grest, hg⟩ := List.exists_cons_of_ne_nil hne
        have hhead : (rowsOf q gads).headD [] = r1 := by rw [hr]; rfl
        rw [hg, rowsOf_head] at hhead
        by_cases hyc : yearOf (w1.headD (0, [])).1 ≠ yearOf (w1.getLastD (0, [])).1 ∨
            (dayOf (w1.headD (0, [])).1 = 1 ∧ monthOf (w1.headD (0, [])).1 = 1)
        · rw [if_pos hyc] at hhead
          have h7w1 : w1.length = 7 := h7 w1 (by rw [hg]; exact List.mem_cons_self _ _)
          have hw1ne : w1 ≠ [] := by
            intro h0; rw [h0] at h7w1; simp at h7w1
          have hy1 : yearOf (w1.getLastD (0, [])).1 ≤ 9999 :=
            hyr w1 (by rw [hg]; exact List.mem_cons_self _ _) _
              (getLastD_mem w1 hw1ne (0, []))
          have hyd := (yearRowOf_getD w1 hy1).2
          rw [hhead] at hyd
          rw [hyd] at hs1
          have hs1e : ([' '] : List Char) = s1 := by injection hs1
          rw [← hs1e]
          have htw : List.takeWhile (fun c => !(c = ' ')) ([' '] : List Char) = [] := rfl
          rw [htw]
          unfold non_ansi_len
          rw [stripAnsi_nil]
          norm_num
        · rw [if_neg hyc] at hhead
          have h7w1 : w1.length = 7 := h7 w1 (by rw [hg]; exact List.mem_cons_self _ _)
          obtain ⟨g6, hg6, hbox6⟩ := glyphRowOf_getD6 q w1 h7w1
          rw [hhead] at hbox6
          rw [hbox6] at hs1
          have hs1e : colorize_string ['◼'] (determine_color_for g6 q) = s1 := by
            injection hs1
          rw [← hs1e]
          rw [takeWhile_all _ _ (fun c hc => by
            simp [(colorize_block_chars _ c hc).2])]
          unfold non_ansi_len
          rw [stripAnsi_block]
          norm_num
      intro t ht
      obtain ⟨hne2, _⟩ := pyTokens_classify _ t ht
      right
      refine le_trans hEW1 ?_
      cases t with
      | nil => exact absurd rfl hne2
      | cons _ _ => simp
  rw [hparts]
  rw [adjust_nonws_of _ (by simp) hB hC hD]
  rw [← hparts]
  rw [nonws_merge_entry, nonws_merge_entry]
  exact List.Perm.sum_eq ((pyZip_flatten_perm ([] : Box) 8 _ hrne hlen8).map boxNonws)

end GitActivity

namespace GitActivity

theorem render_author_gads_vertical (author_gads : List (String × List (List Gad)))
    (F : List (List Gad) → Int × Int × Int → List Box)
    (arf : String → List Int → List Char) :
    render_author_gads author_gads F arf "vertical"
      = Except.ok (author_gads.map (fun p => arf p.1 (daily_commit_counts p.2)),
          merge_rendered_gads ((author_gads.map (fun p =>
            F p.2 (calculate_quartiles (daily_commit_counts p.2)))).map
            (fun l => split_list_on [['\n']] l))) := by
  simp only [render_author_gads]
  rw [if_pos trivial]

theorem render_author_gads_horizontal (author_gads : List (String × List (List Gad)))
    (F : List (List Gad) → Int × Int × Int → List Box)
    (arf : String → List Int → List Char) :
    render_author_gads author_gads F arf "horizontal"
      = Except.ok (author_gads.map (fun p => arf p.1 (daily_commit_counts p.2)),
          (merge_rendered_gads (diagonally_reflect
            ((author_gads.map (fun p =>
              F p.2 (calculate_quartiles (daily_commit_counts p.2)))).map
              (fun l => split_list_on [['\n']] l)))).map adjust_month_label_spacing) := by
  simp only [render_author_gads]
  rw [if_neg (by decide), if_pos trivial]

/-- C6: in block mode, the horizontal-orientation output of
`render_author_gads` contains, per author, the same multiset of
non-whitespace (glyph-token) characters as the vertical-orientation
output of the same author activity: the diagonal reflection is a
content-preserving reshape, and the month-label spacing fixup only
rearranges whitespace.  Author activities are windows of 7-day weeks
(as produced by `last_n_weeks`) over dates within `datetime`'s year
range. -/
theorem render_author_gads_orientation
    (author_gads : List (String × List (List Gad)))
    (author_render_func : String → List Int → List Char)
    (H : ∀ p ∈ author_gads, p.2 ≠ [] ∧ (∀ w ∈ p.2, w.length = 7) ∧
      (∀ w ∈ p.2, ∀ g ∈ w, yearOf g.1 ≤ 9999)) :
    ∃ authors vgads hgads,
      render_author_gads author_gads
          (fun gads q => render_gads gads render_colored_block_gad q)
          author_render_func "vertical" = Except.ok (authors, vgads) ∧
      render_author_gads author_gads
          (fun gads q => render_gads gads render_colored_block_gad q)
          author_render_func "horizontal" = Except.ok (authors, hgads) ∧
      hgads.map nonws = vgads.map nonws := by
  refine ⟨_, _, _,
    render_author_gads_vertical author_gads _ author_render_func,
    render_author_gads_horizontal author_gads _ author_render_func, ?_⟩
  simp only [merge_rendered_gads, diagonally_reflect, List.map_map]
  refine List.map_congr_left ?_
  intro p hp
  obtain ⟨hne, h7, hyr⟩ := H p hp
  show nonws (adjust_month_label_spacing (pyJoin ['\n']
      ((pyZip (split_list_on [['\n']] (render_gads p.2 render_colored_block_gad
          (calculate_quartiles (daily_commit_counts p.2))))).map
        (fun week => pyJoin [' '] (week.flatMap id)))))
    = nonws (pyJoin ['\n']
        ((split_list_on [['\n']] (render_gads p.2 render_colored_block_gad
            (calculate_quartiles (daily_commit_counts p.2)))).map
          (fun week => pyJoin [' '] (week.flatMap id))))
  exact author_entry_nonws (calculate_quartiles (daily_commit_counts p.2)) p.2 hne h7 hyr

end GitActivity

namespace GitActivity

/-- Witness: the orientation theorem instantiated on one author with the
concrete one-week window. -/
theorem render_author_gads_orientation_witness :
    (∀ p ∈ [("alice", c8_window)], p.2 ≠ ([] : List (List Gad)) ∧
      (∀ w ∈ p.2, w.length = 7) ∧ (∀ w ∈ p.2, ∀ g ∈ w, yearOf g.1 ≤ 9999)) ∧
    (∃ authors vgads hgads,
      render_author_gads [("alice", c8_window)]
          (fun gads q => render_gads gads render_colored_block_gad q)
          (fun _ _ => []) "vertical" = Except.ok (authors, vgads) ∧
      render_author_gads [("alice", c8_window)]
          (fun gads q => render_gads gads render_colored_block_gad q)
          (fun _ _ => []) "horizontal" = Except.ok (authors, hgads) ∧
      hgads.map nonws = vgads.map nonws) :=
  ⟨by decide,
   render_author_gads_orientation [("alice", c8_window)] (fun _ _ => []) (by decide)⟩

end GitActivity
